import Mathlib

/-!
# FactorioReplay: the replay.dat transcoder of `scripts/index.mjs`

A shallow embedding of `parseReplayDat` (binary to text) and `getReplayDatBytes`
(text to binary) together with the two lookup tables built at module load, and of
`stableSort`, `compareTick` and `comparePlayer`.

`index.mjs` imports its byte and text primitives from `parse.mjs` and the handler list
from `replay_frames.mjs`.  Both are taken as parameters (`Prims`, `Env`): every
function below threads the module state `σ` of those collaborators explicitly.
A small concrete instance (`refPrims`, `refEnv`) follows the interface section of the
specification and serves to evaluate the definitions on concrete inputs.  The host's
`Array.prototype.sort` is a parameter of `stableSort`, with the contract `SortContract`;
`refSort` is a concrete sort that meets it without being stable.

Where the script counts or cuts text it does so in UTF-16 code units (`utf16`, `jsLength`).
The numbers of `compareTick` and `stableSort` are the doubles of the script as far as these
functions meet them (`Number`): NaN, the two infinities and the integers that a double
holds, a decimal numeral being rounded to the nearest double as `parseInt` does.
-/

namespace FactorioReplay

/-! ## The imported interface -/

/-- The names imported from `parse.mjs`, as state transformers over the module state `σ`:
`setBuffer`, `eof`, the live bindings `datString` and `error`, the readers `read.*`, the
lexing helpers `fetch.*` and the writers `write.*`.  `readField tag` stands for `read[tag]()`
and `writeField tag` for `write[tag]()`.  `writeUint8` receives `none` when the script passes
`undefined`.  Text is a `String`; where the script counts or cuts code units (`length`,
`substring`) the definitions below go through `utf16`. -/
structure Prims (σ : Type) where
  setBufferBytes : List Nat → σ → σ
  setBufferText : String → σ → σ
  eof : σ → Bool
  datString : σ → String
  error : σ → String
  readUint8 : σ → Nat × σ
  readTick : σ → String × σ
  readField : String → σ → String × σ
  fetchUnhandledBytes : σ → String × σ
  fetchChar : σ → Char × σ
  fetchString : Char → σ → String × σ
  fetchTick : Bool → σ → (Nat × Option Nat) × σ
  fetchWhitespace : σ → σ
  fetchRestOfLine : σ → σ
  writeUint8 : Option Nat → σ → σ
  writeUint32 : Nat → σ → σ
  writeOptUint16 : Option Nat → String → σ → σ
  writeField : String → σ → σ
  writeBytes : σ → σ

/-- The shape of a handler array after its opcode and name: a handler of length 4 carries a
decode and an encode function, a handler of length 3 carries either an array of field tags
or one field tag, any other length carries nothing. -/
inductive ArgSpec (σ : Type) where
  | none : ArgSpec σ
  | single (tag : String) : ArgSpec σ
  | fields (tags : List String) : ArgSpec σ
  | custom (decode : σ → String × σ) (encode : σ → σ) : ArgSpec σ

/-- One element of `frameHandlers`: `[opcode, name, ...]`. -/
structure FrameHandler (σ : Type) where
  opcode : Nat
  name : String
  args : ArgSpec σ

/-- What `inputActionNameToFrameHandler[name]` evaluates to.  The table is an array object
indexed by strings, so besides the handlers stored by the construction loop a key may hit a
property that the array object has anyway (`inherited`). -/
inductive Slot (σ : Type) where
  | undefined : Slot σ
  | handler (h : FrameHandler σ) : Slot σ
  | inherited : Slot σ

/-- Everything `index.mjs` imports or finds in its host: the primitives, the handler list
and `resetPlayers` of `replay_frames.mjs`, and the keys under which an empty array object
already answers with a truthy value that is no handler (a built-in method, of fewer than three
parameters, whose element 0 is `undefined`). -/
structure Env (σ : Type) where
  prims : Prims σ
  frameHandlers : List (FrameHandler σ)
  resetPlayers : σ → σ
  inheritedKey : String → Bool

variable {σ : Type}

/-! ## The lookup tables (lines 5 to 9) -/

/-- The table `inputActionByteToFrameHandler` after the construction loop: each handler is
stored under its opcode, a later handler replacing an earlier one. -/
def inputActionByteToFrameHandler (frameHandlers : List (FrameHandler σ)) :
    Nat → Option (FrameHandler σ) :=
  frameHandlers.foldl (fun tbl h => fun k => if k = h.opcode then some h else tbl k)
    (fun _ => Option.none)

/-- The table `inputActionNameToFrameHandler` after the construction loop: each handler is
stored under its name, a later handler replacing an earlier one and shadowing whatever the
array object had under that key.  Names are taken to be ordinary property keys: an array
object treats an assignment to `length` or `__proto__` specially. -/
def inputActionNameToFrameHandler (inheritedKey : String → Bool)
    (frameHandlers : List (FrameHandler σ)) : String → Slot σ :=
  frameHandlers.foldl (fun tbl h => fun k => if k = h.name then Slot.handler h else tbl k)
    (fun k => if inheritedKey k then Slot.inherited else Slot.undefined)

/-! ## parseReplayDat (lines 11 to 54) -/

/-- The loop over a field list (lines 29 to 39), `frameArgs` being the text built so far. -/
def readFieldList (P : Prims σ) : List String → σ → String → String × σ
  | [], s, frameArgs => (frameArgs, s)
  | tag :: rest, s, frameArgs =>
    let r := P.readField tag s
    if r.1.length = 0 then
      readFieldList P rest r.2 frameArgs
    else
      readFieldList P rest r.2
        ((if frameArgs.length > 0 then frameArgs ++ ", " else frameArgs) ++ r.1)

/-- Lines 22 to 43: the argument text of a handler, before the leading blank is added. -/
def readArgs (P : Prims σ) : ArgSpec σ → σ → String × σ
  | ArgSpec.none, s => ("", s)
  | ArgSpec.single tag, s => P.readField tag s
  | ArgSpec.fields tags, s => readFieldList P tags s ""
  | ArgSpec.custom decode _, s => decode s

/-- One pass through the body of the `while` loop (lines 17 to 50): the line and the state
after it. -/
def parseRecord (E : Env σ) (s : σ) : String × σ :=
  let r1 := E.prims.readUint8 s
  let r2 := E.prims.readTick r1.2
  match inputActionByteToFrameHandler E.frameHandlers r1.1 with
  | some frameHandler =>
    let r3 := readArgs E.prims frameHandler.args r2.2
    let frameArgs := if r3.1.length > 0 then " " ++ r3.1 else r3.1
    (r2.1 ++ frameHandler.name ++ frameArgs, r3.2)
  | Option.none =>
    if ¬ E.prims.eof r2.2 then E.prims.fetchUnhandledBytes r2.2 else ("", r2.2)

/-- The `while (!eof())` loop of `parseReplayDat`; `fuel` bounds the number of tests of the
loop condition. -/
def parseLoop (E : Env σ) : Nat → σ → String → Option (String × σ)
  | 0, _, _ => Option.none
  | fuel + 1, s, result =>
    if ¬ E.prims.eof s then
      let r := parseRecord E s
      parseLoop E fuel r.2 (result ++ r.1 ++ "\n")
    else some (result, s)

/-- The state in which the decode loop starts: `setBuffer(new Uint8Array(arrayBuffer))`
followed by `resetPlayers()`. -/
def parseStart (E : Env σ) (s0 : σ) (arrayBuffer : List Nat) : σ :=
  E.resetPlayers (E.prims.setBufferBytes arrayBuffer s0)

/-- The function `parseReplayDat`, started in module state `s0`. -/
def parseReplayDat (E : Env σ) (fuel : Nat) (s0 : σ) (arrayBuffer : List Nat) :
    Option String :=
  (parseLoop E fuel (parseStart E s0 arrayBuffer) "").map Prod.fst

/-! ## The strings of the script -/

/-- The code units of a text: a string of the script is a sequence of UTF-16 code units, and
`length`, `substring` and the comparison operators work on these. -/
def utf16 : List Char → List Nat
  | [] => []
  | c :: cs =>
    if c.toNat < 0x10000 then c.toNat :: utf16 cs
    else (0xD800 + (c.toNat - 0x10000) / 0x400) :: (0xDC00 + (c.toNat - 0x10000) % 0x400)
      :: utf16 cs

/-- The expression `str.length`: the number of code units of `str`. -/
def jsLength (str : String) : Nat :=
  (utf16 str.data).length

/-! ## getReplayDatBytes (lines 56 to 113) -/

/-- Lines 85 to 97: the writes of a handler after opcode, tick and player. -/
def writeArgs (P : Prims σ) : ArgSpec σ → σ → σ
  | ArgSpec.none, s => s
  | ArgSpec.single tag, s => P.writeField tag s
  | ArgSpec.fields tags, s => tags.foldl (fun st tag => P.writeField tag st) s
  | ArgSpec.custom _ encode, s => encode s

/-- How the body of the `for` loop ends: with `failed = true; break`, or by falling through
to `fetch.restOfLine()` with a value of `datStringLen`. -/
inductive LineResult (σ : Type) where
  | failed (s : σ) : LineResult σ
  | next (s : σ) (datStringLen : Nat) : LineResult σ

/-- Lines 70 to 73: `fetch.tick`, `fetch.whitespace` and `fetch.string(' ')`; the pair
`[tick, player]`, the name and the state after them. -/
def fetchCommand (P : Prims σ) (lineType : Char) (s : σ) : (Nat × Option Nat) × String × σ :=
  let r1 := P.fetchTick (decide (lineType = '+')) s
  let r3 := P.fetchString ' ' (P.fetchWhitespace r1.2)
  (r1.1, r3.1, r3.2)

/-- Lines 81 to 83: the three header writes for a truthy `frameHandler`. -/
def writeHeader (P : Prims σ) (opcode : Option Nat) (tick : Nat) (player : Option Nat)
    (s : σ) : σ :=
  P.writeOptUint16 player "player" (P.writeUint32 tick (P.writeUint8 opcode s))

/-- Lines 81 to 97: the header writes followed by the writes of the handler. -/
def writeFrame (P : Prims σ) (opcode : Option Nat) (args : ArgSpec σ) (tick : Nat)
    (player : Option Nat) (s : σ) : σ :=
  writeArgs P args (writeHeader P opcode tick player s)

/-- Lines 81 to 103: the writes, the test of `error` and the new checkpoint. -/
def writeRecord (P : Prims σ) (opcode : Option Nat) (args : ArgSpec σ) (tick : Nat)
    (player : Option Nat) (s : σ) : LineResult σ :=
  let s4 := writeFrame P opcode args tick player s
  if P.error s4 ≠ "" then LineResult.failed s4
  else LineResult.next s4 (jsLength (P.datString s4))

/-- Lines 62 to 104: the body of the `for` loop up to `fetch.restOfLine()`. -/
def encodeLine (E : Env σ) (lineType : Char) (s : σ) (datStringLen : Nat) : LineResult σ :=
  if lineType = '?' then
    LineResult.next (E.prims.writeBytes (E.prims.fetchString ':' s).2) datStringLen
  else if lineType = '@' ∨ lineType = '+' then
    let r := fetchCommand E.prims lineType s
    match inputActionNameToFrameHandler E.inheritedKey E.frameHandlers r.2.1 with
    | Slot.undefined => LineResult.failed r.2.2
    | Slot.handler frameHandler =>
      writeRecord E.prims (some frameHandler.opcode) frameHandler.args r.1.1 r.1.2 r.2.2
    | Slot.inherited =>
      writeRecord E.prims Option.none ArgSpec.none r.1.1 r.1.2 r.2.2
  else
    LineResult.next s datStringLen

/-- What the `for` loop leaves behind: the flag `failed`, the checkpoint `datStringLen` and
the module state. -/
structure EncodeEnd (σ : Type) where
  failed : Bool
  datStringLen : Nat
  state : σ

/-- The `for` loop of `getReplayDatBytes`, entered at the test of its condition with the
character `lineType` just fetched; `fuel` bounds the number of tests. -/
def encodeLoop (E : Env σ) : Nat → Char → σ → Nat → Option (EncodeEnd σ)
  | 0, _, _, _ => Option.none
  | fuel + 1, lineType, s, datStringLen =>
    if ¬ E.prims.eof s then
      match encodeLine E lineType s datStringLen with
      | LineResult.failed s1 => some ⟨true, datStringLen, s1⟩
      | LineResult.next s1 len1 =>
        let r := E.prims.fetchChar (E.prims.fetchRestOfLine s1)
        encodeLoop E fuel r.1 r.2 len1
    else some ⟨false, datStringLen, s⟩

/-- White space as `parseInt` skips it. -/
def isJsWhiteSpace (c : Char) : Bool :=
  c.toNat ∈ [9, 10, 11, 12, 13, 32, 0xA0, 0x1680, 0x2028, 0x2029, 0x202F, 0x205F, 0x3000,
    0xFEFF] || (0x2000 ≤ c.toNat && c.toNat ≤ 0x200A)

/-- The value of one digit in radix 16. -/
def hexValue (c : Char) : Option Nat :=
  if '0' ≤ c ∧ c ≤ '9' then some (c.toNat - 48)
  else if 'a' ≤ c ∧ c ≤ 'f' then some (c.toNat - 87)
  else if 'A' ≤ c ∧ c ≤ 'F' then some (c.toNat - 55)
  else Option.none

/-- The digits of the longest prefix that is a numeral in radix 16, most significant first,
folded into `acc`; `seen` tells whether a digit was read. -/
def hexPrefixValue : List Char → Nat → Bool → Option Nat
  | [], acc, seen => if seen then some acc else Option.none
  | c :: cs, acc, seen =>
    match hexValue c with
    | some d => hexPrefixValue cs (16 * acc + d) true
    | Option.none => if seen then some acc else Option.none

/-- The expression `parseInt(str, 16)` stored into a `Uint8Array`: leading white space is
skipped, one sign is accepted, a prefix `0x` is dropped, the longest run of digits is read;
`NaN` is stored as 0 and a negative value modulo 256. -/
def parseInt16Byte (str : List Char) : Nat :=
  let t := str.dropWhile isJsWhiteSpace
  let neg := t.head? = some '-'
  let u := if t.head? = some '-' ∨ t.head? = some '+' then t.tail else t
  let v := if u.take 2 = ['0', 'x'] ∨ u.take 2 = ['0', 'X'] then u.drop 2 else u
  match hexPrefixValue v 0 false with
  | Option.none => 0
  | some n => if neg then (256 - n % 256) % 256 else n % 256

/-- Lines 108 to 111: the byte array made of the first `datStringLen` code units of
`datString`, two code units per byte.  `substring(2 * i, 2 * i + 2)` cuts code units; where
it cuts a character that takes two code units, each half is no white space, sign or digit
for `parseInt`, and `Char.ofNat` makes of it the character of code 0, which is none either. -/
def datBytes (datString : String) (datStringLen : Nat) : List Nat :=
  (List.range (datStringLen / 2)).map
    (fun i => parseInt16Byte ((((utf16 datString.data).drop (2 * i)).take 2).map Char.ofNat))

/-- The state in which the encode loop tests its condition for the first time:
`setBuffer(text)`, `resetPlayers()` and the first `fetch.char()`. -/
def encodeStart (E : Env σ) (s0 : σ) (text : String) : Char × σ :=
  E.prims.fetchChar (E.resetPlayers (E.prims.setBufferText text s0))

/-- The loop of `getReplayDatBytes` run on `text` from module state `s0`. -/
def encodeRun (E : Env σ) (fuel : Nat) (s0 : σ) (text : String) : Option (EncodeEnd σ) :=
  encodeLoop E fuel (encodeStart E s0 text).1 (encodeStart E s0 text).2 0

/-- The function `getReplayDatBytes`, started in module state `s0`. -/
def getReplayDatBytes (E : Env σ) (fuel : Nat) (s0 : σ) (text : String) :
    Option (List Nat) :=
  (encodeRun E fuel s0 text).map
    (fun e => datBytes (E.prims.datString e.state) e.datStringLen)

/-! ## Notions used to state the properties -/

/-- Modelled from the spec: one hex digit of the accumulator. -/
def hexDigit (n : Nat) : Char :=
  if n < 10 then Char.ofNat (48 + n) else Char.ofNat (87 + n)

/-- Modelled from the spec: the hex text of a byte sequence, two digits per byte. -/
def hexOf : List Nat → List Char
  | [] => []
  | b :: bs => hexDigit (b / 16 % 16) :: hexDigit (b % 16) :: hexOf bs

/-- Modelled from the spec: the accumulator text of a byte sequence. -/
def hexText (bs : List Nat) : String :=
  String.mk (hexOf bs)

/-- The renderings of a field list: every reader is called once, in declared order. -/
def fieldRenderings (P : Prims σ) : List String → σ → List String × σ
  | [], s => ([], s)
  | tag :: rest, s =>
    ((P.readField tag s).1 :: (fieldRenderings P rest (P.readField tag s).2).1,
      (fieldRenderings P rest (P.readField tag s).2).2)

/-- The argument text of a handler as the specification words it: the text of the custom
decode function, the non-empty field renderings joined by a comma and a blank, the rendering
of the single field, or nothing. -/
def renderedArgs (P : Prims σ) : ArgSpec σ → σ → String
  | ArgSpec.none, _ => ""
  | ArgSpec.single tag, s => (P.readField tag s).1
  | ArgSpec.fields tags, s =>
    ", ".intercalate ((fieldRenderings P tags s).1.filter (fun r => r ≠ ""))
  | ArgSpec.custom decode _, s => (decode s).1

/-- The state after the readers of a handler have run, each once and in declared order. -/
def stateAfterArgs (P : Prims σ) : ArgSpec σ → σ → σ
  | ArgSpec.none, s => s
  | ArgSpec.single tag, s => (P.readField tag s).2
  | ArgSpec.fields tags, s => tags.foldl (fun st tag => (P.readField tag st).2) s
  | ArgSpec.custom decode _, s => (decode s).2

/-- The arguments of a line with the blank that separates them from the name. -/
def argSuffix (args : String) : String :=
  if args = "" then "" else " " ++ args

/-- The module state after `n` passes through the body of the decode loop. -/
def stateAfterRecords (E : Env σ) : Nat → σ → σ
  | 0, s => s
  | n + 1, s => stateAfterRecords E n (parseRecord E s).2

/-- The lines of `n` passes through the body of the decode loop, each with its newline. -/
def decodedText (E : Env σ) : Nat → σ → String
  | 0, _ => ""
  | n + 1, s => (parseRecord E s).1 ++ "\n" ++ decodedText E n (parseRecord E s).2

/-- The contract of the readers that termination rests on: `remaining` counts the bytes the
cursor has not consumed, `eof` holds exactly when none is left, the opcode read consumes at
least one byte and no reader gives bytes back. -/
structure Consuming (E : Env σ) (remaining : σ → Nat) : Prop where
  start : ∀ s0 arrayBuffer, remaining (parseStart E s0 arrayBuffer) = arrayBuffer.length
  eof_iff : ∀ s, E.prims.eof s = true ↔ remaining s = 0
  uint8_lt : ∀ s, E.prims.eof s = false → remaining (E.prims.readUint8 s).2 < remaining s
  tick_le : ∀ s, remaining (E.prims.readTick s).2 ≤ remaining s
  field_le : ∀ tag s, remaining (E.prims.readField tag s).2 ≤ remaining s
  unhandled_le : ∀ s, remaining (E.prims.fetchUnhandledBytes s).2 ≤ remaining s
  custom_le : ∀ h ∈ E.frameHandlers, ∀ decode encode, h.args = ArgSpec.custom decode encode →
    ∀ s, remaining (decode s).2 ≤ remaining s

/-- Modelled from the spec: the hex-blob line of a byte sequence, the marker `?`, the hex
text of the bytes and the closing `:` up to which the `?` branch of the encoder reads. -/
def hexBlob (bs : List Nat) : String :=
  "?" ++ hexText bs ++ ":"

/-- The contract of the fallback `fetch.unhandledBytes` that fidelity rests on: `unread`
lists the bytes the cursor has not consumed, all of the buffer at the start of a pass; called
right after the opcode and tick reads of a record, the fallback renders every byte that was
unread before these two reads as one hex-blob line, and it leaves the cursor at the end of
the buffer. -/
structure FallbackRenders (E : Env σ) (unread : σ → List Nat) : Prop where
  start : ∀ s0 arrayBuffer, unread (parseStart E s0 arrayBuffer) = arrayBuffer
  renders : ∀ s, (E.prims.fetchUnhandledBytes
    (E.prims.readTick (E.prims.readUint8 s).2).2).1 = hexBlob (unread s)
  consumes : ∀ s, E.prims.eof (E.prims.fetchUnhandledBytes s).2 = true

/-- The bytes each writer contributes to a record: the tick, the player, a field written in
a given state, and a custom encode function run in a given state. -/
structure WriterLayout (σ : Type) where
  tickBytes : Nat → List Nat
  playerBytes : Option Nat → List Nat
  fieldBytes : String → σ → List Nat
  customBytes : (σ → σ) → σ → List Nat

/-- The contract of the writers and lexing helpers that the layout of the output rests on:
the helpers leave the accumulator alone, every writer appends the hex text of its bytes, the
tick takes four bytes and an opcode is one byte. -/
structure HexWriters (E : Env σ) (L : WriterLayout σ) : Prop where
  fetchChar_keeps : ∀ s, E.prims.datString (E.prims.fetchChar s).2 = E.prims.datString s
  fetchString_keeps : ∀ c s,
    E.prims.datString (E.prims.fetchString c s).2 = E.prims.datString s
  fetchTick_keeps : ∀ b s, E.prims.datString (E.prims.fetchTick b s).2 = E.prims.datString s
  fetchWhitespace_keeps : ∀ s,
    E.prims.datString (E.prims.fetchWhitespace s) = E.prims.datString s
  fetchRestOfLine_keeps : ∀ s,
    E.prims.datString (E.prims.fetchRestOfLine s) = E.prims.datString s
  uint8_emits : ∀ b s, b < 256 →
    E.prims.datString (E.prims.writeUint8 (some b) s) = E.prims.datString s ++ hexText [b]
  uint32_emits : ∀ t s,
    E.prims.datString (E.prims.writeUint32 t s) = E.prims.datString s ++ hexText (L.tickBytes t)
  optUint16_emits : ∀ p s, E.prims.datString (E.prims.writeOptUint16 p "player" s)
    = E.prims.datString s ++ hexText (L.playerBytes p)
  field_emits : ∀ tag s, E.prims.datString (E.prims.writeField tag s)
    = E.prims.datString s ++ hexText (L.fieldBytes tag s)
  custom_emits : ∀ h ∈ E.frameHandlers, ∀ decode encode, h.args = ArgSpec.custom decode encode →
    ∀ s, E.prims.datString (encode s) = E.prims.datString s ++ hexText (L.customBytes encode s)
  opcode_lt : ∀ h ∈ E.frameHandlers, h.opcode < 256
  tick_length : ∀ t, (L.tickBytes t).length = 4
  tick_lt : ∀ t, ∀ b ∈ L.tickBytes t, b < 256
  player_lt : ∀ p, ∀ b ∈ L.playerBytes p, b < 256
  field_lt : ∀ tag s, ∀ b ∈ L.fieldBytes tag s, b < 256
  custom_lt : ∀ encode s, ∀ b ∈ L.customBytes encode s, b < 256

/-- The payload bytes of a field list: one write per tag, in declared order. -/
def fieldListBytes (L : WriterLayout σ) (P : Prims σ) : List String → σ → List Nat
  | [], _ => []
  | tag :: rest, s => L.fieldBytes tag s ++ fieldListBytes L P rest (P.writeField tag s)

/-- The payload bytes of a handler: those of the custom encode function, of the field list,
of the single field, or none. -/
def argBytes (L : WriterLayout σ) (P : Prims σ) : ArgSpec σ → σ → List Nat
  | ArgSpec.none, _ => []
  | ArgSpec.single tag, s => L.fieldBytes tag s
  | ArgSpec.fields tags, s => fieldListBytes L P tags s
  | ArgSpec.custom _ encode, s => L.customBytes encode s

/-- The bytes of one command record as the specification lays them out: the opcode byte,
the tick, the player, then the payload written in state `s` (the state after the three
header writes). -/
def recordBytes (L : WriterLayout σ) (P : Prims σ) (h : FrameHandler σ) (tick : Nat)
    (player : Option Nat) (s : σ) : List Nat :=
  h.opcode :: (L.tickBytes tick ++ (L.playerBytes player ++ argBytes L P h.args s))

/-- `CommandRun E L n c s len rs c1 s1 len1`: from the loop test with line type `c`, state
`s` and checkpoint `len`, the next `n` lines, up to the loop test `(c1, s1, len1)`, are comment
lines and command lines (`@` or `+`) that name a handler of the registry and end with an
empty error signal; `rs` lists the bytes of these command records in line order. -/
inductive CommandRun (E : Env σ) (L : WriterLayout σ) :
    Nat → Char → σ → Nat → List (List Nat) → Char → σ → Nat → Prop where
  | done (c : Char) (s : σ) (len : Nat) : CommandRun E L 0 c s len [] c s len
  | comment {n : Nat} {c : Char} {s : σ} {len : Nat} {rs : List (List Nat)} {c1 : Char}
      {s1 : σ} {len1 : Nat} :
      E.prims.eof s = false → c ≠ '?' → c ≠ '@' → c ≠ '+' →
      CommandRun E L n (E.prims.fetchChar (E.prims.fetchRestOfLine s)).1
        (E.prims.fetchChar (E.prims.fetchRestOfLine s)).2 len rs c1 s1 len1 →
      CommandRun E L (n + 1) c s len rs c1 s1 len1
  | record {n : Nat} {c : Char} {s : σ} {len : Nat} {rs : List (List Nat)} {c1 : Char}
      {s1 : σ} {len1 : Nat} (h : FrameHandler σ) :
      E.prims.eof s = false → (c = '@' ∨ c = '+') →
      inputActionNameToFrameHandler E.inheritedKey E.frameHandlers
        (fetchCommand E.prims c s).2.1 = Slot.handler h →
      E.prims.error (writeFrame E.prims (some h.opcode) h.args (fetchCommand E.prims c s).1.1
        (fetchCommand E.prims c s).1.2 (fetchCommand E.prims c s).2.2) = "" →
      CommandRun E L n
        (E.prims.fetchChar (E.prims.fetchRestOfLine
          (writeFrame E.prims (some h.opcode) h.args (fetchCommand E.prims c s).1.1
            (fetchCommand E.prims c s).1.2 (fetchCommand E.prims c s).2.2))).1
        (E.prims.fetchChar (E.prims.fetchRestOfLine
          (writeFrame E.prims (some h.opcode) h.args (fetchCommand E.prims c s).1.1
            (fetchCommand E.prims c s).1.2 (fetchCommand E.prims c s).2.2))).2
        (jsLength (E.prims.datString (writeFrame E.prims (some h.opcode) h.args
          (fetchCommand E.prims c s).1.1 (fetchCommand E.prims c s).1.2
          (fetchCommand E.prims c s).2.2)))
        rs c1 s1 len1 →
      CommandRun E L (n + 1) c s len
        (recordBytes L E.prims h (fetchCommand E.prims c s).1.1 (fetchCommand E.prims c s).1.2
          (writeHeader E.prims (some h.opcode) (fetchCommand E.prims c s).1.1
            (fetchCommand E.prims c s).1.2 (fetchCommand E.prims c s).2.2) :: rs)
        c1 s1 len1

/-- Lines 57, 70 and 71: `fetch.char()`, `fetch.tick(lineType == '+')` and
`fetch.whitespace()`, run from the state in which a line starts; the pair `[tick, player]`
and the state after them. -/
def fetchTickOf (P : Prims σ) (s : σ) : (Nat × Option Nat) × σ :=
  ((P.fetchTick (decide ((P.fetchChar s).1 = '+')) (P.fetchChar s).2).1,
    P.fetchWhitespace (P.fetchTick (decide ((P.fetchChar s).1 = '+')) (P.fetchChar s).2).2)

/-- The contract of the primitives that a round trip rests on: given the text a reader
produced, the matching lexing helpers and writers emit exactly the bytes that reader
consumed.  `unread` lists the bytes the cursor of a decode pass has not consumed, and is
`none` once a read has run past the end of the buffer; `rest` is the text the cursor of an
encode pass has not consumed; `sync d e` couples a state `d` of a decode pass with a state
`e` of an encode pass that agree on what the primitives remember (the last tick, the
players).  Clause by clause: the two passes start in step, on the whole buffer and the whole
text, with an empty accumulator and no error; at the end of the buffer nothing is unread,
and at the end of the text `fetch.char` reaches `eof`; `read.uint8` consumes one byte;
`fetch.char`, `fetch.tick` and `fetch.whitespace` lex the text of `read.tick` up to a
following character that is no white space, and the tick and player they return are written
as the bytes `read.tick` consumed; `fetch.string(' ')` returns a word without white space
that is followed by a blank or a line end, and consumes the blank; the three header writers
leave text and error signal alone; given the argument text that the reads of a handler
produced, up to the line end, the writes of that handler emit the bytes those reads
consumed, raise no error and stay on the line; `fetch.restOfLine` consumes the line up to
and with its line end. -/
structure TextCoherent (E : Env σ) (L : WriterLayout σ) (unread : σ → Option (List Nat))
    (rest : σ → List Char) (sync : σ → σ → Prop) : Prop where
  start_unread : ∀ s0 arrayBuffer, unread (parseStart E s0 arrayBuffer) = some arrayBuffer
  start_rest : ∀ s1 text, rest (E.resetPlayers (E.prims.setBufferText text s1)) = text.data
  start_dat : ∀ s1 text,
    E.prims.datString (E.resetPlayers (E.prims.setBufferText text s1)) = ""
  start_error : ∀ s1 text, E.prims.error (E.resetPlayers (E.prims.setBufferText text s1)) = ""
  start_sync : ∀ s0 arrayBuffer s1 text, (∀ b ∈ arrayBuffer, b < 256) →
    sync (parseStart E s0 arrayBuffer) (E.resetPlayers (E.prims.setBufferText text s1))
  done_unread : ∀ d u, E.prims.eof d = true → unread d = some u → u = []
  done_text : ∀ d e, sync d e → rest e = [] → E.prims.eof (E.prims.fetchChar e).2 = true
  opcode : ∀ d e, sync d e → E.prims.eof d = false →
    sync (E.prims.readUint8 d).2 e ∧
    ∀ u, unread (E.prims.readUint8 d).2 = some u →
      unread d = some ((E.prims.readUint8 d).1 :: u)
  tick : ∀ d e c w, sync d e → rest e = (E.prims.readTick d).1.data ++ c :: w →
    c.isWhitespace = false →
    ((E.prims.fetchChar e).1 = '@' ∨ (E.prims.fetchChar e).1 = '+') ∧
    E.prims.eof (E.prims.fetchChar e).2 = false ∧
    rest (fetchTickOf E.prims e).2 = c :: w ∧
    E.prims.error (fetchTickOf E.prims e).2 = E.prims.error e ∧
    sync (E.prims.readTick d).2 (fetchTickOf E.prims e).2 ∧
    ∀ u, unread (E.prims.readTick d).2 = some u →
      unread d = some (L.tickBytes (fetchTickOf E.prims e).1.1
        ++ (L.playerBytes (fetchTickOf E.prims e).1.2 ++ u))
  name : ∀ d e word tl, sync d e → rest e = word ++ tl → word ≠ [] →
    (∀ c ∈ word, c.isWhitespace = false) → (tl.head? = some ' ' ∨ tl.head? = some '\n') →
    (E.prims.fetchString ' ' e).1 = String.mk word ∧
    rest (E.prims.fetchString ' ' e).2 = (if tl.head? = some ' ' then tl.tail else tl) ∧
    E.prims.error (E.prims.fetchString ' ' e).2 = E.prims.error e ∧
    sync d (E.prims.fetchString ' ' e).2
  uint8_keeps : ∀ d e b, sync d e → b < 256 →
    rest (E.prims.writeUint8 (some b) e) = rest e ∧
    E.prims.error (E.prims.writeUint8 (some b) e) = E.prims.error e ∧
    sync d (E.prims.writeUint8 (some b) e)
  uint32_keeps : ∀ d e t, sync d e →
    rest (E.prims.writeUint32 t e) = rest e ∧
    E.prims.error (E.prims.writeUint32 t e) = E.prims.error e ∧
    sync d (E.prims.writeUint32 t e)
  optUint16_keeps : ∀ d e p, sync d e →
    rest (E.prims.writeOptUint16 p "player" e) = rest e ∧
    E.prims.error (E.prims.writeOptUint16 p "player" e) = E.prims.error e ∧
    sync d (E.prims.writeOptUint16 p "player" e)
  args : ∀ h ∈ E.frameHandlers, ∀ d e tl, sync d e →
    rest e = (readArgs E.prims h.args d).1.data ++ '\n' :: tl →
    E.prims.error (writeArgs E.prims h.args e) = E.prims.error e ∧
    (∃ v, (∀ c ∈ v, c ≠ '\n') ∧ rest (writeArgs E.prims h.args e) = v ++ '\n' :: tl) ∧
    sync (readArgs E.prims h.args d).2 (writeArgs E.prims h.args e) ∧
    ∀ u, unread (readArgs E.prims h.args d).2 = some u →
      unread d = some (argBytes L E.prims h.args e ++ u)
  restOfLine : ∀ d e v tl, sync d e → rest e = v ++ '\n' :: tl → (∀ c ∈ v, c ≠ '\n') →
    rest (E.prims.fetchRestOfLine e) = tl ∧
    E.prims.error (E.prims.fetchRestOfLine e) = E.prims.error e ∧
    sync d (E.prims.fetchRestOfLine e)

/-! ## A concrete instance of the imported interface -/

/-- Modelled from the spec: the module state of `parse.mjs`, which is not part of the
sources at hand.  A binary or a text buffer with one cursor, the hex accumulator, the error
signal, the tick of the last command and the string fetched last. -/
structure RefState where
  bin : List Nat
  txt : List Char
  pos : Nat
  datString : String
  error : String
  lastTick : Nat
  fetched : List Char
  deriving DecidableEq, Repr

/-- Modelled from the spec: the four bytes of a 32-bit value, as the concrete scenario of
the specification prints them. -/
def bytesOfUint32 (n : Nat) : List Nat :=
  [n / 16777216 % 256, n / 65536 % 256, n / 256 % 256, n % 256]

/-- Modelled from the spec: the two bytes of an optional 16-bit value, `FFFF` when absent. -/
def bytesOfOptUint16 : Option Nat → List Nat
  | Option.none => [255, 255]
  | some p => [p / 256 % 256, p % 256]

/-- Modelled from the spec: the value of a run of decimal digits. -/
def decimalValue (cs : List Char) : Nat :=
  cs.foldl (fun acc c => 10 * acc + (c.toNat - 48)) 0

/-- Modelled from the spec: `eof()`, true when the cursor has consumed the whole buffer. -/
def RefState.eof (s : RefState) : Bool :=
  decide (s.bin.length + s.txt.length ≤ s.pos)

/-- Modelled from the spec: the unread part of the text buffer. -/
def RefState.rest (s : RefState) : List Char :=
  s.txt.drop s.pos

/-- Modelled from the spec: `setBuffer` over bytes; a pass starts with an empty accumulator
and a cleared error signal. -/
def RefState.ofBytes (b : List Nat) : RefState :=
  ⟨b, [], 0, "", "", 0, []⟩

/-- Modelled from the spec: `setBuffer` over text. -/
def RefState.ofText (t : String) : RefState :=
  ⟨[], t.data, 0, "", "", 0, []⟩

/-- Modelled from the spec: `read.uint8()`. -/
def RefState.readByte (s : RefState) : Nat × RefState :=
  (s.bin.getD s.pos 0, { s with pos := s.pos + 1 })

/-- Modelled from the spec: `read.tick()`, a 32-bit tick and an optional 16-bit player
rendered as `@tick(player) ` or `@tick `. -/
def RefState.readTick (s : RefState) : String × RefState :=
  let tick := 16777216 * s.bin.getD s.pos 0 + 65536 * s.bin.getD (s.pos + 1) 0
    + 256 * s.bin.getD (s.pos + 2) 0 + s.bin.getD (s.pos + 3) 0
  let player := 256 * s.bin.getD (s.pos + 4) 0 + s.bin.getD (s.pos + 5) 0
  let shown := if player = 65535 then "" else "(" ++ toString player ++ ")"
  ("@" ++ toString tick ++ shown ++ " ", { s with pos := s.pos + 6 })

/-- Modelled from the spec: `read[tag]()`; the field types are `uint8`, shown in decimal,
and `optUint8`, one byte that renders as the empty text when it is 255 (field absent). -/
def RefState.readField (tag : String) (s : RefState) : String × RefState :=
  if tag = "uint8" then (toString (s.bin.getD s.pos 0), { s with pos := s.pos + 1 })
  else if tag = "optUint8" then
    (if s.bin.getD s.pos 0 = 255 then "" else toString (s.bin.getD s.pos 0),
      { s with pos := s.pos + 1 })
  else ("", s)

/-- Modelled from the spec: `fetch.unhandledBytes()`, the whole unhandled record (its
opcode and tick included) up to the end of the buffer as one `?` line. -/
def RefState.fetchUnhandledBytes (s : RefState) : String × RefState :=
  (String.mk ('?' :: hexOf (s.bin.drop (s.pos - 7)) ++ [':']),
    { s with pos := max s.pos (s.bin.length + s.txt.length) })

/-- Modelled from the spec: `fetch.char()`, the first character that is not white space. -/
def RefState.fetchChar (s : RefState) : Char × RefState :=
  let skipped := (s.rest.takeWhile (fun c => c = ' ' ∨ c = '\t' ∨ c = '\n' ∨ c = '\r')).length
  ((s.txt.drop (s.pos + skipped)).headD ' ', { s with pos := s.pos + skipped + 1 })

/-- Modelled from the spec: `fetch.string(delimiter)`, the text up to the delimiter or the
end of the line; the delimiter is consumed, the line terminator is not. -/
def RefState.fetchString (delimiter : Char) (s : RefState) : String × RefState :=
  let word := s.rest.takeWhile (fun c => c ≠ delimiter ∧ c ≠ '\n')
  let stop := (s.txt.drop (s.pos + word.length)).head?
  (String.mk word, { s with
    pos := if stop = some delimiter then s.pos + word.length + 1 else s.pos + word.length,
    fetched := word })

/-- Modelled from the spec: `fetch.tick(isDelta)`, a decimal tick (an offset from the last
tick when `isDelta`) and an optional player in parentheses. -/
def RefState.fetchTick (isDelta : Bool) (s : RefState) : (Nat × Option Nat) × RefState :=
  let digits := s.rest.takeWhile Char.isDigit
  let tick := if isDelta then s.lastTick + decimalValue digits else decimalValue digits
  let after := s.txt.drop (s.pos + digits.length)
  if after.head? = some '(' then
    let inner := after.tail.takeWhile Char.isDigit
    ((tick, some (decimalValue inner)),
      { s with pos := s.pos + digits.length + inner.length + 2, lastTick := tick })
  else
    ((tick, Option.none), { s with pos := s.pos + digits.length, lastTick := tick })

/-- Modelled from the spec: `fetch.whitespace()`. -/
def RefState.fetchWhitespace (s : RefState) : RefState :=
  { s with pos := s.pos + (s.rest.takeWhile (fun c => c = ' ' ∨ c = '\t')).length }

/-- Modelled from the spec: `fetch.restOfLine()`, up to and including the line terminator. -/
def RefState.fetchRestOfLine (s : RefState) : RefState :=
  { s with pos := s.pos + (s.rest.takeWhile (fun c => c ≠ '\n')).length + 1 }

/-- Modelled from the spec: a writer appends hex text to the accumulator. -/
def RefState.emit (bs : List Nat) (s : RefState) : RefState :=
  { s with datString := s.datString ++ hexText bs }

/-- Modelled from the spec: `write.uint8`; a value that is no byte sets the error signal. -/
def RefState.writeUint8 (v : Option Nat) (s : RefState) : RefState :=
  match v with
  | some b => s.emit [b % 256]
  | Option.none => { s with error := "uint8: not a number" }

/-- Modelled from the spec: the bytes `write[tag]()` appends in a state: `uint8` skips a
separator and reads a decimal number from the text; `optUint8` does the same and stands for
an absent field by the byte 255. -/
def RefState.fieldBytes (tag : String) (s : RefState) : List Nat :=
  let sep := (s.rest.takeWhile (fun c => c = ',' ∨ c = ' ')).length
  let digits := (s.txt.drop (s.pos + sep)).takeWhile Char.isDigit
  if tag = "uint8" then
    if digits = [] ∨ 255 < decimalValue digits then [] else [decimalValue digits]
  else if tag = "optUint8" then
    if digits = [] then [255] else if 255 < decimalValue digits then [] else [decimalValue digits]
  else []

/-- Modelled from the spec: `write[tag]()`; it sets the error signal when the text holds no
number where one is required, or one that is no byte. -/
def RefState.writeField (tag : String) (s : RefState) : RefState :=
  let sep := (s.rest.takeWhile (fun c => c = ',' ∨ c = ' ')).length
  let digits := (s.txt.drop (s.pos + sep)).takeWhile Char.isDigit
  { s with
    datString := s.datString ++ hexText (s.fieldBytes tag)
    pos := if tag = "uint8" ∨ tag = "optUint8" then s.pos + sep + digits.length else s.pos
    error :=
      if tag = "uint8" ∧ digits = [] then "uint8: expected a number"
      else if (tag = "uint8" ∨ tag = "optUint8") ∧ 255 < decimalValue digits then
        "uint8: out of range"
      else s.error }

/-- Modelled from the spec: `write.bytes()`, the hex string fetched last, verbatim. -/
def RefState.writeBytes (s : RefState) : RefState :=
  { s with datString := s.datString ++ String.mk s.fetched }

/-- Modelled from the spec: the primitives of `parse.mjs` over `RefState`. -/
def refPrims : Prims RefState where
  setBufferBytes := fun b _ => RefState.ofBytes b
  setBufferText := fun t _ => RefState.ofText t
  eof := RefState.eof
  datString := RefState.datString
  error := RefState.error
  readUint8 := RefState.readByte
  readTick := RefState.readTick
  readField := RefState.readField
  fetchUnhandledBytes := RefState.fetchUnhandledBytes
  fetchChar := RefState.fetchChar
  fetchString := RefState.fetchString
  fetchTick := RefState.fetchTick
  fetchWhitespace := RefState.fetchWhitespace
  fetchRestOfLine := RefState.fetchRestOfLine
  writeUint8 := RefState.writeUint8
  writeUint32 := fun t s => s.emit (bytesOfUint32 t)
  writeOptUint16 := fun p _ s => s.emit (bytesOfOptUint16 p)
  writeField := RefState.writeField
  writeBytes := RefState.writeBytes

/-- Modelled from the spec: the registry of the concrete scenario, `Move` (opcode 1, one
`uint8` field) and `Jump` (opcode 2, no fields), with a third handler `Pair` (opcode 3, a
field list of a `uint8` and an `optUint8`), in a host whose array object answers to the
key `constructor`. -/
def refEnv : Env RefState where
  prims := refPrims
  frameHandlers := [⟨1, "Move", ArgSpec.single "uint8"⟩, ⟨2, "Jump", ArgSpec.none⟩,
    ⟨3, "Pair", ArgSpec.fields ["uint8", "optUint8"]⟩]
  resetPlayers := fun s => s
  inheritedKey := fun k => decide (k = "constructor")

/-- Modelled from the spec: the primitives of `refPrims` with a `write.uint8` that takes
`undefined` for the byte 0 and leaves the error signal alone; a writer may set the signal on
malformed input, it need not. -/
def lenientPrims : Prims RefState :=
  { refPrims with writeUint8 := fun v s => s.emit [v.getD 0 % 256] }

/-- Modelled from the spec: the registry and host of `refEnv` over `lenientPrims`. -/
def lenientEnv : Env RefState :=
  { refEnv with prims := lenientPrims }

/-- Modelled from the spec: the bytes of `refPrims` that the cursor has not consumed. -/
def refRemaining (s : RefState) : Nat :=
  s.bin.length + s.txt.length - s.pos

/-- Modelled from the spec: the bytes the writers of `refPrims` contribute. -/
def refLayout : WriterLayout RefState where
  tickBytes := bytesOfUint32
  playerBytes := bytesOfOptUint16
  fieldBytes := fun tag s => s.fieldBytes tag
  customBytes := fun _ _ => []

/-- Modelled from the spec: the bytes a decode pass over `refPrims` has not consumed, none
once the cursor is past the end of the buffer. -/
def refUnread (s : RefState) : Option (List Nat) :=
  if s.pos ≤ s.bin.length then some (s.bin.drop s.pos) else Option.none

/-- Modelled from the spec: a state of a decode pass over `refPrims`, which holds bytes and
no text, coupled with a state of an encode pass, which holds no bytes; `refPrims` remembers
nothing that the two would have to agree on. -/
def refSync (d e : RefState) : Prop :=
  d.txt = [] ∧ (∀ b ∈ d.bin, b < 256) ∧ e.bin = []

/-- Modelled from the spec: a registry with a name that holds a blank, `Open Gui` (opcode 1,
no fields), and an empty name (opcode 3, one `uint8` field), beside `Jump`, over the
reference primitives. -/
def gapEnv : Env RefState where
  prims := refPrims
  frameHandlers := [⟨1, "Open Gui", ArgSpec.none⟩, ⟨2, "Jump", ArgSpec.none⟩,
    ⟨3, "", ArgSpec.single "uint8"⟩]
  resetPlayers := fun s => s
  inheritedKey := fun k => decide (k = "constructor")

/-- Modelled from the spec: a registry with a handler whose field list has an optional field
before a required one, `Riap` (opcode 3, an `optUint8` and a `uint8`), beside the single
fields `Move` and `Mark`, over the reference primitives. -/
def optEnv : Env RefState where
  prims := refPrims
  frameHandlers := [⟨1, "Move", ArgSpec.single "uint8"⟩, ⟨2, "Mark", ArgSpec.single "optUint8"⟩,
    ⟨3, "Riap", ArgSpec.fields ["optUint8", "uint8"]⟩]
  resetPlayers := fun s => s
  inheritedKey := fun k => decide (k = "constructor")

/-! ## The numbers of the script -/

/-- A number of the script, as far as `compareTick` and `stableSort` meet one: NaN, the two
infinities, or a finite number, which here is always an integer (`fin v`, the value `v`
being one that a double holds).  The two zeros are not told apart: the script and the sort
test these numbers with `!= 0`, with `isNaN` and by their sign only. -/
inductive Number where
  | nan : Number
  | negInf : Number
  | fin (value : Int) : Number
  | posInf : Number
  deriving DecidableEq

/-- A numeral of the script that is a natural number. -/
instance instOfNatNumber (n : Nat) : OfNat Number n :=
  ⟨Number.fin n⟩

/-- The expression `x < y` on two numbers; it is false as soon as one of them is NaN. -/
def Number.lt : Number → Number → Bool
  | Number.fin a, Number.fin b => decide (a < b)
  | Number.negInf, Number.fin _ => true
  | Number.negInf, Number.posInf => true
  | Number.fin _, Number.posInf => true
  | _, _ => false

/-- The expression `x <= y` on two numbers; it is false as soon as one of them is NaN. -/
def Number.le (x y : Number) : Bool :=
  Number.lt x y || (decide (x = y) && decide (x ≠ Number.nan))

/-- The order of numbers, written `x < y`. -/
instance instLTNumber : LT Number :=
  ⟨fun x y => Number.lt x y = true⟩

/-- The order of numbers, written `x ≤ y`. -/
instance instLENumber : LE Number :=
  ⟨fun x y => Number.le x y = true⟩

/-- Whether `x < y` holds can be computed. -/
instance instDecidableLtNumber (x y : Number) : Decidable (x < y) :=
  inferInstanceAs (Decidable (Number.lt x y = true))

/-- Whether `x ≤ y` holds can be computed. -/
instance instDecidableLeNumber (x y : Number) : Decidable (x ≤ y) :=
  inferInstanceAs (Decidable (Number.le x y = true))

/-- The function `isFinite` on a number. -/
def Number.isFinite : Number → Bool
  | Number.fin _ => true
  | _ => false

/-- An integer with the sign of a number, 0 for NaN: what a sort takes from the value of a
comparator. -/
def Number.sgn : Number → Int
  | Number.nan => 0
  | Number.negInf => -1
  | Number.fin v => v
  | Number.posInf => 1

/-- The number of binary digits that `n` has beyond the 53 digits of the significand of a
double; `fuel` bounds the number of halvings. -/
def excessBits : Nat → Nat → Nat
  | 0, _ => 0
  | fuel + 1, n => if n < 2 ^ 53 then 0 else excessBits fuel (n / 2) + 1

/-- The power of two by which `n` exceeds a significand of 53 binary digits, that is
`2 ^ excessBits fuel n` (1 for `n` below `2 ^ 53`). -/
def excessScale : Nat → Nat → Nat
  | 0, _ => 1
  | fuel + 1, n => if n < 2 ^ 53 then 1 else 2 * excessScale fuel (n / 2)

/-- The double nearest to the natural number `n`, as a natural number: `n` keeps its 53
leading binary digits, rounded to nearest, a tie going to the even significand. -/
def nearestDouble (n : Nat) : Nat :=
  (if excessScale n n < 2 * (n % excessScale n n)
      ∨ (excessScale n n = 2 * (n % excessScale n n) ∧ n / excessScale n n % 2 = 1)
    then n / excessScale n n + 1 else n / excessScale n n) * excessScale n n

/-- The number that the integer `z` becomes in the script: the nearest double, which is an
infinity from `2 ^ 1024` on, that is when it has 972 binary digits or more beyond 53. -/
def Number.ofInt (z : Int) : Number :=
  if 972 ≤ excessBits (nearestDouble z.natAbs) (nearestDouble z.natAbs) then
    (if z < 0 then Number.negInf else Number.posInf)
  else
    Number.fin (if z < 0 then - (nearestDouble z.natAbs : Int) else (nearestDouble z.natAbs : Int))

/-- The expression `x - y` on two numbers: the exact difference of two finite values,
rounded to the nearest double; NaN for two infinities of the same sign. -/
def Number.sub : Number → Number → Number
  | Number.fin a, Number.fin b => Number.ofInt (a - b)
  | Number.nan, _ => Number.nan
  | _, Number.nan => Number.nan
  | Number.posInf, Number.posInf => Number.nan
  | Number.negInf, Number.negInf => Number.nan
  | Number.posInf, _ => Number.posInf
  | Number.negInf, _ => Number.negInf
  | Number.fin _, Number.posInf => Number.negInf
  | Number.fin _, Number.negInf => Number.posInf

/-- The difference of numbers, written `x - y`. -/
instance instSubNumber : Sub Number :=
  ⟨Number.sub⟩

/-! ## stableSort, compareTick, comparePlayer (lines 115 to 161) -/

/-- Line 117: `array.map((el, index) => [el, index])`, the index counted from `n`. -/
def keyedFrom {α : Type} : Nat → List α → List (α × Nat)
  | _, [] => []
  | n, el :: rest => (el, n) :: keyedFrom (n + 1) rest

/-- Lines 118 to 124: the comparator handed to `keyedArray.sort`.  The test `!= 0` holds
for NaN, which is then returned as it is.  An index is a finite number. -/
def keyedCompare {α : Type} (compare : α → α → Number) (a b : α × Nat) : Number :=
  if compare a.1 b.1 ≠ 0 then compare a.1 b.1
  else Number.fin (a.2 : Int) - Number.fin (b.2 : Int)

/-- The function `stableSort`, returning the content of `array` after the call.  `sort`
stands for the host's `Array.prototype.sort`, which rearranges `keyedArray` in place, so
that the loop of lines 125 to 127 writes back the first components of all its elements. -/
def stableSort {α : Type}
    (sort : (α × Nat → α × Nat → Number) → List (α × Nat) → List (α × Nat))
    (array : List α) (compare : α → α → Number) : List α :=
  (sort (keyedCompare compare) (keyedFrom 0 array)).map Prod.fst

/-- The value of one digit in radix 10. -/
def decimalDigit (c : Char) : Option Nat :=
  if '0' ≤ c ∧ c ≤ '9' then some (c.toNat - 48) else Option.none

/-- The value of the longest prefix that is a numeral in the given radix, folded into `acc`;
`seen` tells whether a digit was read. -/
def digitPrefixValue (digit : Char → Option Nat) (radix : Nat) :
    List Char → Nat → Bool → Option Nat
  | [], acc, seen => if seen then some acc else Option.none
  | c :: cs, acc, seen =>
    match digit c with
    | some d => digitPrefixValue digit radix cs (radix * acc + d) true
    | Option.none => if seen then some acc else Option.none

/-- The expression `parseInt(str)`: leading white space is skipped, one sign is accepted, a
prefix `0x` selects radix 16 and radix 10 is used otherwise, the longest run of digits is
read; the result is NaN when there is no digit, and else the value of the numeral as a
number of the script, that is rounded to the nearest double, or an infinity.  (The standard
lets an implementation read a decimal numeral of more than 20 digits less exactly; here
every numeral is rounded from its exact value.) -/
def parseInt (str : List Char) : Number :=
  let t := str.dropWhile isJsWhiteSpace
  let u := if t.head? = some '-' ∨ t.head? = some '+' then t.tail else t
  let value :=
    if u.take 2 = ['0', 'x'] ∨ u.take 2 = ['0', 'X'] then
      digitPrefixValue hexValue 16 (u.drop 2) 0 false
    else digitPrefixValue decimalDigit 10 u 0 false
  match value with
  | some n => Number.ofInt (if t.head? = some '-' then - (n : Int) else (n : Int))
  | Option.none => Number.nan

/-- Lines 131 to 137, and again lines 138 to 143: the tick of a line, `0x100000000` when the
line starts with neither `@` nor `?` or `parseInt` yields NaN. -/
def tickOf (line : String) : Number :=
  if line.data.head? = some '@' ∨ line.data.head? = some '?' then
    if parseInt line.data.tail ≠ Number.nan then parseInt line.data.tail else 0x100000000
  else 0x100000000

/-- The function `compareTick`: `aTick - bTick`. -/
def compareTick (a b : String) : Number :=
  tickOf a - tickOf b

/-- The expression `str.indexOf(c, fromIndex)`, `none` standing for `-1`. -/
def indexOfFrom (c : Char) (str : List Char) (fromIndex : Nat) : Option Nat :=
  if fromIndex + ((str.drop fromIndex).takeWhile (fun x => x ≠ c)).length < str.length then
    some (fromIndex + ((str.drop fromIndex).takeWhile (fun x => x ≠ c)).length)
  else Option.none

/-- The expression `x < y` on two strings given by their code units. -/
def unitsLt : List Nat → List Nat → Bool
  | [], [] => false
  | [], _ :: _ => true
  | _ :: _, [] => false
  | a :: as, b :: bs => decide (a < b) || (decide (a = b) && unitsLt as bs)

/-- Lines 148 to 153, and again lines 154 to 158: the player of a line, the one code unit
`0xFF` unless both `indexOf` calls find something (a `fromIndex` of `-1` counts as 0). -/
def playerOf (line : String) : List Nat :=
  match indexOfFrom '(' line.data 0,
      indexOfFrom ')' line.data ((indexOfFrom '(' line.data 0).getD 0) with
  | some openPos, some closePos =>
    utf16 ((line.data.drop (openPos + 1)).take (closePos - (openPos + 1)))
  | _, _ => [0xFF]

/-- The function `comparePlayer`: `aPlayer < bPlayer ? -1 : +(aPlayer > bPlayer)`; its
three values are integers. -/
def comparePlayer (a b : String) : Int :=
  if unitsLt (playerOf a) (playerOf b) then -1
  else if unitsLt (playerOf b) (playerOf a) then 1 else 0

/-- Modelled from the spec: the comparator of the canonicalizer, whose caller is not in
`index.mjs`: compare by tick; if equal, compare by player.  The two are composed the way
lines 119 to 123 compose a comparator with the index: what `compareTick` returns is
returned unless it is `0`. -/
def canonCompare (a b : String) : Number :=
  if compareTick a b ≠ 0 then compareTick a b else Number.fin (comparePlayer a b)

/-! ## Notions used to state the properties of the sort -/

/-- A comparator that is a total preorder on the elements of `l`: it never yields NaN, the
sign of `cmp b a` is the opposite of the sign of `cmp a b`, and "not after" is transitive.
This is what the language standard calls a consistent comparator for these elements. -/
structure TotalPreorderOn {β : Type} (cmp : β → β → Number) (l : List β) : Prop where
  number : ∀ a ∈ l, ∀ b ∈ l, cmp a b ≠ Number.nan
  flip : ∀ a ∈ l, ∀ b ∈ l, cmp a b < 0 ↔ 0 < cmp b a
  trans : ∀ a ∈ l, ∀ b ∈ l, ∀ c ∈ l, cmp a b ≤ 0 → cmp b c ≤ 0 → cmp a c ≤ 0

/-- The step `SortCompare` of the language standard, through which `Array.prototype.sort`
calls the comparator it is given: NaN is read as `+0`. -/
def sortCompare {β : Type} (comparefn : β → β → Number) (x y : β) : Number :=
  if comparefn x y = Number.nan then 0 else comparefn x y

/-- The contract of the host's `Array.prototype.sort`: the result is always a rearrangement
of the array; the sort sees its comparator through `sortCompare`, and when the comparator
so read is a total preorder on the elements, no element stands before one that the
comparator puts strictly before it.  Nothing is said about elements that compare equal: the
sort need not be stable. -/
structure SortContract {β : Type} (sort : (β → β → Number) → List β → List β) : Prop where
  perm : ∀ cmp l, (sort cmp l).Perm l
  sorted : ∀ cmp l, TotalPreorderOn (sortCompare cmp) l →
    (sort cmp l).Pairwise (fun a b => ¬ cmp b a < 0)

/-- The same notion for a comparator with integer values, such as the sign of a comparator
of the script: the sign of `r b a` is the opposite of the sign of `r a b`, and "not after" is
transitive. -/
structure SignPreorderOn {β : Type} (r : β → β → Int) (l : List β) : Prop where
  flip : ∀ a ∈ l, ∀ b ∈ l, r a b < 0 ↔ 0 < r b a
  trans : ∀ a ∈ l, ∀ b ∈ l, ∀ c ∈ l, r a b ≤ 0 → r b c ≤ 0 → r a c ≤ 0

/-- Insertion of `x` before the first element `b` with `test x b`. -/
def insertBy {β : Type} (test : β → β → Bool) (x : β) : List β → List β
  | [] => [x]
  | b :: l => if test x b then x :: b :: l else b :: insertBy test x l

/-- Insertion sort from the right end of the list. -/
def insertionSortBy {β : Type} (test : β → β → Bool) : List β → List β
  | [] => []
  | b :: l => insertBy test b (insertionSortBy test l)

/-- The reference stable sort: insertion sort that puts an element before the first one
it is not after, so that elements that compare equal keep their order. -/
def stableInsertionSort {β : Type} (compare : β → β → Number) (l : List β) : List β :=
  insertionSortBy (fun a b => decide (compare a b ≤ 0)) l

/-- A sort that meets `SortContract` and is not stable (elements that compare equal, or
NaN, come out in reverse order); it stands for the host's sort where a definition is
evaluated. -/
def refSort {β : Type} (cmp : β → β → Number) (l : List β) : List β :=
  insertionSortBy (fun a b => decide (cmp a b < 0)) l

/-- The tick that `compareTick` reads off a line, if any: the number right after a leading
`@` or `?`. -/
def parsedTick (line : String) : Option Number :=
  if line.data.head? = some '@' ∨ line.data.head? = some '?' then
    if parseInt line.data.tail ≠ Number.nan then some (parseInt line.data.tail)
    else Option.none
  else Option.none

/-- The text between the first `(` of a line and the first `)` after it, if both exist. -/
def parenthetical (line : List Char) : Option (List Char) :=
  match line.dropWhile (fun x => x ≠ '(') with
  | [] => Option.none
  | _ :: rest => if ')' ∈ rest then some (rest.takeWhile (fun x => x ≠ ')')) else Option.none

/-- The player key as the specification words it: the code units of the parenthetical, or
the one code unit `U+00FF` when there is none. -/
def playerKey (line : String) : List Nat :=
  match parenthetical line.data with
  | some inner => utf16 inner
  | Option.none => [0xFF]

/-- A line whose tick is the numeral of 309 nines, more than the largest finite number:
`parseInt` reads it as Infinity. -/
def overflowLine (rest : String) : String :=
  String.mk ('@' :: List.replicate 309 '9') ++ rest

/-- Modelled from the spec: a handler list with a duplicate opcode (`Move` and `Step` share
opcode 1) and a duplicate name (`Jump` twice), over the reference primitives. -/
def dupEnv : Env RefState where
  prims := refPrims
  frameHandlers := [⟨1, "Move", ArgSpec.single "uint8"⟩, ⟨2, "Jump", ArgSpec.none⟩,
    ⟨1, "Step", ArgSpec.none⟩, ⟨4, "Jump", ArgSpec.single "uint8"⟩]
  resetPlayers := fun s => s
  inheritedKey := fun k => decide (k = "constructor")

/-! ## Basic facts: strings, hex text, the lookup tables -/

theorem string_length_eq_zero (a : String) : a.length = 0 ↔ a = "" := by
  constructor
  · intro h
    have hd : a.data = [] := List.length_eq_zero.mp h
    exact String.ext hd
  · intro h
    subst h
    decide

theorem string_length_pos (a : String) : a.length > 0 ↔ a ≠ "" := by
  rw [gt_iff_lt, Nat.pos_iff_ne_zero, Ne, string_length_eq_zero]

theorem hexOf_append (as bs : List Nat) : hexOf (as ++ bs) = hexOf as ++ hexOf bs := by
  induction as with
  | nil => rfl
  | cons a as ih => simp [hexOf, ih]

theorem hexOf_length (bs : List Nat) : (hexOf bs).length = 2 * bs.length := by
  induction bs with
  | nil => rfl
  | cons b bs ih => simp [hexOf, ih]; omega

theorem hexText_append (as bs : List Nat) : hexText (as ++ bs) = hexText as ++ hexText bs := by
  apply String.ext
  simp [hexText, hexOf_append]

theorem hexText_nil : hexText [] = "" := rfl

theorem hexText_length (bs : List Nat) : (hexText bs).length = 2 * bs.length := by
  simp [hexText, String.length, hexOf_length]

theorem parseInt16Byte_hexDigit_fin : ∀ a b : Fin 16,
    parseInt16Byte [hexDigit a.val, hexDigit b.val] = 16 * a.val + b.val := by
  decide

theorem parseInt16Byte_hexDigit (b : Nat) (hb : b < 256) :
    parseInt16Byte [hexDigit (b / 16 % 16), hexDigit (b % 16)] = b := by
  have h := parseInt16Byte_hexDigit_fin ⟨b / 16 % 16, Nat.mod_lt _ (by decide)⟩
    ⟨b % 16, Nat.mod_lt _ (by decide)⟩
  simp only at h
  rw [h]
  omega

theorem utf16_append (as bs : List Char) : utf16 (as ++ bs) = utf16 as ++ utf16 bs := by
  induction as with
  | nil => rfl
  | cons a as ih =>
    rw [List.cons_append, utf16, utf16]
    split <;> simp [ih]

theorem jsLength_append (a b : String) : jsLength (a ++ b) = jsLength a + jsLength b := by
  simp [jsLength, String.data_append, utf16_append]

theorem jsLength_empty : jsLength "" = 0 := rfl

theorem hexDigit_unit : ∀ a : Fin 16,
    (hexDigit a.val).toNat < 0x10000 ∧ Char.ofNat (hexDigit a.val).toNat = hexDigit a.val := by
  decide

/-- Hex text is made of characters that are one code unit each. -/
theorem utf16_hexOf (bs : List Nat) : utf16 (hexOf bs) = (hexOf bs).map Char.toNat := by
  induction bs with
  | nil => rfl
  | cons b bs ih =>
    have h1 := (hexDigit_unit ⟨b / 16 % 16, Nat.mod_lt _ (by decide)⟩).1
    have h2 := (hexDigit_unit ⟨b % 16, Nat.mod_lt _ (by decide)⟩).1
    simp only at h1 h2
    rw [hexOf, utf16, if_pos h1, utf16, if_pos h2, ih]
    rfl

theorem jsLength_hexText (bs : List Nat) : jsLength (hexText bs) = 2 * bs.length := by
  simp [jsLength, hexText, utf16_hexOf, hexOf_length]

/-- The bytes read off the first `n` pairs of code units. -/
theorem datBytes_eq (ds : String) (len : Nat) :
    datBytes ds len = (List.range (len / 2)).map
      (fun i => parseInt16Byte ((((utf16 ds.data).drop (2 * i)).take 2).map Char.ofNat)) := rfl

theorem pairs_hexOf (bs : List Nat) (hbs : ∀ b ∈ bs, b < 256) (tl : List Nat) :
    (List.range bs.length).map (fun i =>
      parseInt16Byte (((((hexOf bs).map Char.toNat ++ tl).drop (2 * i)).take 2).map Char.ofNat))
      = bs := by
  induction bs with
  | nil => rfl
  | cons b bs ih =>
    rw [List.length_cons, List.range_succ_eq_map, List.map_cons, List.map_map]
    have hb : b < 256 := hbs b (List.mem_cons_self _ _)
    have ih1 := ih (fun x hx => hbs x (List.mem_cons_of_mem _ hx))
    have h1 := (hexDigit_unit ⟨b / 16 % 16, Nat.mod_lt _ (by decide)⟩).2
    have h2 := (hexDigit_unit ⟨b % 16, Nat.mod_lt _ (by decide)⟩).2
    simp only at h1 h2
    have h0 : parseInt16Byte (((((hexOf (b :: bs)).map Char.toNat ++ tl).drop (2 * 0)).take 2).map
        Char.ofNat) = b := by
      simp [hexOf, h1, h2, parseInt16Byte_hexDigit b hb]
    rw [h0]
    congr 1

theorem datBytes_hexText_append (bs : List Nat) (hbs : ∀ b ∈ bs, b < 256) (tl : String) :
    datBytes (hexText bs ++ tl) (jsLength (hexText bs)) = bs := by
  rw [datBytes_eq, jsLength_hexText]
  have h : 2 * bs.length / 2 = bs.length := by omega
  rw [h, String.data_append, utf16_append]
  have h2 : utf16 (hexText bs).data = (hexOf bs).map Char.toNat := utf16_hexOf bs
  rw [h2]
  exact pairs_hexOf bs hbs (utf16 tl.data)

theorem datBytes_hexText (bs : List Nat) (hbs : ∀ b ∈ bs, b < 256) :
    datBytes (hexText bs) (jsLength (hexText bs)) = bs := by
  have h := datBytes_hexText_append bs hbs ""
  simpa using h

theorem datBytes_zero (ds : String) : datBytes ds 0 = [] := by
  simp [datBytes]

theorem byteTable_foldl (hs : List (FrameHandler σ)) (t0 : Nat → Option (FrameHandler σ))
    (k : Nat) (h : FrameHandler σ)
    (hk : hs.foldl (fun tbl h => fun k => if k = h.opcode then some h else tbl k) t0 k = some h) :
    (h ∈ hs ∧ h.opcode = k) ∨ t0 k = some h := by
  induction hs generalizing t0 with
  | nil => exact Or.inr hk
  | cons a hs ih =>
    rw [List.foldl_cons] at hk
    rcases ih _ hk with h1 | h1
    · exact Or.inl ⟨List.mem_cons_of_mem _ h1.1, h1.2⟩
    · by_cases hka : k = a.opcode
      · simp only [hka, if_true, Option.some.injEq] at h1
        subst h1
        exact Or.inl ⟨List.mem_cons_self _ _, hka.symm⟩
      · simp only [hka, if_false] at h1
        exact Or.inr h1

/-- A handler found under an opcode belongs to the list and has that opcode. -/
theorem byteTable_some (hs : List (FrameHandler σ)) (k : Nat) (h : FrameHandler σ)
    (hk : inputActionByteToFrameHandler hs k = some h) : h ∈ hs ∧ h.opcode = k := by
  rcases byteTable_foldl hs _ k h hk with h1 | h1
  · exact h1
  · cases h1

theorem nameTable_foldl (hs : List (FrameHandler σ)) (t0 : String → Slot σ)
    (k : String) (h : FrameHandler σ)
    (hk : hs.foldl (fun tbl h => fun k => if k = h.name then Slot.handler h else tbl k) t0 k
      = Slot.handler h) :
    (h ∈ hs ∧ h.name = k) ∨ t0 k = Slot.handler h := by
  induction hs generalizing t0 with
  | nil => exact Or.inr hk
  | cons a hs ih =>
    rw [List.foldl_cons] at hk
    rcases ih _ hk with h1 | h1
    · exact Or.inl ⟨List.mem_cons_of_mem _ h1.1, h1.2⟩
    · by_cases hka : k = a.name
      · simp only [hka, if_true, Slot.handler.injEq] at h1
        subst h1
        exact Or.inl ⟨List.mem_cons_self _ _, hka.symm⟩
      · simp only [hka, if_false] at h1
        exact Or.inr h1

/-- A handler found under a name belongs to the list and has that name. -/
theorem nameTable_handler (inh : String → Bool) (hs : List (FrameHandler σ)) (k : String)
    (h : FrameHandler σ) (hk : inputActionNameToFrameHandler inh hs k = Slot.handler h) :
    h ∈ hs ∧ h.name = k := by
  rcases nameTable_foldl hs _ k h hk with h1 | h1
  · exact h1
  · by_cases hi : inh k = true <;> simp [hi] at h1

theorem nameTable_foldl_mem (hs : List (FrameHandler σ)) (t0 : String → Slot σ)
    (h : FrameHandler σ) (hmem : h ∈ hs) (hnd : (hs.map (fun x => x.name)).Nodup) :
    hs.foldl (fun tbl h => fun k => if k = h.name then Slot.handler h else tbl k) t0 h.name
      = Slot.handler h := by
  induction hs generalizing t0 with
  | nil => cases hmem
  | cons a hs ih =>
    rw [List.foldl_cons]
    rw [List.map_cons, List.nodup_cons] at hnd
    rcases List.mem_cons.mp hmem with h1 | h1
    · subst h1
      have hnot : ∀ (t : String → Slot σ), t h.name = Slot.handler h →
          hs.foldl (fun tbl h => fun k => if k = h.name then Slot.handler h else tbl k) t h.name
            = Slot.handler h := by
        intro t ht
        have hno : ∀ x ∈ hs, x.name ≠ h.name := by
          intro x hx hxe
          exact hnd.1 (List.mem_map.mpr ⟨x, hx, hxe⟩)
        clear ih hmem hnd
        induction hs generalizing t with
        | nil => exact ht
        | cons b hs ih2 =>
          rw [List.foldl_cons]
          apply ih2
          · have hb : h.name ≠ b.name := fun e => hno b (List.mem_cons_self _ _) e.symm
            simp only [hb, if_false]
            exact ht
          · intro x hx
            exact hno x (List.mem_cons_of_mem _ hx)
      apply hnot
      simp
    · exact ih _ h1 hnd.2

/-- With names that are pairwise different, the name of a handler of the list finds it. -/
theorem nameTable_of_mem (inh : String → Bool) (hs : List (FrameHandler σ))
    (h : FrameHandler σ) (hmem : h ∈ hs) (hnd : (hs.map (fun x => x.name)).Nodup) :
    inputActionNameToFrameHandler inh hs h.name = Slot.handler h :=
  nameTable_foldl_mem hs _ h hmem hnd

/-! ## The decoder -/

theorem intercalate_go_append (acc sep : String) (as : List String) :
    ∃ t, String.intercalate.go acc sep as = acc ++ t := by
  induction as generalizing acc with
  | nil => exact ⟨"", by simp [String.intercalate.go]⟩
  | cons a as ih =>
    obtain ⟨t, ht⟩ := ih (acc ++ sep ++ a)
    refine ⟨sep ++ a ++ t, ?_⟩
    rw [String.intercalate.go, ht]
    simp only [String.append_assoc]

theorem intercalate_go_snoc (acc sep : String) (as : List String) (r : String) :
    String.intercalate.go acc sep (as ++ [r]) = String.intercalate.go acc sep as ++ sep ++ r := by
  induction as generalizing acc with
  | nil => simp [String.intercalate.go]
  | cons a as ih => simp [String.intercalate.go, ih]

theorem intercalate_snoc (sep : String) (done : List String) (r : String) (hne : done ≠ []) :
    sep.intercalate (done ++ [r]) = sep.intercalate done ++ sep ++ r := by
  cases done with
  | nil => exact absurd rfl hne
  | cons a as => simp [String.intercalate, intercalate_go_snoc]

theorem intercalate_eq_empty (sep : String) (done : List String) (hall : ∀ x ∈ done, x ≠ "") :
    sep.intercalate done = "" ↔ done = [] := by
  cases done with
  | nil => simp [String.intercalate]
  | cons a as =>
    simp only [String.intercalate, reduceCtorEq, iff_false]
    obtain ⟨t, ht⟩ := intercalate_go_append a sep as
    rw [ht]
    intro h
    have ha : a ≠ "" := hall a (List.mem_cons_self _ _)
    apply ha
    have hd : (a ++ t).data = [] := by rw [h]
    rw [String.data_append, List.append_eq_nil] at hd
    exact String.ext hd.1

/-- The loop over a field list builds the non-empty renderings joined by a comma and a
blank, and leaves the state in which every reader has run once, in declared order. -/
theorem readFieldList_eq (P : Prims σ) (tags : List String) (s : σ) (done : List String)
    (hall : ∀ x ∈ done, x ≠ "") :
    readFieldList P tags s (", ".intercalate done) =
      (", ".intercalate (done ++ (fieldRenderings P tags s).1.filter (fun r => r ≠ "")),
        tags.foldl (fun st tag => (P.readField tag st).2) s) := by
  induction tags generalizing s done with
  | nil => simp [readFieldList, fieldRenderings]
  | cons tag rest ih =>
    rw [readFieldList, fieldRenderings, List.foldl_cons]
    by_cases hr : (P.readField tag s).1 = ""
    · have hl : (P.readField tag s).1.length = 0 := (string_length_eq_zero _).mpr hr
      simp only [hl, if_true]
      rw [ih _ _ hall]
      simp [hr]
    · have hl : ¬ (P.readField tag s).1.length = 0 := fun h => hr ((string_length_eq_zero _).mp h)
      simp only [hl, if_false]
      have hacc : (if (", ".intercalate done).length > 0 then ", ".intercalate done ++ ", "
          else ", ".intercalate done) ++ (P.readField tag s).1
          = ", ".intercalate (done ++ [(P.readField tag s).1]) := by
        by_cases hd : done = []
        · subst hd
          simp [String.intercalate, String.intercalate.go]
        · have hne : ", ".intercalate done ≠ "" := fun h =>
            hd ((intercalate_eq_empty _ _ hall).mp h)
          have hpos : (", ".intercalate done).length > 0 := (string_length_pos _).mpr hne
          simp only [hpos, if_true]
          rw [intercalate_snoc _ _ _ hd]
      rw [hacc]
      have hall1 : ∀ x ∈ done ++ [(P.readField tag s).1], x ≠ "" := by
        intro x hx
        rcases List.mem_append.mp hx with h1 | h1
        · exact hall x h1
        · rw [List.mem_singleton] at h1
          rw [h1]
          exact hr
      rw [ih _ _ hall1]
      simp [hr]

theorem readArgs_eq (P : Prims σ) (args : ArgSpec σ) (s : σ) :
    readArgs P args s = (renderedArgs P args s, stateAfterArgs P args s) := by
  cases args with
  | none => rfl
  | single tag => rfl
  | fields tags =>
    have h := readFieldList_eq P tags s [] (by simp)
    simpa [readArgs, renderedArgs, stateAfterArgs, String.intercalate] using h
  | custom decode encode => rfl

theorem parseRecord_known (E : Env σ) (s : σ) (h : FrameHandler σ)
    (hfound : inputActionByteToFrameHandler E.frameHandlers (E.prims.readUint8 s).1 = some h) :
    parseRecord E s =
      ((E.prims.readTick (E.prims.readUint8 s).2).1 ++ h.name
          ++ argSuffix (renderedArgs E.prims h.args (E.prims.readTick (E.prims.readUint8 s).2).2),
        stateAfterArgs E.prims h.args (E.prims.readTick (E.prims.readUint8 s).2).2) := by
  simp only [parseRecord, hfound, readArgs_eq, argSuffix]
  by_cases ha : renderedArgs E.prims h.args (E.prims.readTick (E.prims.readUint8 s).2).2 = ""
  · simp [ha]
  · have hpos := (string_length_pos _).mpr ha
    simp [ha, hpos]

/-- C8. Decoded line rendering: when the loop is not at the end of the buffer and the opcode
read has a handler in the table, the loop appends to its result the tick text, the name of
the handler and the argument suffix, followed by a newline, where the arguments are the text
of the custom decode function, or the non-empty field renderings in declared order joined by
a comma and a blank, or the rendering of the single field, or nothing, and the suffix is
empty for empty arguments and a blank followed by the arguments otherwise; it goes on in the
state in which every field reader has run exactly once, in declared order. -/
theorem parseLoop_known_line (E : Env σ) (fuel : Nat) (s : σ) (result : String)
    (h : FrameHandler σ) (hmore : E.prims.eof s = false)
    (hfound : inputActionByteToFrameHandler E.frameHandlers (E.prims.readUint8 s).1 = some h) :
    parseLoop E (fuel + 1) s result =
      parseLoop E fuel
        (stateAfterArgs E.prims h.args (E.prims.readTick (E.prims.readUint8 s).2).2)
        (result ++ ((E.prims.readTick (E.prims.readUint8 s).2).1 ++ h.name
          ++ argSuffix (renderedArgs E.prims h.args (E.prims.readTick (E.prims.readUint8 s).2).2))
          ++ "\n") := by
  rw [parseLoop]
  simp only [hmore, Bool.false_eq_true, not_false_eq_true, if_true]
  rw [parseRecord_known E s h hfound]

/-- Witness for C8 on the reference registry: a `Pair` record whose second field is absent
is rendered as `@9(7) Pair 5`. -/
theorem parseLoop_known_line_witness :
    parseLoop refEnv 2 (RefState.ofBytes [3, 0, 0, 0, 9, 0, 7, 5, 255]) ""
      = some ("@9(7) Pair 5\n", ⟨[3, 0, 0, 0, 9, 0, 7, 5, 255], [], 9, "", "", 0, []⟩) := by
  rw [parseLoop_known_line refEnv 1 (RefState.ofBytes [3, 0, 0, 0, 9, 0, 7, 5, 255]) ""
    ⟨3, "Pair", ArgSpec.fields ["uint8", "optUint8"]⟩ (by decide) (by rfl)]
  decide

theorem parseLoop_more (E : Env σ) (fuel : Nat) (s : σ) (result : String)
    (he : E.prims.eof s = false) :
    parseLoop E (fuel + 1) s result
      = parseLoop E fuel (parseRecord E s).2 (result ++ (parseRecord E s).1 ++ "\n") := by
  rw [parseLoop]
  simp only [he, Bool.false_eq_true, not_false_eq_true, if_true]

theorem parseLoop_end (E : Env σ) (fuel : Nat) (s : σ) (result : String)
    (he : E.prims.eof s = true) : parseLoop E (fuel + 1) s result = some (result, s) := by
  rw [parseLoop]
  simp only [he, not_true_eq_false, if_false]

theorem stateAfterArgs_le (E : Env σ) (remaining : σ → Nat) (hC : Consuming E remaining)
    (h : FrameHandler σ) (hmem : h ∈ E.frameHandlers) (s : σ) :
    remaining (stateAfterArgs E.prims h.args s) ≤ remaining s := by
  cases hargs : h.args with
  | none => exact Nat.le_refl _
  | single tag => exact hC.field_le tag s
  | fields tags =>
    simp only [stateAfterArgs]
    clear hargs
    induction tags generalizing s with
    | nil => exact Nat.le_refl _
    | cons tag rest ih =>
      rw [List.foldl_cons]
      exact Nat.le_trans (ih _) (hC.field_le tag s)
  | custom decode encode => exact hC.custom_le h hmem decode encode hargs s

theorem parseRecord_lt (E : Env σ) (remaining : σ → Nat) (hC : Consuming E remaining) (s : σ)
    (hmore : E.prims.eof s = false) : remaining (parseRecord E s).2 < remaining s := by
  have h1 := hC.uint8_lt s hmore
  have h2 := hC.tick_le (E.prims.readUint8 s).2
  cases hfound : inputActionByteToFrameHandler E.frameHandlers (E.prims.readUint8 s).1 with
  | some h =>
    rw [parseRecord_known E s h hfound]
    have h3 := stateAfterArgs_le E remaining hC h (byteTable_some _ _ _ hfound).1
      (E.prims.readTick (E.prims.readUint8 s).2).2
    simp only
    omega
  | none =>
    simp only [parseRecord, hfound]
    cases he : E.prims.eof (E.prims.readTick (E.prims.readUint8 s).2).2 with
    | true =>
      simp only [not_true_eq_false, if_false]
      omega
    | false =>
      simp only [Bool.false_eq_true, not_false_eq_true, if_true]
      have h3 := hC.unhandled_le (E.prims.readTick (E.prims.readUint8 s).2).2
      omega

theorem parseLoop_run (E : Env σ) (remaining : σ → Nat) (hC : Consuming E remaining) (n : Nat) :
    ∀ s, remaining s ≤ n → ∃ m, m ≤ n ∧
      (∀ k, k < m → E.prims.eof (stateAfterRecords E k s) = false) ∧
      E.prims.eof (stateAfterRecords E m s) = true ∧
      ∀ fuel, m < fuel → ∀ result,
        parseLoop E fuel s result = some (result ++ decodedText E m s, stateAfterRecords E m s) := by
  induction n with
  | zero =>
    intro s hs
    have he : E.prims.eof s = true := (hC.eof_iff s).mpr (Nat.le_zero.mp hs)
    refine ⟨0, Nat.le_refl _, fun k hk => absurd hk (Nat.not_lt_zero k), he, ?_⟩
    intro fuel hf result
    obtain ⟨f, rfl⟩ : ∃ f, fuel = f + 1 := ⟨fuel - 1, by omega⟩
    simp [parseLoop, he, decodedText, stateAfterRecords]
  | succ n ih =>
    intro s hs
    by_cases he : E.prims.eof s = true
    · refine ⟨0, Nat.zero_le _, fun k hk => absurd hk (Nat.not_lt_zero k), he, ?_⟩
      intro fuel hf result
      obtain ⟨f, rfl⟩ : ∃ f, fuel = f + 1 := ⟨fuel - 1, by omega⟩
      simp [parseLoop, he, decodedText, stateAfterRecords]
    · have he0 : E.prims.eof s = false := by simpa using he
      have hlt := parseRecord_lt E remaining hC s he0
      obtain ⟨m, hm, hbefore, hat, hrun⟩ := ih (parseRecord E s).2 (by omega)
      refine ⟨m + 1, by omega, ?_, hat, ?_⟩
      · intro k hk
        cases k with
        | zero => exact he0
        | succ k => exact hbefore k (by omega)
      · intro fuel hf result
        obtain ⟨f, rfl⟩ : ∃ f, fuel = f + 1 := ⟨fuel - 1, by omega⟩
        rw [parseLoop]
        simp only [he0, Bool.false_eq_true, not_false_eq_true, if_true]
        rw [hrun f (by omega)]
        simp [decodedText, stateAfterRecords, String.append_assoc]

/-- C10. Decode terminates and never fails: with readers that consume (the opcode read
takes at least one byte, no reader gives bytes back, `eof` holds exactly when nothing is
left), the loop of `parseReplayDat` makes some number `n` of passes, at most one per byte of
the buffer; the cursor is not at the end before any of these passes and is at the end after
the last; with any fuel above `n` the function returns the text accumulated by these `n`
passes; and the empty buffer decodes to the empty string. -/
theorem parseReplayDat_total (E : Env σ) (remaining : σ → Nat) (hC : Consuming E remaining)
    (s0 : σ) (arrayBuffer : List Nat) :
    ∃ n, n ≤ arrayBuffer.length ∧
      (∀ k, k < n →
        E.prims.eof (stateAfterRecords E k (parseStart E s0 arrayBuffer)) = false) ∧
      E.prims.eof (stateAfterRecords E n (parseStart E s0 arrayBuffer)) = true ∧
      (∀ fuel, n < fuel → parseReplayDat E fuel s0 arrayBuffer
        = some (decodedText E n (parseStart E s0 arrayBuffer))) ∧
      (arrayBuffer = [] → ∀ fuel, 0 < fuel → parseReplayDat E fuel s0 arrayBuffer = some "") := by
  obtain ⟨m, hm, hbefore, hat, hrun⟩ := parseLoop_run E remaining hC arrayBuffer.length
    (parseStart E s0 arrayBuffer) (Nat.le_of_eq (hC.start s0 arrayBuffer))
  refine ⟨m, hm, hbefore, hat, ?_, ?_⟩
  · intro fuel hf
    simp [parseReplayDat, hrun fuel hf ""]
  · intro hnil fuel hf
    subst hnil
    have hm0 : m = 0 := Nat.le_zero.mp hm
    subst hm0
    simp [parseReplayDat, hrun fuel hf "", decodedText]

theorem refEnv_consuming : Consuming refEnv refRemaining where
  start := by
    intro s0 b
    simp [parseStart, refEnv, refPrims, RefState.ofBytes, refRemaining]
  eof_iff := by
    intro s
    simp only [refEnv, refPrims, RefState.eof, refRemaining, decide_eq_true_eq]
    omega
  uint8_lt := by
    intro s hs
    simp only [refEnv, refPrims, RefState.eof, decide_eq_false_iff_not] at hs
    simp only [refEnv, refPrims, RefState.readByte, refRemaining]
    omega
  tick_le := by
    intro s
    simp only [refEnv, refPrims, RefState.readTick, refRemaining]
    omega
  field_le := by
    intro tag s
    simp only [refEnv, refPrims, RefState.readField, refRemaining]
    split
    · simp only; omega
    · split
      · simp only; omega
      · exact Nat.le_refl _
  unhandled_le := by
    intro s
    simp only [refEnv, refPrims, RefState.fetchUnhandledBytes, refRemaining]
    omega
  custom_le := by
    intro h hmem decode encode hargs
    simp only [refEnv, List.mem_cons, List.mem_singleton, List.not_mem_nil, or_false] at hmem
    rcases hmem with rfl | rfl | rfl <;> cases hargs

/-- Witness for C10 on the reference primitives: the buffer of one `Jump` record. -/
theorem parseReplayDat_total_witness :
    Consuming refEnv refRemaining ∧
    ∃ n, n ≤ [2, 0, 0, 0, 5, 255, 255].length ∧
      (∀ k, k < n → refEnv.prims.eof (stateAfterRecords refEnv k
        (parseStart refEnv (RefState.ofBytes []) [2, 0, 0, 0, 5, 255, 255])) = false) ∧
      refEnv.prims.eof (stateAfterRecords refEnv n
        (parseStart refEnv (RefState.ofBytes []) [2, 0, 0, 0, 5, 255, 255])) = true ∧
      (∀ fuel, n < fuel →
        parseReplayDat refEnv fuel (RefState.ofBytes []) [2, 0, 0, 0, 5, 255, 255]
          = some (decodedText refEnv n
            (parseStart refEnv (RefState.ofBytes []) [2, 0, 0, 0, 5, 255, 255]))) ∧
      ([2, 0, 0, 0, 5, 255, 255] = ([] : List Nat) → ∀ fuel, 0 < fuel →
        parseReplayDat refEnv fuel (RefState.ofBytes []) [2, 0, 0, 0, 5, 255, 255] = some "") :=
  ⟨refEnv_consuming,
    parseReplayDat_total refEnv refRemaining refEnv_consuming (RefState.ofBytes [])
      [2, 0, 0, 0, 5, 255, 255]⟩

theorem parseRecord_unknown (E : Env σ) (s : σ)
    (hnone : inputActionByteToFrameHandler E.frameHandlers (E.prims.readUint8 s).1 = Option.none) :
    parseRecord E s =
      if E.prims.eof (E.prims.readTick (E.prims.readUint8 s).2).2 = true
      then ("", (E.prims.readTick (E.prims.readUint8 s).2).2)
      else E.prims.fetchUnhandledBytes (E.prims.readTick (E.prims.readUint8 s).2).2 := by
  simp only [parseRecord, hnone]
  by_cases he : E.prims.eof (E.prims.readTick (E.prims.readUint8 s).2).2 = true <;> simp [he]

/-- C9 as stated fails: the buffer of the unknown opcode 9 followed by six bytes, exactly
what the tick read consumes, decodes to one blank line; none of its seven bytes is in the
output, which is not the hex line of the record (the fallback would have rendered it). The
same holds for the buffer of the opcode 9 alone. -/
theorem unhandled_at_eof_counterexample :
    parseReplayDat refEnv 2 (RefState.ofBytes []) [9, 0, 0, 0, 0, 0, 1] = some "\n" ∧
    parseReplayDat refEnv 2 (RefState.ofBytes []) [9] = some "\n" ∧
    inputActionByteToFrameHandler refEnv.frameHandlers 9 = Option.none ∧
    (refEnv.prims.fetchUnhandledBytes
      ((RefState.ofBytes [9, 0, 0, 0, 0, 0, 1]).readByte.2.readTick.2)).1
        = "?09000000000001:" := by
  refine ⟨by decide, by decide, by rfl, by decide⟩

/-- The reference primitives meet the contract of the fallback, the unread bytes being the
bytes of the binary buffer from the cursor on. -/
theorem refEnv_fallback : FallbackRenders refEnv (fun s => s.bin.drop s.pos) where
  start := by
    intro s0 arrayBuffer
    rfl
  renders := by
    intro s
    simp only [refEnv, refPrims, RefState.fetchUnhandledBytes, RefState.readTick,
      RefState.readByte, hexBlob, hexText]
    have h : s.pos + 1 + 6 - 7 = s.pos := by omega
    rw [h]
    apply String.ext
    simp
  consumes := by
    intro s
    simp only [refEnv, refPrims, RefState.fetchUnhandledBytes, RefState.eof, decide_eq_true_eq]
    omega

/-- C9, amended. Hex fallback fidelity: with a fallback that meets its contract, for every
buffer of bytes whose first opcode has no handler and of which bytes remain after the opcode
and tick reads, `parseReplayDat` returns exactly one line, the hex-blob line of the whole
buffer, and reading the hex text of that line back two digits at a time, as the encoder
does, gives every byte of the buffer: no byte of the unhandled record is lost. -/
theorem unhandled_line (E : Env σ) (unread : σ → List Nat) (hF : FallbackRenders E unread)
    (fuel : Nat) (s0 : σ) (arrayBuffer : List Nat) (hbytes : ∀ b ∈ arrayBuffer, b < 256)
    (hmore : E.prims.eof (parseStart E s0 arrayBuffer) = false)
    (hnone : inputActionByteToFrameHandler E.frameHandlers
      (E.prims.readUint8 (parseStart E s0 arrayBuffer)).1 = Option.none)
    (hrest : E.prims.eof
      (E.prims.readTick (E.prims.readUint8 (parseStart E s0 arrayBuffer)).2).2 = false) :
    parseReplayDat E (fuel + 2) s0 arrayBuffer = some (hexBlob arrayBuffer ++ "\n") ∧
    datBytes (hexText arrayBuffer) (jsLength (hexText arrayBuffer)) = arrayBuffer := by
  refine ⟨?_, datBytes_hexText arrayBuffer hbytes⟩
  have hrec : parseRecord E (parseStart E s0 arrayBuffer) = E.prims.fetchUnhandledBytes
      (E.prims.readTick (E.prims.readUint8 (parseStart E s0 arrayBuffer)).2).2 := by
    rw [parseRecord_unknown E _ hnone]
    simp only [hrest, Bool.false_eq_true, if_false]
  rw [parseReplayDat, parseLoop_more E (fuel + 1) _ _ hmore, hrec,
    parseLoop_end E fuel _ _ (hF.consumes _), hF.renders, hF.start]
  simp

/-- Witness for C9, amended: the unknown opcode 9 followed by seven bytes decodes to the one
line that holds all eight bytes. -/
theorem unhandled_line_witness :
    (parseReplayDat refEnv 2 (RefState.ofBytes []) [9, 0, 0, 0, 0, 0, 1, 5]
        = some (hexBlob [9, 0, 0, 0, 0, 0, 1, 5] ++ "\n") ∧
      datBytes (hexText [9, 0, 0, 0, 0, 0, 1, 5]) (jsLength (hexText [9, 0, 0, 0, 0, 0, 1, 5]))
        = [9, 0, 0, 0, 0, 0, 1, 5]) ∧
    hexBlob [9, 0, 0, 0, 0, 0, 1, 5] ++ "\n" = "?0900000000000105:\n" :=
  ⟨unhandled_line refEnv (fun s => s.bin.drop s.pos) refEnv_fallback 0 (RefState.ofBytes [])
    [9, 0, 0, 0, 0, 0, 1, 5] (by decide) (by decide) (by rfl) (by decide), by decide⟩

/-! ## The encoder -/

theorem encodeLoop_end (E : Env σ) (fuel : Nat) (c : Char) (s : σ) (len : Nat)
    (he : E.prims.eof s = true) : encodeLoop E (fuel + 1) c s len = some ⟨false, len, s⟩ := by
  rw [encodeLoop]
  simp only [he, not_true_eq_false, if_false]

theorem encodeLoop_next (E : Env σ) (fuel : Nat) (c : Char) (s : σ) (len : Nat) (s1 : σ)
    (len1 : Nat) (he : E.prims.eof s = false)
    (hline : encodeLine E c s len = LineResult.next s1 len1) :
    encodeLoop E (fuel + 1) c s len
      = encodeLoop E fuel (E.prims.fetchChar (E.prims.fetchRestOfLine s1)).1
          (E.prims.fetchChar (E.prims.fetchRestOfLine s1)).2 len1 := by
  rw [encodeLoop]
  simp only [he, Bool.false_eq_true, not_false_eq_true, if_true, hline]

theorem encodeLoop_failed (E : Env σ) (fuel : Nat) (c : Char) (s : σ) (len : Nat) (s1 : σ)
    (he : E.prims.eof s = false) (hline : encodeLine E c s len = LineResult.failed s1) :
    encodeLoop E (fuel + 1) c s len = some ⟨true, len, s1⟩ := by
  rw [encodeLoop]
  simp only [he, Bool.false_eq_true, not_false_eq_true, if_true, hline]

theorem encodeLine_comment (E : Env σ) (c : Char) (s : σ) (len : Nat)
    (h1 : c ≠ '?') (h2 : c ≠ '@') (h3 : c ≠ '+') :
    encodeLine E c s len = LineResult.next s len := by
  simp [encodeLine, h1, h2, h3]

theorem encodeLine_raw (E : Env σ) (s : σ) (len : Nat) :
    encodeLine E '?' s len
      = LineResult.next (E.prims.writeBytes (E.prims.fetchString ':' s).2) len := by
  simp [encodeLine]

theorem encodeLine_command (E : Env σ) (c : Char) (s : σ) (len : Nat) (hc : c = '@' ∨ c = '+') :
    encodeLine E c s len =
      match inputActionNameToFrameHandler E.inheritedKey E.frameHandlers
          (fetchCommand E.prims c s).2.1 with
      | Slot.undefined => LineResult.failed (fetchCommand E.prims c s).2.2
      | Slot.handler frameHandler =>
        writeRecord E.prims (some frameHandler.opcode) frameHandler.args
          (fetchCommand E.prims c s).1.1 (fetchCommand E.prims c s).1.2
          (fetchCommand E.prims c s).2.2
      | Slot.inherited =>
        writeRecord E.prims Option.none ArgSpec.none (fetchCommand E.prims c s).1.1
          (fetchCommand E.prims c s).1.2 (fetchCommand E.prims c s).2.2 := by
  have h1 : c ≠ '?' := by rcases hc with rfl | rfl <;> decide
  simp only [encodeLine, h1, if_false, hc, if_true]

/-- C7. Comment lines are skipped silently: at a line whose line-type character is none of
`?`, `@`, `+` the body of the loop writes nothing, leaves the checkpoint as it is and does
not fail; the pass goes on at the next line, so the whole outcome of the pass (the flag
`failed`, the checkpoint and the state from which the byte array is read) is the outcome of
the pass that starts at the next line. -/
theorem comment_line_skipped (E : Env σ) (fuel : Nat) (c : Char) (s : σ) (len : Nat)
    (hmore : E.prims.eof s = false) (h1 : c ≠ '?') (h2 : c ≠ '@') (h3 : c ≠ '+') :
    encodeLine E c s len = LineResult.next s len ∧
    encodeLoop E (fuel + 1) c s len
      = encodeLoop E fuel (E.prims.fetchChar (E.prims.fetchRestOfLine s)).1
          (E.prims.fetchChar (E.prims.fetchRestOfLine s)).2 len :=
  ⟨encodeLine_comment E c s len h1 h2 h3,
    encodeLoop_next E fuel c s len s len hmore (encodeLine_comment E c s len h1 h2 h3)⟩

/-- Witness for C7 on the reference primitives: a first line `# note` contributes nothing,
the text encodes to the bytes of its one `Jump` record, as it does without that line. -/
theorem comment_line_skipped_witness :
    getReplayDatBytes refEnv 3 (RefState.ofBytes []) "# note\n@5 Jump\n"
      = some [2, 0, 0, 0, 5, 255, 255] ∧
    getReplayDatBytes refEnv 2 (RefState.ofBytes []) "@5 Jump\n"
      = some [2, 0, 0, 0, 5, 255, 255] := by
  constructor
  · rw [getReplayDatBytes, encodeRun, (comment_line_skipped refEnv 2
      (encodeStart refEnv (RefState.ofBytes []) "# note\n@5 Jump\n").1
      (encodeStart refEnv (RefState.ofBytes []) "# note\n@5 Jump\n").2 0
      (by decide) (by decide) (by decide) (by decide)).2]
    decide
  · decide

/-- C3, the defect. A text whose only line is a `?` line encodes to the empty byte array,
whatever the primitives do: the `?` branch writes to the accumulator but never moves the
checkpoint `datStringLen`, which stays 0. -/
theorem raw_line_dropped (E : Env σ) (fuel : Nat) (s0 : σ) (text : String)
    (hraw : (encodeStart E s0 text).1 = '?')
    (hmore : E.prims.eof (encodeStart E s0 text).2 = false)
    (hend : E.prims.eof (E.prims.fetchChar (E.prims.fetchRestOfLine
      (E.prims.writeBytes (E.prims.fetchString ':' (encodeStart E s0 text).2).2))).2 = true) :
    getReplayDatBytes E (fuel + 2) s0 text = some [] := by
  rw [getReplayDatBytes, encodeRun, hraw,
    encodeLoop_next E (fuel + 1) _ _ _ _ _ hmore (encodeLine_raw E _ _),
    encodeLoop_end E fuel _ _ _ hend]
  simp [datBytes]

/-- Witness for C3 on the reference primitives: the text `?0102:` leaves `0102` in the
accumulator and returns no byte. -/
theorem raw_line_dropped_witness :
    getReplayDatBytes refEnv 2 (RefState.ofBytes []) "?0102:\n" = some [] ∧
    (encodeRun refEnv 2 (RefState.ofBytes []) "?0102:\n").map
      (fun e => (e.failed, e.datStringLen, e.state.datString)) = some (false, 0, "0102") :=
  ⟨raw_line_dropped refEnv 0 (RefState.ofBytes []) "?0102:\n" (by decide) (by decide)
    (by decide), by decide⟩

/-- C2, the defect. The buffer of the unknown opcode 9 followed by seven bytes decodes to
one `?` line that holds all eight bytes, and that text encodes to the empty byte array: the
round trip loses the record. -/
theorem roundTrip_unknown_opcode_loses_bytes :
    parseReplayDat refEnv 2 (RefState.ofBytes []) [9, 0, 0, 0, 0, 0, 1, 5]
      = some "?0900000000000105:\n" ∧
    getReplayDatBytes refEnv 2 (RefState.ofBytes []) "?0900000000000105:\n" = some [] := by
  constructor <;> decide

theorem datBytes_append_left (a b : String) (len : Nat) (hlen : len ≤ jsLength a) :
    datBytes (a ++ b) len = datBytes a len := by
  rw [datBytes_eq, datBytes_eq]
  apply List.map_congr_left
  intro i hi
  rw [List.mem_range] at hi
  have h1 : 2 * i + 2 ≤ (utf16 a.data).length := by
    have : jsLength a = (utf16 a.data).length := rfl
    omega
  have h2 : 2 * i ≤ (utf16 a.data).length := by omega
  have h3 : 2 ≤ ((utf16 a.data).drop (2 * i)).length := by
    rw [List.length_drop]
    omega
  rw [String.data_append, utf16_append, List.drop_append_of_le_length h2,
    List.take_append_of_le_length h3]

theorem fieldList_dat (E : Env σ) (L : WriterLayout σ) (hW : HexWriters E L)
    (tags : List String) (s : σ) :
    E.prims.datString (tags.foldl (fun st tag => E.prims.writeField tag st) s)
      = E.prims.datString s ++ hexText (fieldListBytes L E.prims tags s) := by
  induction tags generalizing s with
  | nil => simp [fieldListBytes, hexText_nil]
  | cons tag rest ih =>
    rw [List.foldl_cons, ih, hW.field_emits, fieldListBytes, hexText_append, String.append_assoc]

theorem writeArgs_dat (E : Env σ) (L : WriterLayout σ) (hW : HexWriters E L)
    (h : FrameHandler σ) (hmem : h ∈ E.frameHandlers) (s : σ) :
    E.prims.datString (writeArgs E.prims h.args s)
      = E.prims.datString s ++ hexText (argBytes L E.prims h.args s) := by
  cases hargs : h.args with
  | none => simp [writeArgs, argBytes, hexText_nil]
  | single tag => simp [writeArgs, argBytes, hW.field_emits]
  | fields tags => simp [writeArgs, argBytes, fieldList_dat E L hW]
  | custom decode encode =>
    simp [writeArgs, argBytes, hW.custom_emits h hmem decode encode hargs]

theorem writeHeader_dat (E : Env σ) (L : WriterLayout σ) (hW : HexWriters E L)
    (op : Nat) (hop : op < 256) (tick : Nat) (player : Option Nat) (s : σ) :
    E.prims.datString (writeHeader E.prims (some op) tick player s)
      = E.prims.datString s ++ hexText (op :: (L.tickBytes tick ++ L.playerBytes player)) := by
  rw [writeHeader, hW.optUint16_emits, hW.uint32_emits, hW.uint8_emits op s hop]
  have h : op :: (L.tickBytes tick ++ L.playerBytes player)
      = [op] ++ (L.tickBytes tick ++ L.playerBytes player) := rfl
  rw [h, hexText_append, hexText_append]
  simp only [String.append_assoc]

theorem writeFrame_dat (E : Env σ) (L : WriterLayout σ) (hW : HexWriters E L)
    (h : FrameHandler σ) (hmem : h ∈ E.frameHandlers) (tick : Nat) (player : Option Nat)
    (s : σ) :
    E.prims.datString (writeFrame E.prims (some h.opcode) h.args tick player s)
      = E.prims.datString s ++ hexText (recordBytes L E.prims h tick player
          (writeHeader E.prims (some h.opcode) tick player s)) := by
  rw [writeFrame, writeArgs_dat E L hW h hmem,
    writeHeader_dat E L hW h.opcode (hW.opcode_lt h hmem), String.append_assoc, ← hexText_append]
  simp [recordBytes]

theorem fieldListBytes_lt (E : Env σ) (L : WriterLayout σ) (hW : HexWriters E L)
    (tags : List String) (s : σ) : ∀ b ∈ fieldListBytes L E.prims tags s, b < 256 := by
  induction tags generalizing s with
  | nil => intro b hb; cases hb
  | cons tag rest ih =>
    intro b hb
    rw [fieldListBytes, List.mem_append] at hb
    rcases hb with h1 | h1
    · exact hW.field_lt tag s b h1
    · exact ih _ b h1

theorem argBytes_lt (E : Env σ) (L : WriterLayout σ) (hW : HexWriters E L)
    (args : ArgSpec σ) (s : σ) : ∀ b ∈ argBytes L E.prims args s, b < 256 := by
  cases args with
  | none => intro b hb; cases hb
  | single tag => exact hW.field_lt tag s
  | fields tags => exact fieldListBytes_lt E L hW tags s
  | custom decode encode => exact hW.custom_lt encode s

theorem recordBytes_lt (E : Env σ) (L : WriterLayout σ) (hW : HexWriters E L)
    (h : FrameHandler σ) (hmem : h ∈ E.frameHandlers) (tick : Nat) (player : Option Nat)
    (s : σ) : ∀ b ∈ recordBytes L E.prims h tick player s, b < 256 := by
  intro b hb
  rw [recordBytes, List.mem_cons, List.mem_append, List.mem_append] at hb
  rcases hb with h1 | h1 | h1 | h1
  · rw [h1]; exact hW.opcode_lt h hmem
  · exact hW.tick_lt tick b h1
  · exact hW.player_lt player b h1
  · exact argBytes_lt E L hW h.args s b h1

theorem fetchCommand_dat (E : Env σ) (L : WriterLayout σ) (hW : HexWriters E L) (c : Char)
    (s : σ) : E.prims.datString (fetchCommand E.prims c s).2.2 = E.prims.datString s := by
  simp only [fetchCommand]
  rw [hW.fetchString_keeps, hW.fetchWhitespace_keeps, hW.fetchTick_keeps]

theorem nextLine_dat (E : Env σ) (L : WriterLayout σ) (hW : HexWriters E L) (s : σ) :
    E.prims.datString (E.prims.fetchChar (E.prims.fetchRestOfLine s)).2
      = E.prims.datString s := by
  rw [hW.fetchChar_keeps, hW.fetchRestOfLine_keeps]

theorem encodeLine_record (E : Env σ) (c : Char) (s : σ) (len : Nat) (h : FrameHandler σ)
    (hc : c = '@' ∨ c = '+')
    (hfound : inputActionNameToFrameHandler E.inheritedKey E.frameHandlers
      (fetchCommand E.prims c s).2.1 = Slot.handler h) :
    encodeLine E c s len = writeRecord E.prims (some h.opcode) h.args
      (fetchCommand E.prims c s).1.1 (fetchCommand E.prims c s).1.2
      (fetchCommand E.prims c s).2.2 := by
  rw [encodeLine_command E c s len hc, hfound]

/-- A run of comment and command lines takes the loop from its first test to its last. -/
theorem commandRun_loop (E : Env σ) (L : WriterLayout σ) {n : Nat} {c : Char} {s : σ}
    {len : Nat} {rs : List (List Nat)} {c1 : Char} {s1 : σ} {len1 : Nat}
    (hrun : CommandRun E L n c s len rs c1 s1 len1) :
    ∀ k, encodeLoop E (n + k) c s len = encodeLoop E k c1 s1 len1 := by
  induction hrun with
  | done c s len => intro k; rw [Nat.zero_add]
  | comment hmore h1 h2 h3 _ ih =>
    intro k
    have hk : ∀ m, m + 1 + k = m + k + 1 := fun m => by omega
    rw [hk, encodeLoop_next E _ _ _ _ _ _ hmore (encodeLine_comment E _ _ _ h1 h2 h3), ih]
  | @record n c s len rs c1 s1 len1 h hmore hc hfound herr _ ih =>
    intro k
    have hk : ∀ m, m + 1 + k = m + k + 1 := fun m => by omega
    have hline := encodeLine_record E c s len h hc hfound
    rw [writeRecord] at hline
    simp only [herr, ne_eq, not_true_eq_false, if_false] at hline
    rw [hk, encodeLoop_next E _ _ _ _ _ _ hmore hline, ih]

/-- Along such a run the accumulator grows by the hex text of the records, the checkpoint
is the whole accumulator as soon as one record has been written, and every byte is a byte. -/
theorem commandRun_dat (E : Env σ) (L : WriterLayout σ) (hW : HexWriters E L) {n : Nat}
    {c : Char} {s : σ} {len : Nat} {rs : List (List Nat)} {c1 : Char} {s1 : σ} {len1 : Nat}
    (hrun : CommandRun E L n c s len rs c1 s1 len1) :
    E.prims.datString s1 = E.prims.datString s ++ hexText rs.flatten ∧
    ((rs = [] ∧ len1 = len) ∨ len1 = jsLength (E.prims.datString s1)) ∧
    (∀ b ∈ rs.flatten, b < 256) := by
  induction hrun with
  | done c s len =>
    refine ⟨by simp [hexText_nil], Or.inl ⟨rfl, rfl⟩, ?_⟩
    intro b hb
    cases hb
  | comment hmore h1 h2 h3 _ ih =>
    obtain ⟨hd, hl, hb⟩ := ih
    rw [nextLine_dat E L hW] at hd
    exact ⟨hd, hl, hb⟩
  | record h hmore hc hfound herr _ ih =>
    obtain ⟨hd, hl, hb⟩ := ih
    have hmem := (nameTable_handler _ _ _ _ hfound).1
    rw [nextLine_dat E L hW, writeFrame_dat E L hW h hmem, fetchCommand_dat E L hW] at hd
    refine ⟨?_, Or.inr ?_, ?_⟩
    · rw [hd, List.flatten_cons, hexText_append, String.append_assoc]
    · rcases hl with ⟨hnil, hlen⟩ | hlen
      · rw [hlen]
        have hd2 := hd
        rw [hnil] at hd2
        simp only [List.flatten_nil, hexText_nil, String.append_empty] at hd2
        rw [hd2, writeFrame_dat E L hW h hmem, fetchCommand_dat E L hW]
      · exact hlen
    · intro b hb1
      rw [List.flatten_cons, List.mem_append] at hb1
      rcases hb1 with h1 | h1
      · exact recordBytes_lt E L hW h hmem _ _ _ b h1
      · exact hb b h1

/-- The bytes read back at the checkpoint of a run that started with an empty accumulator
are the bytes of its records, whatever has been appended since. -/
theorem datBytes_of_run (bs : List Nat) (hbs : ∀ b ∈ bs, b < 256) (ds tl : String) (len : Nat)
    (hds : ds = "" ++ hexText bs) (hlen : (bs = [] ∧ len = 0) ∨ len = jsLength ds) :
    datBytes (ds ++ tl) len = bs := by
  rcases hlen with ⟨hnil, h0⟩ | hlen
  · rw [h0, hnil, datBytes_zero]
  · rw [hlen, hds, String.empty_append]
    exact datBytes_hexText_append bs hbs tl

theorem refEnv_hexWriters : HexWriters refEnv refLayout where
  fetchChar_keeps := fun _ => rfl
  fetchString_keeps := fun _ _ => rfl
  fetchTick_keeps := by
    intro b s
    simp only [refEnv, refPrims, RefState.fetchTick]
    split <;> rfl
  fetchWhitespace_keeps := fun _ => rfl
  fetchRestOfLine_keeps := fun _ => rfl
  uint8_emits := by
    intro b s hb
    simp [refEnv, refPrims, RefState.writeUint8, RefState.emit, Nat.mod_eq_of_lt hb]
  uint32_emits := fun _ _ => rfl
  optUint16_emits := fun _ _ => rfl
  field_emits := fun _ _ => rfl
  custom_emits := by
    intro h hmem decode encode hargs
    simp only [refEnv, List.mem_cons, List.mem_singleton, List.not_mem_nil, or_false] at hmem
    rcases hmem with rfl | rfl | rfl <;> cases hargs
  opcode_lt := by
    intro h hmem
    simp only [refEnv, List.mem_cons, List.mem_singleton, List.not_mem_nil, or_false] at hmem
    rcases hmem with rfl | rfl | rfl <;> decide
  tick_length := fun _ => rfl
  tick_lt := by
    intro t b hb
    simp only [refLayout, bytesOfUint32, List.mem_cons, List.mem_singleton, List.not_mem_nil,
      or_false] at hb
    omega
  player_lt := by
    intro p b hb
    cases p with
    | none =>
      simp only [refLayout, bytesOfOptUint16, List.mem_cons, List.mem_singleton,
        List.not_mem_nil, or_false] at hb
      omega
    | some v =>
      simp only [refLayout, bytesOfOptUint16, List.mem_cons, List.mem_singleton,
        List.not_mem_nil, or_false] at hb
      omega
  field_lt := by
    intro tag s b hb
    simp only [refLayout, RefState.fieldBytes] at hb
    split at hb
    · split at hb
      · cases hb
      · rename_i hcond
        rw [List.mem_singleton] at hb
        rw [hb]
        omega
    · split at hb
      · split at hb
        · rw [List.mem_singleton] at hb
          omega
        · split at hb
          · cases hb
          · rw [List.mem_singleton] at hb
            omega
      · cases hb
  custom_lt := by
    intro encode s b hb
    cases hb

/-- C6. Encoded record layout: when the accumulator is empty at the start of the pass and
the text is made of `n` comment lines and command lines that all name handlers of the
registry and raise no error, up to the end of the input, `getReplayDatBytes` returns, with
any fuel above `n`, the concatenation in line order of the bytes of each record, which are
the opcode byte of the handler, the four bytes of the tick, the bytes of the player field,
then the payload (the bytes of the custom encode function, one write per field tag in
declared order, the one write of a single field, or nothing). -/
theorem encoded_layout (E : Env σ) (L : WriterLayout σ) (hW : HexWriters E L) (s0 : σ)
    (text : String) (n : Nat) (rs : List (List Nat)) (c : Char) (s : σ) (len : Nat)
    (hstart : E.prims.datString (encodeStart E s0 text).2 = "")
    (hrun : CommandRun E L n (encodeStart E s0 text).1 (encodeStart E s0 text).2 0 rs c s len)
    (hend : E.prims.eof s = true) (fuel : Nat) (hfuel : n < fuel) :
    getReplayDatBytes E fuel s0 text = some rs.flatten := by
  obtain ⟨k, rfl⟩ : ∃ k, fuel = n + (k + 1) := ⟨fuel - n - 1, by omega⟩
  obtain ⟨hd, hl, hb⟩ := commandRun_dat E L hW hrun
  rw [hstart] at hd
  rw [getReplayDatBytes, encodeRun, commandRun_loop E L hrun, encodeLoop_end E k c s len hend]
  simp only [Option.map_some', Option.some.injEq]
  have h := datBytes_of_run rs.flatten hb (E.prims.datString s) "" len hd
    (hl.imp (fun h => ⟨by rw [h.1]; rfl, h.2⟩) id)
  simpa using h

/-- Witness for C6: the concrete scenario of the specification, `@0(1) Move 5`, `@0(0) Move 3`
and `@5 Jump`, encodes to `01 00000000 0001 05`, `01 00000000 0000 03`, `02 00000005 FFFF`. -/
theorem encoded_layout_witness :
    getReplayDatBytes refEnv 4 (RefState.ofBytes []) "@0(1) Move 5\n@0(0) Move 3\n@5 Jump\n"
      = some [1, 0, 0, 0, 0, 0, 1, 5, 1, 0, 0, 0, 0, 0, 0, 3, 2, 0, 0, 0, 5, 255, 255] :=
  (encoded_layout refEnv refLayout refEnv_hexWriters (RefState.ofBytes [])
    "@0(1) Move 5\n@0(0) Move 3\n@5 Jump\n" 3 _ _ _ _ (by decide)
    (CommandRun.record ⟨1, "Move", ArgSpec.single "uint8"⟩ (by decide) (Or.inl (by decide))
      (by rfl) (by decide)
      (CommandRun.record ⟨1, "Move", ArgSpec.single "uint8"⟩ (by decide) (Or.inl (by decide))
        (by rfl) (by decide)
        (CommandRun.record ⟨2, "Jump", ArgSpec.none⟩ (by decide) (Or.inl (by decide))
          (by rfl) (by decide) (CommandRun.done _ _ _))))
    (by decide) 4 (by decide)).trans (by decide)

/-- Encode abort at line 75: when the accumulator is empty at the start of the pass, the
first `n` lines are command lines that name handlers and raise no error (or comment lines),
and the next line is a command line for whose name the lookup in the name table gives
`undefined`, then with any fuel above `n` the loop stops at that line with `failed` set and
the checkpoint of the lines before it, and `getReplayDatBytes` returns exactly the
concatenated bytes of the records of those `n` lines, whatever follows the failing line; for
`n = 0` that is the empty byte array. -/
theorem abort_on_unknown_name (E : Env σ) (L : WriterLayout σ) (hW : HexWriters E L) (s0 : σ)
    (text : String) (n : Nat) (rs : List (List Nat)) (c : Char) (s : σ) (len : Nat)
    (hstart : E.prims.datString (encodeStart E s0 text).2 = "")
    (hrun : CommandRun E L n (encodeStart E s0 text).1 (encodeStart E s0 text).2 0 rs c s len)
    (hmore : E.prims.eof s = false) (hc : c = '@' ∨ c = '+')
    (hunknown : inputActionNameToFrameHandler E.inheritedKey E.frameHandlers
      (fetchCommand E.prims c s).2.1 = Slot.undefined)
    (fuel : Nat) (hfuel : n < fuel) :
    encodeRun E fuel s0 text = some ⟨true, len, (fetchCommand E.prims c s).2.2⟩ ∧
    getReplayDatBytes E fuel s0 text = some rs.flatten ∧
    (n = 0 → getReplayDatBytes E fuel s0 text = some []) := by
  obtain ⟨k, rfl⟩ : ∃ k, fuel = n + (k + 1) := ⟨fuel - n - 1, by omega⟩
  obtain ⟨hd, hl, hb⟩ := commandRun_dat E L hW hrun
  rw [hstart] at hd
  have hline : encodeLine E c s len = LineResult.failed (fetchCommand E.prims c s).2.2 := by
    rw [encodeLine_command E c s len hc, hunknown]
  have hloop : encodeRun E (n + (k + 1)) s0 text
      = some ⟨true, len, (fetchCommand E.prims c s).2.2⟩ := by
    rw [encodeRun, commandRun_loop E L hrun, encodeLoop_failed E k c s len _ hmore hline]
  have hbytes : getReplayDatBytes E (n + (k + 1)) s0 text = some rs.flatten := by
    rw [getReplayDatBytes, hloop]
    simp only [Option.map_some', Option.some.injEq]
    rw [fetchCommand_dat E L hW]
    have h := datBytes_of_run rs.flatten hb (E.prims.datString s) "" len hd
      (hl.imp (fun h => ⟨by rw [h.1]; rfl, h.2⟩) id)
    simpa using h
  refine ⟨hloop, hbytes, ?_⟩
  intro hn
  subst hn
  cases hrun
  exact hbytes

/-- After one `Move` record the lookup of the name `Moose` gives `undefined`; the bytes of
the first record are returned and the `Jump` line after the failing one contributes
nothing. -/
theorem abort_on_unknown_name_witness :
    getReplayDatBytes refEnv 4 (RefState.ofBytes []) "@0(1) Move 5\n@0(0) Moose 3\n@5 Jump\n"
      = some [1, 0, 0, 0, 0, 0, 1, 5] :=
  (abort_on_unknown_name refEnv refLayout refEnv_hexWriters (RefState.ofBytes [])
    "@0(1) Move 5\n@0(0) Moose 3\n@5 Jump\n" 1 _ _ _ _ (by decide)
    (CommandRun.record ⟨1, "Move", ArgSpec.single "uint8"⟩ (by decide) (Or.inl (by decide))
      (by rfl) (by decide) (CommandRun.done _ _ _))
    (by decide) (Or.inl (by decide)) (by rfl) 4 (by decide)).2.1.trans (by decide)

/-- C5. Encode abort on the error signal: when the accumulator is empty at the start of
the pass, the first `n` lines are command lines that name handlers and raise no error (or
comment lines), and the next line is a command line that names a handler but leaves the
error signal non-empty after its writes, then with any fuel above `n` the loop stops at that
line with `failed` set and the checkpoint of the lines before it, exactly as for an unknown
name, and `getReplayDatBytes` returns the concatenated bytes of the records of those `n`
lines: the opcode, tick, player and field bytes appended for the failing record are not in
the output and the bytes of every earlier record are. -/
theorem abort_on_error (E : Env σ) (L : WriterLayout σ) (hW : HexWriters E L) (s0 : σ)
    (text : String) (n : Nat) (rs : List (List Nat)) (c : Char) (s : σ) (len : Nat)
    (h : FrameHandler σ)
    (hstart : E.prims.datString (encodeStart E s0 text).2 = "")
    (hrun : CommandRun E L n (encodeStart E s0 text).1 (encodeStart E s0 text).2 0 rs c s len)
    (hmore : E.prims.eof s = false) (hc : c = '@' ∨ c = '+')
    (hfound : inputActionNameToFrameHandler E.inheritedKey E.frameHandlers
      (fetchCommand E.prims c s).2.1 = Slot.handler h)
    (herror : E.prims.error (writeFrame E.prims (some h.opcode) h.args
      (fetchCommand E.prims c s).1.1 (fetchCommand E.prims c s).1.2
      (fetchCommand E.prims c s).2.2) ≠ "")
    (fuel : Nat) (hfuel : n < fuel) :
    encodeRun E fuel s0 text = some ⟨true, len, writeFrame E.prims (some h.opcode) h.args
      (fetchCommand E.prims c s).1.1 (fetchCommand E.prims c s).1.2
      (fetchCommand E.prims c s).2.2⟩ ∧
    getReplayDatBytes E fuel s0 text = some rs.flatten := by
  obtain ⟨k, rfl⟩ : ∃ k, fuel = n + (k + 1) := ⟨fuel - n - 1, by omega⟩
  obtain ⟨hd, hl, hb⟩ := commandRun_dat E L hW hrun
  rw [hstart] at hd
  have hmem := (nameTable_handler _ _ _ _ hfound).1
  have hline : encodeLine E c s len = LineResult.failed (writeFrame E.prims (some h.opcode)
      h.args (fetchCommand E.prims c s).1.1 (fetchCommand E.prims c s).1.2
      (fetchCommand E.prims c s).2.2) := by
    rw [encodeLine_record E c s len h hc hfound, writeRecord]
    simp only [herror, ne_eq, not_false_eq_true, if_true]
  have hloop : encodeRun E (n + (k + 1)) s0 text = some ⟨true, len,
      writeFrame E.prims (some h.opcode) h.args (fetchCommand E.prims c s).1.1
        (fetchCommand E.prims c s).1.2 (fetchCommand E.prims c s).2.2⟩ := by
    rw [encodeRun, commandRun_loop E L hrun, encodeLoop_failed E k c s len _ hmore hline]
  refine ⟨hloop, ?_⟩
  rw [getReplayDatBytes, hloop]
  simp only [Option.map_some', Option.some.injEq]
  rw [writeFrame_dat E L hW h hmem, fetchCommand_dat E L hW]
  exact datBytes_of_run rs.flatten hb (E.prims.datString s) _ len hd
    (hl.imp (fun h => ⟨by rw [h.1]; rfl, h.2⟩) id)

/-- Witness for C5: after one `Move` record a `Move` line without a number sets the error
signal; the bytes of the first record are returned and the seven header bytes already
appended for the failing record are not. -/
theorem abort_on_error_witness :
    getReplayDatBytes refEnv 4 (RefState.ofBytes []) "@0(1) Move 5\n@7(0) Move x\n@5 Jump\n"
      = some [1, 0, 0, 0, 0, 0, 1, 5] ∧
    (encodeRun refEnv 4 (RefState.ofBytes []) "@0(1) Move 5\n@7(0) Move x\n@5 Jump\n").map
      (fun e => (e.failed, e.datStringLen, e.state.datString, e.state.error))
      = some (true, 16, "010000000000010501000000070000", "uint8: expected a number") :=
  ⟨(abort_on_error refEnv refLayout refEnv_hexWriters (RefState.ofBytes [])
    "@0(1) Move 5\n@7(0) Move x\n@5 Jump\n" 1 _ _ _ _ ⟨1, "Move", ArgSpec.single "uint8"⟩
    (by decide)
    (CommandRun.record ⟨1, "Move", ArgSpec.single "uint8"⟩ (by decide) (Or.inl (by decide))
      (by rfl) (by decide) (CommandRun.done _ _ _))
    (by decide) (Or.inl (by decide)) (by rfl) (by decide) 4 (by decide)).2.trans (by decide),
    by decide⟩

/-! ## The round trip -/

/-- A decode loop that returns has made `n` passes, for some `n` below the fuel: the cursor
was not at the end before any of them and is at the end after the last, and the text is that
of these `n` passes. -/
theorem parseLoop_some (E : Env σ) (fuel : Nat) :
    ∀ d result text df, parseLoop E fuel d result = some (text, df) →
      ∃ n, n < fuel ∧ (∀ k, k < n → E.prims.eof (stateAfterRecords E k d) = false) ∧
        E.prims.eof (stateAfterRecords E n d) = true ∧
        text = result ++ decodedText E n d ∧ df = stateAfterRecords E n d := by
  induction fuel with
  | zero =>
    intro d result text df h
    simp [parseLoop] at h
  | succ fuel ih =>
    intro d result text df h
    cases he : E.prims.eof d with
    | true =>
      rw [parseLoop_end E fuel d result he] at h
      simp only [Option.some.injEq, Prod.mk.injEq] at h
      refine ⟨0, Nat.succ_pos _, fun k hk => absurd hk (Nat.not_lt_zero k), he, ?_, h.2.symm⟩
      rw [← h.1]
      simp [decodedText]
    | false =>
      rw [parseLoop_more E fuel d result he] at h
      obtain ⟨n, hn, hmore, hend, htext, hdf⟩ := ih _ _ _ _ h
      refine ⟨n + 1, Nat.succ_lt_succ hn, ?_, hend, ?_, hdf⟩
      · intro k hk
        cases k with
        | zero => exact he
        | succ k => exact hmore k (Nat.lt_of_succ_lt_succ hk)
      · rw [htext, decodedText, String.append_assoc, String.append_assoc, String.append_assoc]

/-- The three header writes leave the text, the error signal and the coupling alone. -/
theorem writeHeader_keeps (E : Env σ) (L : WriterLayout σ) (unread : σ → Option (List Nat))
    (rest : σ → List Char) (sync : σ → σ → Prop) (hC : TextCoherent E L unread rest sync)
    (d e : σ) (b : Nat) (hb : b < 256) (t : Nat) (p : Option Nat) (hs : sync d e) :
    rest (writeHeader E.prims (some b) t p e) = rest e ∧
    E.prims.error (writeHeader E.prims (some b) t p e) = E.prims.error e ∧
    sync d (writeHeader E.prims (some b) t p e) := by
  obtain ⟨h1, h2, h3⟩ := hC.uint8_keeps d e b hs hb
  obtain ⟨h4, h5, h6⟩ := hC.uint32_keeps d _ t h3
  obtain ⟨h7, h8, h9⟩ := hC.optUint16_keeps d _ p h6
  rw [writeHeader]
  exact ⟨by rw [h7, h4, h1], by rw [h8, h5, h2], h9⟩

/-- The line of a record with a handler, as a list of characters before a tail: the tick
text, the name, then either a blank and the argument text or nothing, then the line end. -/
theorem parseRecord_data (E : Env σ) (d : σ) (h : FrameHandler σ)
    (hfound : inputActionByteToFrameHandler E.frameHandlers (E.prims.readUint8 d).1 = some h)
    (tl : List Char) :
    (parseRecord E d).2
      = (readArgs E.prims h.args (E.prims.readTick (E.prims.readUint8 d).2).2).2 ∧
    ∃ gap : List Char, (gap.head? = some ' ' ∨ gap.head? = some '\n') ∧
      (if gap.head? = some ' ' then gap.tail else gap)
        = (readArgs E.prims h.args (E.prims.readTick (E.prims.readUint8 d).2).2).1.data
            ++ '\n' :: tl ∧
      ((parseRecord E d).1 ++ "\n").data ++ tl
        = (E.prims.readTick (E.prims.readUint8 d).2).1.data ++ (h.name.data ++ gap) := by
  simp only [parseRecord, hfound]
  refine ⟨trivial, ?_⟩
  cases hargs : (readArgs E.prims h.args (E.prims.readTick (E.prims.readUint8 d).2).2).1.data with
  | nil =>
    have hl : (readArgs E.prims h.args (E.prims.readTick (E.prims.readUint8 d).2).2).1.length
        = 0 := by
      rw [String.length, hargs]
      rfl
    refine ⟨'\n' :: tl, Or.inr rfl, by simp, ?_⟩
    simp [hl, String.data_append, hargs]
  | cons a as =>
    have hl : 0 < (readArgs E.prims h.args
        (E.prims.readTick (E.prims.readUint8 d).2).2).1.length := by
      rw [String.length, hargs]
      exact Nat.succ_pos _
    refine ⟨' ' :: (a :: as ++ '\n' :: tl), Or.inl rfl, by simp, ?_⟩
    simp [hl, String.data_append, hargs]

/-- One record: run on the line that the body of the decode loop made of a record with a
handler, the body of the encode loop finds that handler, writes the bytes the decode pass
consumed, raises no error and ends where the next line starts. -/
theorem record_roundTrip (E : Env σ) (L : WriterLayout σ) (hW : HexWriters E L)
    (unread : σ → Option (List Nat)) (rest : σ → List Char) (sync : σ → σ → Prop)
    (hC : TextCoherent E L unread rest sync)
    (hnames : (E.frameHandlers.map (fun h => h.name)).Nodup)
    (hlex : ∀ h ∈ E.frameHandlers,
      h.name.data ≠ [] ∧ ∀ c ∈ h.name.data, c.isWhitespace = false)
    (d e : σ) (h : FrameHandler σ) (tl : List Char) (hs : sync d e)
    (hmore : E.prims.eof d = false)
    (hfound : inputActionByteToFrameHandler E.frameHandlers (E.prims.readUint8 d).1 = some h)
    (hrest : rest e = ((parseRecord E d).1 ++ "\n").data ++ tl)
    (herr : E.prims.error e = "") :
    E.prims.eof (E.prims.fetchChar e).2 = false ∧
    ((E.prims.fetchChar e).1 = '@' ∨ (E.prims.fetchChar e).1 = '+') ∧
    inputActionNameToFrameHandler E.inheritedKey E.frameHandlers
      (fetchCommand E.prims (E.prims.fetchChar e).1 (E.prims.fetchChar e).2).2.1
        = Slot.handler h ∧
    E.prims.error (writeFrame E.prims (some h.opcode) h.args
      (fetchCommand E.prims (E.prims.fetchChar e).1 (E.prims.fetchChar e).2).1.1
      (fetchCommand E.prims (E.prims.fetchChar e).1 (E.prims.fetchChar e).2).1.2
      (fetchCommand E.prims (E.prims.fetchChar e).1 (E.prims.fetchChar e).2).2.2) = "" ∧
    rest (E.prims.fetchRestOfLine (writeFrame E.prims (some h.opcode) h.args
      (fetchCommand E.prims (E.prims.fetchChar e).1 (E.prims.fetchChar e).2).1.1
      (fetchCommand E.prims (E.prims.fetchChar e).1 (E.prims.fetchChar e).2).1.2
      (fetchCommand E.prims (E.prims.fetchChar e).1 (E.prims.fetchChar e).2).2.2)) = tl ∧
    E.prims.error (E.prims.fetchRestOfLine (writeFrame E.prims (some h.opcode) h.args
      (fetchCommand E.prims (E.prims.fetchChar e).1 (E.prims.fetchChar e).2).1.1
      (fetchCommand E.prims (E.prims.fetchChar e).1 (E.prims.fetchChar e).2).1.2
      (fetchCommand E.prims (E.prims.fetchChar e).1 (E.prims.fetchChar e).2).2.2)) = "" ∧
    sync (parseRecord E d).2 (E.prims.fetchRestOfLine (writeFrame E.prims (some h.opcode) h.args
      (fetchCommand E.prims (E.prims.fetchChar e).1 (E.prims.fetchChar e).2).1.1
      (fetchCommand E.prims (E.prims.fetchChar e).1 (E.prims.fetchChar e).2).1.2
      (fetchCommand E.prims (E.prims.fetchChar e).1 (E.prims.fetchChar e).2).2.2)) ∧
    ∀ u, unread (parseRecord E d).2 = some u →
      unread d = some (recordBytes L E.prims h
        (fetchCommand E.prims (E.prims.fetchChar e).1 (E.prims.fetchChar e).2).1.1
        (fetchCommand E.prims (E.prims.fetchChar e).1 (E.prims.fetchChar e).2).1.2
        (writeHeader E.prims (some h.opcode)
          (fetchCommand E.prims (E.prims.fetchChar e).1 (E.prims.fetchChar e).2).1.1
          (fetchCommand E.prims (E.prims.fetchChar e).1 (E.prims.fetchChar e).2).1.2
          (fetchCommand E.prims (E.prims.fetchChar e).1 (E.prims.fetchChar e).2).2.2) ++ u) := by
  obtain ⟨hmem, hop⟩ := byteTable_some _ _ _ hfound
  obtain ⟨hne, hws⟩ := hlex h hmem
  obtain ⟨hd3, gap, hgap, hafter, hline⟩ := parseRecord_data E d h hfound tl
  rw [hline] at hrest
  rw [hd3]
  obtain ⟨hs1, hu1⟩ := hC.opcode d e hs hmore
  obtain ⟨c, w, hcw⟩ := List.exists_cons_of_ne_nil hne
  have hc : c.isWhitespace = false := hws c (by rw [hcw]; exact List.mem_cons_self _ _)
  rw [hcw, List.cons_append] at hrest
  obtain ⟨hat, hmore1, hr2, he2, hs2, hu2⟩ := hC.tick _ e c (w ++ gap) hs1 hrest hc
  rw [← List.cons_append, ← hcw] at hr2
  obtain ⟨hname, hr3, he3, hs3⟩ := hC.name _ _ h.name.data gap hs2 hr2 hne hws hgap
  rw [hafter] at hr3
  have hfc : fetchCommand E.prims (E.prims.fetchChar e).1 (E.prims.fetchChar e).2
      = ((fetchTickOf E.prims e).1, (E.prims.fetchString ' ' (fetchTickOf E.prims e).2).1,
          (E.prims.fetchString ' ' (fetchTickOf E.prims e).2).2) := rfl
  rw [hfc]
  simp only
  rw [hname]
  obtain ⟨hr4, he4, hs4⟩ := writeHeader_keeps E L unread rest sync hC _ _ h.opcode
    (hW.opcode_lt h hmem) (fetchTickOf E.prims e).1.1 (fetchTickOf E.prims e).1.2 hs3
  rw [hr3] at hr4
  obtain ⟨he5, ⟨v, hv, hr5⟩, hs5, hu5⟩ := hC.args h hmem _ _ tl hs4 hr4
  obtain ⟨hr6, he6, hs6⟩ := hC.restOfLine _ _ v tl hs5 hr5 hv
  have herr5 : E.prims.error (writeFrame E.prims (some h.opcode) h.args
      (fetchTickOf E.prims e).1.1 (fetchTickOf E.prims e).1.2
      (E.prims.fetchString ' ' (fetchTickOf E.prims e).2).2) = "" := by
    rw [writeFrame, he5, he4, he3, he2, herr]
  refine ⟨hmore1, hat, nameTable_of_mem _ _ h hmem hnames, herr5, hr6, ?_, hs6, ?_⟩
  · rw [writeFrame] at herr5 ⊢
    rw [he6, herr5]
  · intro u hu
    rw [hu1 _ (hu2 _ (hu5 u hu)), recordBytes, hop]
    simp [List.append_assoc]

/-- The loop: run on the text that `n` passes of the decode loop made of records with
handlers, the encode loop makes `n` passes over command lines that name these handlers and
raise no error, reaches the end of the text, and the bytes of its records are the bytes the
decode passes consumed. -/
theorem loop_roundTrip (E : Env σ) (L : WriterLayout σ) (hW : HexWriters E L)
    (unread : σ → Option (List Nat)) (rest : σ → List Char) (sync : σ → σ → Prop)
    (hC : TextCoherent E L unread rest sync)
    (hnames : (E.frameHandlers.map (fun h => h.name)).Nodup)
    (hlex : ∀ h ∈ E.frameHandlers,
      h.name.data ≠ [] ∧ ∀ c ∈ h.name.data, c.isWhitespace = false)
    (n : Nat) :
    ∀ d e len u, sync d e → E.prims.error e = "" → rest e = (decodedText E n d).data →
      (∀ k, k < n → E.prims.eof (stateAfterRecords E k d) = false) →
      (∀ k, k < n → (inputActionByteToFrameHandler E.frameHandlers
        (E.prims.readUint8 (stateAfterRecords E k d)).1).isSome = true) →
      unread (stateAfterRecords E n d) = some u →
      ∃ rs c1 s1 len1,
        CommandRun E L n (E.prims.fetchChar e).1 (E.prims.fetchChar e).2 len rs c1 s1 len1 ∧
        E.prims.eof s1 = true ∧ unread d = some (rs.flatten ++ u) := by
  induction n with
  | zero =>
    intro d e len u hs _ hrest _ _ hu
    refine ⟨[], _, _, _, CommandRun.done _ _ _, hC.done_text d e hs ?_, ?_⟩
    · rw [hrest]
      rfl
    · exact hu
  | succ n ih =>
    intro d e len u hs herr hrest hmore hknown hu
    have hmore0 := hmore 0 (Nat.succ_pos n)
    have hknown0 := hknown 0 (Nat.succ_pos n)
    simp only [stateAfterRecords] at hmore0 hknown0
    obtain ⟨h, hfound⟩ := Option.isSome_iff_exists.mp hknown0
    have hrest1 : rest e = ((parseRecord E d).1 ++ "\n").data
        ++ (decodedText E n (parseRecord E d).2).data := by
      rw [hrest, decodedText, String.data_append]
    obtain ⟨h1, h2, h3, h4, h5, h6, h7, h8⟩ := record_roundTrip E L hW unread rest sync hC
      hnames hlex d e h _ hs hmore0 hfound hrest1 herr
    obtain ⟨rs, c1, s1, len1, hrun, hend, hun⟩ := ih (parseRecord E d).2 _
      (jsLength (E.prims.datString (writeFrame E.prims (some h.opcode) h.args
        (fetchCommand E.prims (E.prims.fetchChar e).1 (E.prims.fetchChar e).2).1.1
        (fetchCommand E.prims (E.prims.fetchChar e).1 (E.prims.fetchChar e).2).1.2
        (fetchCommand E.prims (E.prims.fetchChar e).1 (E.prims.fetchChar e).2).2.2)))
      u h7 h6 h5
      (fun k hk => hmore (k + 1) (Nat.succ_lt_succ hk))
      (fun k hk => hknown (k + 1) (Nat.succ_lt_succ hk)) hu
    refine ⟨_, c1, s1, len1, CommandRun.record h h1 h2 h3 h4 hrun, hend, ?_⟩
    rw [h8 _ hun, List.flatten_cons, List.append_assoc]

/-! ## The round trip on the reference primitives -/

theorem digitChar_isDigit : ∀ k : Fin 10, (Nat.digitChar k.val).isDigit = true := by
  decide

theorem digitChar_value : ∀ k : Fin 10, (Nat.digitChar k.val).toNat - 48 = k.val := by
  decide

theorem toDigitsCore_append (fuel : Nat) :
    ∀ n ds, Nat.toDigitsCore 10 fuel n ds = Nat.toDigitsCore 10 fuel n [] ++ ds := by
  induction fuel with
  | zero => intro n ds; simp [Nat.toDigitsCore]
  | succ fuel ih =>
    intro n ds
    simp only [Nat.toDigitsCore]
    split
    · simp
    · rw [ih (n / 10) (Nat.digitChar (n % 10) :: ds), ih (n / 10) [Nat.digitChar (n % 10)]]
      simp

theorem toDigitsCore_spec (fuel : Nat) :
    ∀ n, n < fuel →
      (∀ c ∈ Nat.toDigitsCore 10 fuel n [], c.isDigit = true) ∧
      Nat.toDigitsCore 10 fuel n [] ≠ [] ∧
      decimalValue (Nat.toDigitsCore 10 fuel n []) = n := by
  induction fuel with
  | zero => intro n hn; omega
  | succ fuel ih =>
    intro n hn
    have hd := digitChar_isDigit ⟨n % 10, Nat.mod_lt _ (by decide)⟩
    have hv := digitChar_value ⟨n % 10, Nat.mod_lt _ (by decide)⟩
    simp only at hd hv
    simp only [Nat.toDigitsCore]
    split
    · rename_i h0
      refine ⟨?_, by simp, ?_⟩
      · intro c hc
        simp only [List.mem_singleton] at hc
        rw [hc]
        exact hd
      · simp only [decimalValue, List.foldl_cons, List.foldl_nil, hv]
        omega
    · rename_i h0
      have hlt : n / 10 < fuel := by omega
      obtain ⟨h1, h2, h3⟩ := ih (n / 10) hlt
      rw [toDigitsCore_append]
      refine ⟨?_, by simp [h2], ?_⟩
      · intro c hc
        simp only [List.mem_append, List.mem_singleton] at hc
        rcases hc with hc | hc
        · exact h1 c hc
        · rw [hc]; exact hd
      · simp only [decimalValue, List.foldl_append, List.foldl_cons, List.foldl_nil, hv]
        simp only [decimalValue] at h3
        rw [h3]
        omega

/-- The decimal text of a number is a non-empty run of digits whose value is the number. -/
theorem decimal_spec (n : Nat) :
    (∀ c ∈ (toString n).data, c.isDigit = true) ∧ (toString n).data ≠ [] ∧
    decimalValue (toString n).data = n := by
  have h : (toString n).data = Nat.toDigits 10 n := rfl
  rw [h]
  exact toDigitsCore_spec (n + 1) n (Nat.lt_succ_self n)

theorem takeWhile_stop {α : Type} (p : α → Bool) (ds : List α) (c : α) (tl : List α)
    (h1 : ∀ x ∈ ds, p x = true) (h2 : p c = false) : (ds ++ c :: tl).takeWhile p = ds := by
  induction ds with
  | nil => simp [List.takeWhile, h2]
  | cons a as ih =>
    have ha := h1 a (List.mem_cons_self _ _)
    simp [List.takeWhile, ha, ih (fun x hx => h1 x (List.mem_cons_of_mem _ hx))]

theorem RefState.drop_of_rest (e : RefState) (k : Nat) (pre tl : List Char)
    (h : e.rest = pre ++ tl) (hk : k = pre.length) : e.txt.drop (e.pos + k) = tl := by
  have h1 : e.txt.drop (e.pos + k) = (e.txt.drop e.pos).drop k := by
    rw [List.drop_drop, Nat.add_comm]
  rw [h1]
  have h2 : e.txt.drop e.pos = pre ++ tl := h
  rw [h2, hk, List.drop_left]

theorem RefState.eof_of_rest (e : RefState) (hbin : e.bin = []) (h : e.rest ≠ []) :
    e.eof = false := by
  have h2 : e.pos < e.txt.length := by
    by_contra hn
    exact h (List.drop_of_length_le (by omega))
  simp only [RefState.eof, hbin, List.length_nil, Nat.zero_add, decide_eq_false_iff_not]
  omega

theorem isDigit_ne (c x : Char) (hc : c.isDigit = true) (hx : x.isDigit = false) : c ≠ x := by
  intro h
  rw [h, hx] at hc
  cases hc

theorem isWhitespace_false (c : Char) (hc : c.isWhitespace = false) :
    c ≠ ' ' ∧ c ≠ '\t' ∧ c ≠ '\n' ∧ c ≠ '\r' := by
  refine ⟨?_, ?_, ?_, ?_⟩ <;> intro h <;> rw [h] at hc <;> exact absurd hc (by decide)

/-- On a text that starts with a character that is no white space, `fetch.char` of the
reference primitives returns that character and moves behind it. -/
theorem refFetchChar (e : RefState) (c : Char) (tl : List Char) (hc : c.isWhitespace = false)
    (h : e.rest = c :: tl) :
    e.fetchChar.1 = c ∧ e.fetchChar.2.rest = tl ∧ e.fetchChar.2.bin = e.bin ∧
    e.fetchChar.2.error = e.error := by
  obtain ⟨h1, h2, h3, h4⟩ := isWhitespace_false c hc
  have hd : e.txt.drop e.pos = c :: tl := h
  have hw : ((c :: tl).takeWhile (fun c => c = ' ' ∨ c = '\t' ∨ c = '\n' ∨ c = '\r'))
      = [] := by
    simp [List.takeWhile, h1, h2, h3, h4]
  refine ⟨?_, ?_, rfl, rfl⟩
  · simp only [RefState.fetchChar, RefState.rest, hd, hw, List.length_nil, Nat.add_zero,
      List.headD_cons]
  · simp only [RefState.fetchChar, RefState.rest, hd, hw, List.length_nil, Nat.add_zero]
    exact e.drop_of_rest 1 [c] tl h rfl

/-- On a text that starts with the decimal text of a tick and, in parentheses, the decimal
text of a player, or with the decimal text of a tick alone, `fetch.tick` of the reference
primitives returns these numbers and moves behind them. -/
theorem refFetchTick (e : RefState) (tick : Nat) (player : Option Nat) (c : Char)
    (tl : List Char) (hc : c.isDigit = false) (hc2 : c ≠ '(')
    (h : e.rest = (toString tick).data
      ++ (match player with
          | some p => '(' :: (toString p).data ++ [')']
          | Option.none => []) ++ c :: tl) :
    (e.fetchTick false).1 = (tick, player) ∧ (e.fetchTick false).2.rest = c :: tl ∧
    (e.fetchTick false).2.bin = e.bin ∧ (e.fetchTick false).2.error = e.error := by
  obtain ⟨hd1, _, hd3⟩ := decimal_spec tick
  cases player with
  | none =>
    simp only [List.append_nil] at h
    have h0 : e.txt.drop e.pos = (toString tick).data ++ c :: tl := h
    have hdig : ((toString tick).data ++ c :: tl).takeWhile Char.isDigit
        = (toString tick).data := takeWhile_stop _ _ _ _ hd1 hc
    have hafter : e.txt.drop (e.pos + (toString tick).data.length) = c :: tl :=
      e.drop_of_rest _ _ _ h rfl
    have hhead : ((c :: tl).head? = some '(') = False := by
      simp only [List.head?_cons, Option.some.injEq, eq_iff_iff, iff_false]
      exact hc2
    simp only [RefState.fetchTick, RefState.rest, h0, hdig, hafter, hhead, if_false,
      Bool.false_eq_true, hd3, and_self]
  | some p =>
    obtain ⟨hp1, _, hp3⟩ := decimal_spec p
    simp only [List.cons_append, List.append_assoc, List.nil_append] at h
    have h0 : e.txt.drop e.pos
        = (toString tick).data ++ '(' :: ((toString p).data ++ ')' :: c :: tl) := h
    have hdig : ((toString tick).data ++ '(' :: ((toString p).data ++ ')' :: c :: tl)).takeWhile
        Char.isDigit = (toString tick).data := takeWhile_stop _ _ _ _ hd1 (by decide)
    have hafter : e.txt.drop (e.pos + (toString tick).data.length)
        = '(' :: ((toString p).data ++ ')' :: c :: tl) := e.drop_of_rest _ _ _ h rfl
    have hinner : ((toString p).data ++ ')' :: c :: tl).takeWhile Char.isDigit
        = (toString p).data := takeWhile_stop _ _ _ _ hp1 (by decide)
    have hall : e.txt.drop (e.pos + (toString tick).data.length + (toString p).data.length + 2)
        = c :: tl := by
      have h2 : e.rest = ((toString tick).data ++ '(' :: ((toString p).data ++ [')']))
          ++ c :: tl := by
        rw [h]
        simp
      have h3 := e.drop_of_rest ((toString tick).data.length + (toString p).data.length + 2)
        _ _ h2 (by simp; omega)
      rw [← h3]
      congr 1
      omega
    simp only [RefState.fetchTick, RefState.rest, h0, hdig, hafter, List.head?_cons, if_true,
      List.tail_cons, hinner, hd3, hp3, Bool.false_eq_true, if_false, hall, and_self]

/-- On a blank followed by a character that is no white space, `fetch.whitespace` of the
reference primitives moves behind the blank. -/
theorem refFetchWhitespace (e : RefState) (c : Char) (tl : List Char)
    (hc : c.isWhitespace = false) (h : e.rest = ' ' :: c :: tl) :
    e.fetchWhitespace.rest = c :: tl ∧ e.fetchWhitespace.bin = e.bin ∧
    e.fetchWhitespace.error = e.error := by
  obtain ⟨h1, h2, _, _⟩ := isWhitespace_false c hc
  have h0 : e.txt.drop e.pos = ' ' :: c :: tl := h
  have hw : (' ' :: c :: tl).takeWhile (fun c => c = ' ' ∨ c = '\t') = [' '] := by
    simp [List.takeWhile, h1, h2]
  refine ⟨?_, rfl, rfl⟩
  simp only [RefState.fetchWhitespace, RefState.rest, h0, hw, List.length_singleton]
  exact e.drop_of_rest 1 [' '] _ h rfl

/-- On a word without blank or line end that is followed by a blank or a line end,
`fetch.string(' ')` of the reference primitives returns the word and consumes the blank. -/
theorem refFetchString (e : RefState) (word tl : List Char)
    (hword : ∀ c ∈ word, c.isWhitespace = false)
    (htl : tl.head? = some ' ' ∨ tl.head? = some '\n') (h : e.rest = word ++ tl) :
    (e.fetchString ' ').1 = String.mk word ∧
    (e.fetchString ' ').2.rest = (if tl.head? = some ' ' then tl.tail else tl) ∧
    (e.fetchString ' ').2.bin = e.bin ∧ (e.fetchString ' ').2.error = e.error := by
  have hp : ∀ c ∈ word, decide (c ≠ ' ' ∧ c ≠ '\n') = true := by
    intro c hc
    obtain ⟨h1, _, h3, _⟩ := isWhitespace_false c (hword c hc)
    simp [h1, h3]
  cases tl with
  | nil => simp at htl
  | cons x tl =>
    have hx : x = ' ' ∨ x = '\n' := by simpa using htl
    have h0 : e.txt.drop e.pos = word ++ x :: tl := h
    have hw : (word ++ x :: tl).takeWhile (fun c => c ≠ ' ' ∧ c ≠ '\n') = word := by
      apply takeWhile_stop _ _ _ _ hp
      rcases hx with rfl | rfl <;> decide
    have hafter : e.txt.drop (e.pos + word.length) = x :: tl := e.drop_of_rest _ _ _ h rfl
    have hafter1 : e.txt.drop (e.pos + word.length + 1) = tl := by
      have h2 : e.rest = (word ++ [x]) ++ tl := by rw [h]; simp
      have h3 := e.drop_of_rest (word.length + 1) _ _ h2 (by simp)
      rw [← h3, Nat.add_assoc]
    refine ⟨?_, ?_, rfl, rfl⟩
    · simp only [RefState.fetchString, RefState.rest, h0, hw]
    · simp only [RefState.fetchString, RefState.rest, h0, hw, hafter, List.head?_cons,
        Option.some.injEq, List.tail_cons]
      rcases hx with rfl | rfl
      · simp only [if_true]
        exact hafter1
      · have hne : ¬ ('\n' = ' ') := by decide
        simp only [hne, if_false]
        exact hafter

/-- On a text that holds a line end, `fetch.restOfLine` of the reference primitives moves
behind the first one. -/
theorem refFetchRestOfLine (e : RefState) (v tl : List Char) (hv : ∀ c ∈ v, c ≠ '\n')
    (h : e.rest = v ++ '\n' :: tl) :
    e.fetchRestOfLine.rest = tl ∧ e.fetchRestOfLine.bin = e.bin ∧
    e.fetchRestOfLine.error = e.error := by
  have h0 : e.txt.drop e.pos = v ++ '\n' :: tl := h
  have hw : (v ++ '\n' :: tl).takeWhile (fun c => c ≠ '\n') = v := by
    apply takeWhile_stop
    · intro c hc
      simp [hv c hc]
    · decide
  refine ⟨?_, rfl, rfl⟩
  simp only [RefState.fetchRestOfLine, RefState.rest, h0, hw]
  have h2 : e.rest = (v ++ ['\n']) ++ tl := by rw [h]; simp
  have h3 := e.drop_of_rest (v.length + 1) _ _ h2 (by simp)
  rw [← h3, Nat.add_assoc]

/-- On separators followed by the decimal text of a byte and a character that is no digit,
the writers `uint8` and `optUint8` of the reference primitives write that byte, move behind
the number and raise no error. -/
theorem refWriteField_number (tag : String) (htag : tag = "uint8" ∨ tag = "optUint8")
    (e : RefState) (sepc : List Char) (n : Nat) (c : Char) (tl : List Char)
    (hsep : ∀ x ∈ sepc, x = ',' ∨ x = ' ') (hn : n < 256) (hc : c.isDigit = false)
    (h : e.rest = sepc ++ ((toString n).data ++ c :: tl)) :
    e.fieldBytes tag = [n] ∧ (e.writeField tag).rest = c :: tl ∧
    (e.writeField tag).error = e.error ∧ (e.writeField tag).bin = e.bin := by
  obtain ⟨hd1, hd2, hd3⟩ := decimal_spec n
  obtain ⟨d0, ds, hds⟩ := List.exists_cons_of_ne_nil hd2
  have hd0 : d0.isDigit = true := hd1 d0 (by rw [hds]; exact List.mem_cons_self _ _)
  have h0 : e.txt.drop e.pos = sepc ++ ((toString n).data ++ c :: tl) := h
  have hsepw : (sepc ++ ((toString n).data ++ c :: tl)).takeWhile (fun c => c = ',' ∨ c = ' ')
      = sepc := by
    rw [hds, List.cons_append]
    apply takeWhile_stop
    · intro x hx
      simpa using hsep x hx
    · have h1 := isDigit_ne d0 ',' hd0 (by decide)
      have h2 := isDigit_ne d0 ' ' hd0 (by decide)
      simp [h1, h2]
  have hafter : e.txt.drop (e.pos + sepc.length) = (toString n).data ++ c :: tl :=
    e.drop_of_rest _ _ _ h rfl
  have hdig : ((toString n).data ++ c :: tl).takeWhile Char.isDigit = (toString n).data :=
    takeWhile_stop _ _ _ _ hd1 hc
  have hall : e.txt.drop (e.pos + sepc.length + (toString n).data.length) = c :: tl := by
    have h2 : e.rest = (sepc ++ (toString n).data) ++ c :: tl := by rw [h]; simp
    have h3 := e.drop_of_rest (sepc.length + (toString n).data.length) _ _ h2 (by simp)
    rw [← h3, Nat.add_assoc]
  have hle : ¬ 255 < n := by omega
  have hbytes : e.fieldBytes tag = [n] := by
    simp only [RefState.fieldBytes, RefState.rest, h0, hsepw, hafter, hdig, hd3, hd2, hle,
      false_or, if_false]
    rcases htag with rfl | rfl
    · simp
    · simp
  refine ⟨hbytes, ?_, ?_, rfl⟩
  · simp only [RefState.writeField, RefState.rest, h0, hsepw, hafter, hdig, htag, if_true]
    exact hall
  · simp only [RefState.writeField, RefState.rest, h0, hsepw, hafter, hdig, hd3, hd2, hle,
      and_false, if_false]

/-- On a line end, the writer `optUint8` of the reference primitives writes the byte 255 for
an absent field, stays where it is and raises no error. -/
theorem refWriteField_absent (e : RefState) (tl : List Char) (h : e.rest = '\n' :: tl) :
    e.fieldBytes "optUint8" = [255] ∧ (e.writeField "optUint8").rest = '\n' :: tl ∧
    (e.writeField "optUint8").error = e.error ∧ (e.writeField "optUint8").bin = e.bin := by
  have h0 : e.txt.drop e.pos = '\n' :: tl := h
  have hsepw : ('\n' :: tl).takeWhile (fun c => c = ',' ∨ c = ' ') = [] := by
    simp [List.takeWhile]
  have hdig : ('\n' :: tl).takeWhile Char.isDigit = [] := by
    rw [List.takeWhile_cons]
    have hnd : ('\n' : Char).isDigit = false := by decide
    simp [hnd]
  have h255 : ¬ 255 < decimalValue [] := by decide
  refine ⟨?_, ?_, ?_, rfl⟩
  · simp [RefState.fieldBytes, RefState.rest, h0, hsepw, hdig]
  · simp only [RefState.writeField, RefState.rest, h0, hsepw, List.length_nil, Nat.add_zero,
      hdig]
    exact h0
  · simp [RefState.writeField, RefState.rest, h0, hsepw, hdig, h255]

theorem getD_lt (l : List Nat) (hl : ∀ b ∈ l, b < 256) (i : Nat) : l.getD i 0 < 256 := by
  by_cases hi : i < l.length
  · rw [List.getD_eq_getElem l 0 hi]
    exact hl _ (List.getElem_mem hi)
  · rw [List.getD_eq_default l 0 (by omega)]
    decide

theorem drop_getD (l : List Nat) (p : Nat) (h : p < l.length) :
    l.drop p = l.getD p 0 :: l.drop (p + 1) := by
  rw [List.getD_eq_getElem l 0 h]
  exact List.drop_eq_getElem_cons h

theorem bytesOfUint32_digits (b0 b1 b2 b3 : Nat) (h0 : b0 < 256) (h1 : b1 < 256)
    (h2 : b2 < 256) (h3 : b3 < 256) :
    bytesOfUint32 (16777216 * b0 + 65536 * b1 + 256 * b2 + b3) = [b0, b1, b2, b3] := by
  simp only [bytesOfUint32, List.cons.injEq, and_true]
  refine ⟨?_, ?_, ?_, ?_⟩ <;> omega

theorem bytesOfOptUint16_digits (b4 b5 : Nat) (h4 : b4 < 256) (h5 : b5 < 256) :
    bytesOfOptUint16 (if 256 * b4 + b5 = 65535 then Option.none else some (256 * b4 + b5))
      = [b4, b5] := by
  split
  · simp only [bytesOfOptUint16, List.cons.injEq, and_true]
    constructor <;> omega
  · simp only [bytesOfOptUint16, List.cons.injEq, and_true]
    constructor <;> omega

/-- The six bytes that `read.tick` of the reference primitives consumes are the bytes the
writers make of its tick and player. -/
theorem refTick_bytes (l : List Nat) (p : Nat) (hl : ∀ b ∈ l, b < 256) (h : p + 6 ≤ l.length) :
    l.drop p
      = bytesOfUint32 (16777216 * l.getD p 0 + 65536 * l.getD (p + 1) 0
          + 256 * l.getD (p + 2) 0 + l.getD (p + 3) 0)
        ++ (bytesOfOptUint16
              (if 256 * l.getD (p + 4) 0 + l.getD (p + 5) 0 = 65535 then Option.none
                else some (256 * l.getD (p + 4) 0 + l.getD (p + 5) 0))
            ++ l.drop (p + 6)) := by
  rw [bytesOfUint32_digits _ _ _ _ (getD_lt l hl _) (getD_lt l hl _) (getD_lt l hl _)
    (getD_lt l hl _), bytesOfOptUint16_digits _ _ (getD_lt l hl _) (getD_lt l hl _),
    drop_getD l p (by omega), drop_getD l (p + 1) (by omega), drop_getD l (p + 2) (by omega),
    drop_getD l (p + 3) (by omega), drop_getD l (p + 4) (by omega),
    drop_getD l (p + 5) (by omega)]
  rfl

/-- The argument text that the reads of the field list `uint8`, `optUint8` produce on the
reference primitives: the first byte in decimal, then, unless the second byte is 255, a
comma, a blank and the second byte in decimal. -/
theorem refReadPair (d : RefState) :
    readFieldList refPrims ["uint8", "optUint8"] d ""
      = (if d.bin.getD (d.pos + 1) 0 = 255 then toString (d.bin.getD d.pos 0)
          else toString (d.bin.getD d.pos 0) ++ ", " ++ toString (d.bin.getD (d.pos + 1) 0),
        { d with pos := d.pos + 1 + 1 }) := by
  have h1 : (toString (d.bin.getD d.pos 0)).length ≠ 0 := by
    intro h
    rw [String.length, List.length_eq_zero] at h
    exact (decimal_spec _).2.1 h
  have h2 : (toString (d.bin.getD (d.pos + 1) 0)).length ≠ 0 := by
    intro h
    rw [String.length, List.length_eq_zero] at h
    exact (decimal_spec _).2.1 h
  have hne : ¬ ("optUint8" = "uint8") := by decide
  have h0 : ¬ (("" : String).length > 0) := by decide
  simp only [readFieldList, refPrims, RefState.readField, if_true, hne, if_false]
  generalize toString (d.bin.getD d.pos 0) = a at *
  generalize toString (d.bin.getD (d.pos + 1) 0) = b at *
  have h3 : ("" ++ a).length > 0 := by
    rw [String.empty_append]
    exact Nat.pos_of_ne_zero h1
  generalize d.bin.getD (d.pos + 1) 0 = x at *
  by_cases hb : x = 255
  · simp [h1, hb]
  · simp [h1, hb, h2, Nat.pos_of_ne_zero h1]

/-- The reference primitives meet the contract of a round trip, for every registry whose
handlers have no field, the single field `uint8`, the single field `optUint8`, or the field
list `uint8`, `optUint8`. -/
theorem refPrims_textCoherent (hs : List (FrameHandler RefState)) (inh : String → Bool)
    (hargs : ∀ h ∈ hs, h.args = ArgSpec.none ∨ h.args = ArgSpec.single "uint8" ∨
      h.args = ArgSpec.single "optUint8" ∨ h.args = ArgSpec.fields ["uint8", "optUint8"]) :
    TextCoherent ⟨refPrims, hs, fun s => s, inh⟩ refLayout refUnread RefState.rest refSync where
  start_unread := by
    intro s0 b
    simp [parseStart, refPrims, RefState.ofBytes, refUnread]
  start_rest := by
    intro s1 t
    simp [refPrims, RefState.ofText, RefState.rest]
  start_dat := fun _ _ => rfl
  start_error := fun _ _ => rfl
  start_sync := by
    intro s0 b s1 t hb
    exact ⟨rfl, hb, rfl⟩
  done_unread := by
    intro d u heof hu
    simp only [refPrims, RefState.eof, decide_eq_true_eq] at heof
    simp only [refUnread] at hu
    split at hu
    · simp only [Option.some.injEq] at hu
      rw [← hu]
      exact List.drop_of_length_le (by omega)
    · cases hu
  done_text := by
    rintro d e ⟨_, _, hbin⟩ hrest
    have h0 : e.txt.drop e.pos = [] := hrest
    have hlen : e.txt.length ≤ e.pos := by
      by_contra hn
      have h1 := List.length_drop e.pos e.txt
      rw [h0, List.length_nil] at h1
      omega
    simp only [refPrims, RefState.fetchChar, RefState.eof, hbin, decide_eq_true_eq,
      List.length_nil, Nat.zero_add]
    omega
  opcode := by
    rintro d e ⟨htxt, hbytes, hbin⟩ hmore
    simp only [refPrims, RefState.eof, htxt, decide_eq_false_iff_not, List.length_nil,
      Nat.add_zero] at hmore
    refine ⟨⟨htxt, hbytes, hbin⟩, ?_⟩
    intro u hu
    simp only [refPrims, RefState.readByte, refUnread] at hu ⊢
    split at hu
    · simp only [Option.some.injEq] at hu
      rw [if_pos (by omega), ← hu, drop_getD d.bin d.pos (by omega)]
    · cases hu
  tick := by
    rintro d e c w ⟨htxt, hbytes, hbin⟩ hrest hc
    have hr1 : e.rest = '@' :: ((toString (16777216 * d.bin.getD d.pos 0
        + 65536 * d.bin.getD (d.pos + 1) 0 + 256 * d.bin.getD (d.pos + 2) 0
        + d.bin.getD (d.pos + 3) 0)).data
        ++ (match (if 256 * d.bin.getD (d.pos + 4) 0 + d.bin.getD (d.pos + 5) 0 = 65535
              then Option.none
              else some (256 * d.bin.getD (d.pos + 4) 0 + d.bin.getD (d.pos + 5) 0)) with
            | some p => '(' :: (toString p).data ++ [')']
            | Option.none => []) ++ ' ' :: c :: w) := by
      rw [hrest]
      simp only [refPrims, RefState.readTick]
      generalize 256 * d.bin.getD (d.pos + 4) 0 + d.bin.getD (d.pos + 5) 0 = player
      generalize 16777216 * d.bin.getD d.pos 0 + 65536 * d.bin.getD (d.pos + 1) 0
        + 256 * d.bin.getD (d.pos + 2) 0 + d.bin.getD (d.pos + 3) 0 = tick
      by_cases hp : player = 65535
      · simp [hp, String.data_append]
      · simp [hp, String.data_append]
    obtain ⟨hc1, hr2, hb2, he2⟩ := refFetchChar e '@' _ (by decide) hr1
    have hdec : decide (e.fetchChar.1 = '+') = false := by
      rw [hc1]
      rfl
    obtain ⟨hv3, hr3, hb3, he3⟩ := refFetchTick e.fetchChar.2 _ _ ' ' (c :: w) (by decide)
      (by decide) hr2
    obtain ⟨hr4, hb4, he4⟩ := refFetchWhitespace (e.fetchChar.2.fetchTick false).2 c w hc hr3
    have hne2 : e.fetchChar.2.rest ≠ [] := by
      rw [hr2]
      have h := (decimal_spec (16777216 * d.bin.getD d.pos 0
        + 65536 * d.bin.getD (d.pos + 1) 0 + 256 * d.bin.getD (d.pos + 2) 0
        + d.bin.getD (d.pos + 3) 0)).2.1
      simp [h]
    simp only [fetchTickOf, refPrims, hdec]
    refine ⟨Or.inl hc1, RefState.eof_of_rest _ (hb2.trans hbin) hne2, hr4,
      he4.trans (he3.trans he2), ⟨htxt, hbytes, hb4.trans (hb3.trans (hb2.trans hbin))⟩, ?_⟩
    intro u hu
    rw [hv3]
    simp only [RefState.readTick, refUnread] at hu ⊢
    split at hu
    · simp only [Option.some.injEq] at hu
      rw [if_pos (by omega), ← hu]
      exact congrArg some (refTick_bytes d.bin d.pos hbytes (by omega))
    · cases hu
  name := by
    rintro d e word tl ⟨htxt, hbytes, hbin⟩ hrest _ hword htl
    obtain ⟨h1, h2, h3, h4⟩ := refFetchString e word tl hword htl hrest
    exact ⟨h1, h2, h4, htxt, hbytes, h3.trans hbin⟩
  uint8_keeps := by
    rintro d e b hs _
    exact ⟨rfl, rfl, hs⟩
  uint32_keeps := by
    rintro d e t hs
    exact ⟨rfl, rfl, hs⟩
  optUint16_keeps := by
    rintro d e p hs
    exact ⟨rfl, rfl, hs⟩
  args := by
    rintro h hmem d e tl ⟨htxt, hbytes, hbin⟩ hrest
    rcases hargs h hmem with ha | ha | ha | ha
    · rw [ha] at hrest ⊢
      refine ⟨rfl, ⟨[], by simp, hrest⟩, ⟨htxt, hbytes, hbin⟩, ?_⟩
      intro u hu
      exact hu
    · rw [ha] at hrest ⊢
      have hnd : ('\n' : Char).isDigit = false := by decide
      obtain ⟨h1, h2, h3, h4⟩ := refWriteField_number "uint8" (Or.inl rfl) e []
        (d.bin.getD d.pos 0) '\n' tl (by simp) (getD_lt d.bin hbytes _) hnd
        (by simpa [readArgs, refPrims, RefState.readField] using hrest)
      refine ⟨h3, ⟨[], by simp, h2⟩, ⟨htxt, hbytes, h4.trans hbin⟩, ?_⟩
      intro u hu
      simp only [readArgs, refPrims, RefState.readField, if_true, refUnread] at hu
      simp only [argBytes, refLayout, h1, refUnread]
      split at hu
      · simp only [Option.some.injEq] at hu
        rw [if_pos (by omega), ← hu, drop_getD d.bin d.pos (by omega)]
        rfl
      · cases hu
    · rw [ha] at hrest ⊢
      have hnd : ('\n' : Char).isDigit = false := by decide
      have hne : ¬ ("optUint8" = "uint8") := by decide
      simp only [readArgs, refPrims, RefState.readField, hne, if_false, if_true] at hrest ⊢
      simp only [writeArgs, argBytes, refLayout]
      by_cases hb : d.bin.getD d.pos 0 = 255
      · rw [if_pos hb] at hrest
        obtain ⟨k1, k2, k3, k4⟩ := refWriteField_absent e tl (by simpa using hrest)
        refine ⟨k3, ⟨[], by simp, k2⟩, ⟨htxt, hbytes, k4.trans hbin⟩, ?_⟩
        intro u hu
        simp only [refUnread] at hu
        simp only [k1, refUnread]
        split at hu
        · simp only [Option.some.injEq] at hu
          rw [if_pos (by omega), ← hu, drop_getD d.bin d.pos (by omega), hb]
          simp
        · cases hu
      · rw [if_neg hb] at hrest
        obtain ⟨k1, k2, k3, k4⟩ := refWriteField_number "optUint8" (Or.inr rfl) e []
          (d.bin.getD d.pos 0) '\n' tl (by simp) (getD_lt d.bin hbytes _) hnd
          (by simpa using hrest)
        refine ⟨k3, ⟨[], by simp, k2⟩, ⟨htxt, hbytes, k4.trans hbin⟩, ?_⟩
        intro u hu
        simp only [refUnread] at hu
        simp only [k1, refUnread]
        split at hu
        · simp only [Option.some.injEq] at hu
          rw [if_pos (by omega), ← hu, drop_getD d.bin d.pos (by omega)]
          simp
        · cases hu
    · rw [ha] at hrest ⊢
      have hnd : ('\n' : Char).isDigit = false := by decide
      have hcd : (',' : Char).isDigit = false := by decide
      simp only [readArgs, refReadPair] at hrest ⊢
      simp only [writeArgs, List.foldl_cons, List.foldl_nil, argBytes, fieldListBytes,
        refLayout, refPrims]
      by_cases hb : d.bin.getD (d.pos + 1) 0 = 255
      · rw [if_pos hb] at hrest
        obtain ⟨h1, h2, h3, h4⟩ := refWriteField_number "uint8" (Or.inl rfl) e []
          (d.bin.getD d.pos 0) '\n' tl (by simp) (getD_lt d.bin hbytes _) hnd
          (by simpa using hrest)
        obtain ⟨k1, k2, k3, k4⟩ := refWriteField_absent (e.writeField "uint8") tl h2
        refine ⟨k3.trans h3, ⟨[], by simp, k2⟩, ⟨htxt, hbytes, k4.trans (h4.trans hbin)⟩, ?_⟩
        intro u hu
        simp only [refUnread] at hu
        simp only [h1, k1, refUnread]
        split at hu
        · simp only [Option.some.injEq] at hu
          rw [if_pos (by omega), ← hu, drop_getD d.bin d.pos (by omega),
            drop_getD d.bin (d.pos + 1) (by omega), hb]
          simp
        · cases hu
      · rw [if_neg hb] at hrest
        obtain ⟨h1, h2, h3, h4⟩ := refWriteField_number "uint8" (Or.inl rfl) e []
          (d.bin.getD d.pos 0) ',' (' ' :: ((toString (d.bin.getD (d.pos + 1) 0)).data
            ++ '\n' :: tl)) (by simp) (getD_lt d.bin hbytes _) hcd
          (by simpa [String.data_append] using hrest)
        obtain ⟨k1, k2, k3, k4⟩ := refWriteField_number "optUint8" (Or.inr rfl)
          (e.writeField "uint8") [',', ' '] (d.bin.getD (d.pos + 1) 0) '\n' tl
          (by simp) (getD_lt d.bin hbytes _) hnd (by simpa using h2)
        refine ⟨k3.trans h3, ⟨[], by simp, k2⟩, ⟨htxt, hbytes, k4.trans (h4.trans hbin)⟩, ?_⟩
        intro u hu
        simp only [refUnread] at hu
        simp only [h1, k1, refUnread]
        split at hu
        · simp only [Option.some.injEq] at hu
          rw [if_pos (by omega), ← hu, drop_getD d.bin d.pos (by omega),
            drop_getD d.bin (d.pos + 1) (by omega)]
          simp
        · cases hu
  restOfLine := by
    rintro d e v tl ⟨htxt, hbytes, hbin⟩ hrest hv
    obtain ⟨h1, h2, h3⟩ := refFetchRestOfLine e v tl hv hrest
    exact ⟨h1, h3, htxt, hbytes, h2.trans hbin⟩

/-- C1 as stated fails, for two reasons. A name that cannot be read back: the registry of
`gapEnv` has pairwise different opcodes and names and the reference primitives meet the
contract of a round trip for it, yet the buffer of one `Open Gui` record decodes to the line
`@5 Open Gui`, of which the encoder looks up the name `Open` (line 72 reads the name up to
the first blank), finds nothing and returns no byte; and the record of the handler with the
empty name decodes to `@5  7`, of which the encoder looks up the name `7`. An absent
optional field before another field: the writers `uint8` and `optUint8` each emit what their
reader consumed, yet the record of the field list `optUint8`, `uint8` with the first field
absent decodes to `@5 Riap 7` (lines 31 to 34 leave an empty rendering out), of which the
first writer takes the 7 and the second finds no number, and the encoder returns no byte. -/
theorem roundTrip_known_counterexample :
    ((gapEnv.frameHandlers.map (fun h => h.name)).Nodup ∧
      (gapEnv.frameHandlers.map (fun h => h.opcode)).Nodup ∧
      TextCoherent gapEnv refLayout refUnread RefState.rest refSync ∧
      parseReplayDat gapEnv 2 (RefState.ofBytes []) [1, 0, 0, 0, 5, 255, 255]
        = some "@5 Open Gui\n" ∧
      getReplayDatBytes gapEnv 2 (RefState.ofBytes []) "@5 Open Gui\n" = some [] ∧
      parseReplayDat gapEnv 2 (RefState.ofBytes []) [3, 0, 0, 0, 5, 255, 255, 7]
        = some "@5  7\n" ∧
      getReplayDatBytes gapEnv 2 (RefState.ofBytes []) "@5  7\n" = some []) ∧
    ((optEnv.frameHandlers.map (fun h => h.name)).Nodup ∧
      (optEnv.frameHandlers.map (fun h => h.opcode)).Nodup ∧
      TextCoherent
        ⟨refPrims, [⟨1, "Move", ArgSpec.single "uint8"⟩, ⟨2, "Mark", ArgSpec.single "optUint8"⟩],
          fun s => s, fun _ => false⟩
        refLayout refUnread RefState.rest refSync ∧
      parseReplayDat optEnv 2 (RefState.ofBytes []) [3, 0, 0, 0, 5, 255, 255, 255, 7]
        = some "@5 Riap 7\n" ∧
      getReplayDatBytes optEnv 2 (RefState.ofBytes []) "@5 Riap 7\n" = some []) := by
  refine ⟨⟨by decide, by decide, refPrims_textCoherent _ _ ?_, by decide, by decide, by decide,
      by decide⟩,
    ⟨by decide, by decide, refPrims_textCoherent _ _ ?_, by decide, by decide⟩⟩
  · intro h hmem
    simp only [gapEnv, List.mem_cons, List.mem_singleton, List.not_mem_nil, or_false] at hmem
    rcases hmem with rfl | rfl | rfl <;> simp
  · intro h hmem
    simp only [List.mem_cons, List.mem_singleton, List.not_mem_nil, or_false] at hmem
    rcases hmem with rfl | rfl <;> simp

/-- C1, amended. Round trip for known opcodes: let the names of the registry be pairwise
different, not empty and without white space, let the writers append hex text
(`HexWriters`) and let the primitives meet the contract of a round trip (`TextCoherent`):
given the text a reader produced, the matching lexing helpers and writers emit exactly the
bytes that reader consumed, and the writes of each handler emit exactly the bytes its reads
consumed when given the argument text those reads produced. If `parseReplayDat` returns
`text` for a buffer of bytes in which every record the loop reaches has an opcode with a
handler and the reads of the last record do not run past the end of the buffer, then
`getReplayDatBytes text` returns the buffer, byte for byte. -/
theorem roundTrip_known (E : Env σ) (L : WriterLayout σ) (hW : HexWriters E L)
    (unread : σ → Option (List Nat)) (rest : σ → List Char) (sync : σ → σ → Prop)
    (hC : TextCoherent E L unread rest sync)
    (hnames : (E.frameHandlers.map (fun h => h.name)).Nodup)
    (hlex : ∀ h ∈ E.frameHandlers,
      h.name.data ≠ [] ∧ ∀ c ∈ h.name.data, c.isWhitespace = false)
    (fuel : Nat) (s0 s1 : σ) (arrayBuffer : List Nat) (text : String)
    (hbytes : ∀ b ∈ arrayBuffer, b < 256)
    (hdecode : parseReplayDat E fuel s0 arrayBuffer = some text)
    (hknown : ∀ k,
      (∀ j, j ≤ k → E.prims.eof (stateAfterRecords E j (parseStart E s0 arrayBuffer)) = false) →
      (inputActionByteToFrameHandler E.frameHandlers
        (E.prims.readUint8 (stateAfterRecords E k (parseStart E s0 arrayBuffer))).1).isSome = true)
    (hwhole : ∀ k,
      (∀ j, j < k → E.prims.eof (stateAfterRecords E j (parseStart E s0 arrayBuffer)) = false) →
      E.prims.eof (stateAfterRecords E k (parseStart E s0 arrayBuffer)) = true →
      (unread (stateAfterRecords E k (parseStart E s0 arrayBuffer))).isSome = true) :
    getReplayDatBytes E fuel s1 text = some arrayBuffer := by
  rw [parseReplayDat] at hdecode
  cases hloop : parseLoop E fuel (parseStart E s0 arrayBuffer) "" with
  | none => rw [hloop] at hdecode; cases hdecode
  | some r =>
    obtain ⟨t, df⟩ := r
    rw [hloop] at hdecode
    simp only [Option.map_some', Option.some.injEq] at hdecode
    subst hdecode
    obtain ⟨n, hn, hmore, hend, htext, _⟩ := parseLoop_some E fuel _ _ _ _ hloop
    rw [String.empty_append] at htext
    obtain ⟨u, hu⟩ := Option.isSome_iff_exists.mp (hwhole n hmore hend)
    have hu0 : u = [] := hC.done_unread _ u hend hu
    subst hu0
    obtain ⟨rs, c, s, len, hrun, hend1, hun⟩ := loop_roundTrip E L hW unread rest sync hC hnames
      hlex n (parseStart E s0 arrayBuffer) (E.resetPlayers (E.prims.setBufferText t s1)) 0 []
      (hC.start_sync s0 arrayBuffer s1 t hbytes) (hC.start_error s1 t)
      (by rw [hC.start_rest, htext]) hmore
      (fun k hk => hknown k (fun j hj => hmore j (by omega))) hu
    rw [hC.start_unread, List.append_nil, Option.some.injEq] at hun
    obtain ⟨k, rfl⟩ : ∃ k, fuel = n + (k + 1) := ⟨fuel - n - 1, by omega⟩
    have hrun1 : CommandRun E L n (encodeStart E s1 t).1 (encodeStart E s1 t).2 0 rs c s len :=
      hrun
    obtain ⟨hd, hl, hb⟩ := commandRun_dat E L hW hrun1
    have hstart : E.prims.datString (encodeStart E s1 t).2 = "" := by
      rw [encodeStart, hW.fetchChar_keeps, hC.start_dat]
    rw [hstart] at hd
    rw [getReplayDatBytes, encodeRun, commandRun_loop E L hrun1, encodeLoop_end E k c s len hend1]
    simp only [Option.map_some', Option.some.injEq]
    have h := datBytes_of_run rs.flatten hb (E.prims.datString s) "" len hd
      (hl.imp (fun h => ⟨by rw [h.1]; rfl, h.2⟩) id)
    rw [hun]
    simpa using h

/-- Witness for C1, amended, on the reference primitives: the buffer of a `Move` record, a
`Pair` record whose optional field is absent and a `Jump` record decodes to three lines, and
these three lines encode to the buffer. -/
theorem roundTrip_known_witness :
    parseReplayDat refEnv 4 (RefState.ofBytes [])
        [1, 0, 0, 0, 0, 0, 1, 5, 3, 0, 0, 0, 9, 0, 7, 5, 255, 2, 0, 0, 0, 5, 255, 255]
      = some "@0(1) Move 5\n@9(7) Pair 5\n@5 Jump\n" ∧
    getReplayDatBytes refEnv 4 (RefState.ofBytes []) "@0(1) Move 5\n@9(7) Pair 5\n@5 Jump\n"
      = some [1, 0, 0, 0, 0, 0, 1, 5, 3, 0, 0, 0, 9, 0, 7, 5, 255, 2, 0, 0, 0, 5, 255, 255] :=
  ⟨by decide,
    roundTrip_known refEnv refLayout refEnv_hexWriters refUnread RefState.rest refSync
      (refPrims_textCoherent _ _ (fun h hmem => by
        simp only [List.mem_cons, List.mem_singleton, List.not_mem_nil, or_false] at hmem
        rcases hmem with rfl | rfl | rfl <;> simp))
      (by decide) (by decide) 4 (RefState.ofBytes []) (RefState.ofBytes [])
      [1, 0, 0, 0, 0, 0, 1, 5, 3, 0, 0, 0, 9, 0, 7, 5, 255, 2, 0, 0, 0, 5, 255, 255]
      "@0(1) Move 5\n@9(7) Pair 5\n@5 Jump\n" (by decide) (by decide)
      (fun k hk => match k with
        | 0 => by decide
        | 1 => by decide
        | 2 => by decide
        | k + 3 => absurd (hk 3 (by omega)) (by decide))
      (fun k hk hend => match k with
        | 0 => absurd hend (by decide)
        | 1 => absurd hend (by decide)
        | 2 => absurd hend (by decide)
        | 3 => by decide
        | k + 4 => absurd (hk 3 (by omega)) (by decide))⟩

/-! ## The numbers -/

theorem Number.lt_def (x y : Number) : x < y ↔ Number.lt x y = true := Iff.rfl

theorem Number.le_def (x y : Number) : x ≤ y ↔ Number.le x y = true := Iff.rfl

theorem Number.ofNat_def (n : Nat) : (OfNat.ofNat n : Number) = Number.fin (n : Int) := rfl

theorem Number.sub_def (x y : Number) : x - y = Number.sub x y := rfl

theorem Number.lt_zero_iff (x : Number) : x < 0 ↔ x.sgn < 0 := by
  cases x <;> simp [Number.lt_def, Number.ofNat_def, Number.lt, Number.sgn]

theorem Number.zero_lt_iff (x : Number) : 0 < x ↔ 0 < x.sgn := by
  cases x <;> simp [Number.lt_def, Number.ofNat_def, Number.lt, Number.sgn]

theorem Number.le_zero_iff (x : Number) (hx : x ≠ Number.nan) : x ≤ 0 ↔ x.sgn ≤ 0 := by
  cases x <;> simp [Number.le_def, Number.ofNat_def, Number.le, Number.lt, Number.sgn] at hx ⊢
  exact Int.le_iff_lt_or_eq.symm

theorem Number.zero_le_iff (x : Number) (hx : x ≠ Number.nan) : 0 ≤ x ↔ 0 ≤ x.sgn := by
  cases x <;> simp [Number.le_def, Number.ofNat_def, Number.le, Number.lt, Number.sgn] at hx ⊢
  constructor <;> intro h <;> omega

theorem Number.eq_zero_iff (x : Number) (hx : x ≠ Number.nan) : x = 0 ↔ x.sgn = 0 := by
  cases x <;> simp [Number.ofNat_def, Number.sgn] at hx ⊢

theorem Number.sgn_eq_zero (x : Number) (h : x.sgn = 0) : x = 0 ∨ x = Number.nan := by
  cases x <;> simp [Number.ofNat_def, Number.sgn] at h ⊢
  exact h

theorem Number.lt_irrefl (x : Number) : ¬ x < x := by
  cases x <;> simp [Number.lt_def, Number.lt]

theorem Number.lt_asymm {x y : Number} (h : x < y) : ¬ y < x := by
  cases x <;> cases y <;> simp [Number.lt_def, Number.lt] at h ⊢
  omega

theorem Number.lt_trans {x y z : Number} (h1 : x < y) (h2 : y < z) : x < z := by
  cases x <;> cases y <;> cases z <;> simp [Number.lt_def, Number.lt] at h1 h2 ⊢
  omega

theorem Number.lt_trichotomy (x y : Number) (hx : x ≠ Number.nan) (hy : y ≠ Number.nan) :
    x < y ∨ x = y ∨ y < x := by
  cases x <;> cases y <;> simp [Number.lt_def, Number.lt] at hx hy ⊢
  omega

theorem excessScale_le (fuel n : Nat) (hn : 0 < n) :
    0 < excessScale fuel n ∧ excessScale fuel n ≤ n := by
  induction fuel generalizing n with
  | zero => exact ⟨Nat.one_pos, hn⟩
  | succ fuel ih =>
    rw [excessScale]
    split
    · exact ⟨Nat.one_pos, hn⟩
    · rename_i h53
      have h1 : 0 < n / 2 := by omega
      have h2 := ih (n / 2) h1
      omega

/-- Rounding to the nearest double keeps a positive number positive. -/
theorem nearestDouble_pos (n : Nat) (h : 0 < n) : 0 < nearestDouble n := by
  unfold nearestDouble
  have hle := excessScale_le n n h
  have hq : 0 < n / excessScale n n := Nat.div_pos hle.2 hle.1
  split
  · exact Nat.mul_pos (by omega) hle.1
  · exact Nat.mul_pos hq hle.1

theorem nearestDouble_zero : nearestDouble 0 = 0 := by decide

theorem Number.ofInt_ne_nan (z : Int) : Number.ofInt z ≠ Number.nan := by
  unfold Number.ofInt
  split
  · split <;> simp
  · simp

/-- The number an integer becomes has the sign of the integer. -/
theorem Number.ofInt_sgn (z : Int) :
    ((Number.ofInt z).sgn < 0 ↔ z < 0) ∧ (0 < (Number.ofInt z).sgn ↔ 0 < z) := by
  have hpos : z ≠ 0 → 0 < nearestDouble z.natAbs := fun hz =>
    nearestDouble_pos _ (Int.natAbs_pos.mpr hz)
  unfold Number.ofInt
  by_cases hz : z < 0
  · have h := hpos (by omega)
    split <;> simp [hz, Number.sgn] <;> omega
  · by_cases h0 : z = 0
    · subst h0
      simp [nearestDouble_zero, excessBits, Number.sgn]
    · have h := hpos h0
      split <;> simp [hz, Number.sgn] <;> omega

theorem Number.ofInt_sgn_eq_zero (z : Int) : (Number.ofInt z).sgn = 0 ↔ z = 0 := by
  have h := Number.ofInt_sgn z
  omega

theorem Number.sub_ne_nan_of_fin (a b : Int) : Number.fin a - Number.fin b ≠ Number.nan :=
  Number.ofInt_ne_nan _

theorem Number.fin_sub_fin_sgn (a b : Int) :
    ((Number.fin a - Number.fin b).sgn < 0 ↔ a < b) ∧
    (0 < (Number.fin a - Number.fin b).sgn ↔ b < a) := by
  have h := Number.ofInt_sgn (a - b)
  have hd : Number.fin a - Number.fin b = Number.ofInt (a - b) := rfl
  rw [hd]
  constructor
  · rw [h.1]
    omega
  · rw [h.2]
    omega

/-- The difference of two numbers that are not NaN is negative exactly when the first is
the smaller one, positive exactly when it is the larger one, and NaN exactly when the two
are the same infinity. -/
theorem Number.sub_sgn (x y : Number) (hx : x ≠ Number.nan) (hy : y ≠ Number.nan) :
    ((x - y).sgn < 0 ↔ x < y) ∧ (0 < (x - y).sgn ↔ y < x) ∧
    (x - y = Number.nan ↔ x = y ∧ x.isFinite = false) := by
  cases x with
  | nan => exact absurd rfl hx
  | fin a =>
    cases y with
    | nan => exact absurd rfl hy
    | fin b =>
      have h := Number.fin_sub_fin_sgn a b
      refine ⟨?_, ?_, ?_⟩
      · rw [h.1]
        simp [Number.lt_def, Number.lt]
      · rw [h.2]
        simp [Number.lt_def, Number.lt]
      · simp [Number.sub_ne_nan_of_fin, Number.isFinite]
    | negInf => simp [Number.sub_def, Number.sub, Number.lt_def, Number.lt, Number.sgn]
    | posInf => simp [Number.sub_def, Number.sub, Number.lt_def, Number.lt, Number.sgn]
  | negInf =>
    cases y <;>
      simp [Number.sub_def, Number.sub, Number.lt_def, Number.lt, Number.sgn,
        Number.isFinite] at hy ⊢
  | posInf =>
    cases y <;>
      simp [Number.sub_def, Number.sub, Number.lt_def, Number.lt, Number.sgn,
        Number.isFinite] at hy ⊢

theorem Number.sub_eq_zero (x y : Number) (hx : x ≠ Number.nan) (hy : y ≠ Number.nan) :
    x - y = 0 ↔ x = y ∧ x.isFinite = true := by
  cases x with
  | nan => exact absurd rfl hx
  | fin a =>
    cases y with
    | nan => exact absurd rfl hy
    | fin b =>
      have h := Number.fin_sub_fin_sgn a b
      rw [Number.eq_zero_iff _ (Number.sub_ne_nan_of_fin a b)]
      simp only [Number.isFinite, and_true, Number.fin.injEq]
      omega
    | negInf => simp [Number.sub_def, Number.sub, Number.ofNat_def]
    | posInf => simp [Number.sub_def, Number.sub, Number.ofNat_def]
  | negInf =>
    cases y <;> simp [Number.sub_def, Number.sub, Number.ofNat_def, Number.isFinite] at hy ⊢
  | posInf =>
    cases y <;> simp [Number.sub_def, Number.sub, Number.ofNat_def, Number.isFinite] at hy ⊢

theorem sortCompare_ne_nan {β : Type} (cmp : β → β → Number) (x y : β) :
    sortCompare cmp x y ≠ Number.nan := by
  unfold sortCompare
  split
  · simp [Number.ofNat_def]
  · assumption

theorem sortCompare_sgn {β : Type} (cmp : β → β → Number) (x y : β) :
    (sortCompare cmp x y).sgn = (cmp x y).sgn := by
  unfold sortCompare
  split
  · rename_i h
    rw [h]
    rfl
  · rfl

/-! ## The sort -/

theorem perm_insertBy {β : Type} (test : β → β → Bool) (x : β) (l : List β) :
    (insertBy test x l).Perm (x :: l) := by
  induction l with
  | nil => exact List.Perm.refl _
  | cons b l ih =>
    rw [insertBy]
    split
    · exact List.Perm.refl _
    · exact (ih.cons b).trans (List.Perm.swap x b l)

theorem perm_insertionSortBy {β : Type} (test : β → β → Bool) (l : List β) :
    (insertionSortBy test l).Perm l := by
  induction l with
  | nil => exact List.Perm.refl _
  | cons b l ih =>
    rw [insertionSortBy]
    exact (perm_insertBy test b _).trans (ih.cons b)

theorem mem_insertBy {β : Type} (test : β → β → Bool) (x y : β) (l : List β) :
    y ∈ insertBy test x l ↔ y = x ∨ y ∈ l := by
  rw [(perm_insertBy test x l).mem_iff, List.mem_cons]

theorem pairwise_insertBy {β : Type} (R : β → β → Prop) (test : β → β → Bool) (x : β)
    (l : List β) (hl : l.Pairwise R) (ht : ∀ b ∈ l, test x b = true → R x b)
    (hf : ∀ b ∈ l, test x b = false → R b x)
    (htr : ∀ b ∈ l, ∀ c ∈ l, R x b → R b c → R x c) : (insertBy test x l).Pairwise R := by
  induction l with
  | nil => simp [insertBy]
  | cons b l ih =>
    rw [List.pairwise_cons] at hl
    rw [insertBy]
    cases hb : test x b with
    | true =>
      simp only [if_true]
      have hxb : R x b := ht b (List.mem_cons_self _ _) hb
      refine List.pairwise_cons.mpr ⟨?_, List.pairwise_cons.mpr hl⟩
      intro c hc
      rcases List.mem_cons.mp hc with rfl | hc
      · exact hxb
      · exact htr b (List.mem_cons_self _ _) c (List.mem_cons_of_mem _ hc) hxb (hl.1 c hc)
    | false =>
      simp only [Bool.false_eq_true, if_false]
      refine List.pairwise_cons.mpr ⟨?_, ?_⟩
      · intro c hc
        rcases (mem_insertBy test x c l).mp hc with rfl | hc
        · exact hf b (List.mem_cons_self _ _) hb
        · exact hl.1 c hc
      · exact ih hl.2 (fun c hc => ht c (List.mem_cons_of_mem _ hc))
          (fun c hc => hf c (List.mem_cons_of_mem _ hc))
          (fun c hc d hd => htr c (List.mem_cons_of_mem _ hc) d (List.mem_cons_of_mem _ hd))

theorem pairwise_insertionSortBy {β : Type} (R : β → β → Prop) (test : β → β → Bool)
    (l : List β) (ht : ∀ a ∈ l, ∀ b ∈ l, test a b = true → R a b)
    (hf : ∀ a ∈ l, ∀ b ∈ l, test a b = false → R b a)
    (htr : ∀ a ∈ l, ∀ b ∈ l, ∀ c ∈ l, R a b → R b c → R a c) :
    (insertionSortBy test l).Pairwise R := by
  induction l with
  | nil => simp [insertionSortBy]
  | cons x l ih =>
    rw [insertionSortBy]
    have hsub : ∀ b, b ∈ insertionSortBy test l → b ∈ x :: l := fun b hb =>
      List.mem_cons_of_mem _ ((perm_insertionSortBy test l).mem_iff.mp hb)
    have hx : x ∈ x :: l := List.mem_cons_self _ _
    apply pairwise_insertBy R test x
    · exact ih (fun a ha b hb => ht a (List.mem_cons_of_mem _ ha) b (List.mem_cons_of_mem _ hb))
        (fun a ha b hb => hf a (List.mem_cons_of_mem _ ha) b (List.mem_cons_of_mem _ hb))
        (fun a ha b hb c hc => htr a (List.mem_cons_of_mem _ ha) b (List.mem_cons_of_mem _ hb)
          c (List.mem_cons_of_mem _ hc))
    · exact fun b hb => ht x hx b (hsub b hb)
    · exact fun b hb => hf x hx b (hsub b hb)
    · exact fun b hb c hc => htr x hx b (hsub b hb) c (hsub c hc)

/-- Insertion sort leaves a list alone in which every element passes the test against
every later one. -/
theorem insertionSortBy_of_pairwise {β : Type} (test : β → β → Bool) (l : List β)
    (h : l.Pairwise (fun a b => test a b = true)) : insertionSortBy test l = l := by
  induction l with
  | nil => rfl
  | cons a l ih =>
    rw [List.pairwise_cons] at h
    rw [insertionSortBy, ih h.2]
    cases l with
    | nil => rfl
    | cons b l => simp [insertBy, h.1 b (List.mem_cons_self _ _)]

theorem SignPreorderOn.sign_le_flip {β : Type} {r : β → β → Int} {l : List β}
    (hP : SignPreorderOn r l) {a b : β} (ha : a ∈ l) (hb : b ∈ l) :
    r a b ≤ 0 ↔ 0 ≤ r b a := by
  have h := hP.flip b hb a ha
  constructor
  · intro h1
    by_contra h2
    have h3 : 0 < r a b := h.mp (by omega)
    omega
  · intro h1
    by_contra h2
    have h3 : r b a < 0 := h.mpr (by omega)
    omega

theorem SignPreorderOn.sign_eq_flip {β : Type} {r : β → β → Int} {l : List β}
    (hP : SignPreorderOn r l) {a b : β} (ha : a ∈ l) (hb : b ∈ l) :
    r a b = 0 ↔ r b a = 0 := by
  have h1 := hP.sign_le_flip ha hb
  have h2 := hP.sign_le_flip hb ha
  constructor <;> intro h <;> omega

theorem SignPreorderOn.lt_of_lt_of_le {β : Type} {r : β → β → Int} {l : List β}
    (hP : SignPreorderOn r l) {a b c : β} (ha : a ∈ l) (hb : b ∈ l) (hc : c ∈ l)
    (hab : r a b < 0) (hbc : r b c ≤ 0) : r a c < 0 := by
  have h1 := hP.trans a ha b hb c hc (by omega) hbc
  by_contra h2
  have h3 : r c a ≤ 0 := (hP.sign_le_flip hc ha).mpr (by omega)
  have h4 := hP.trans b hb c hc a ha hbc h3
  have h5 := (hP.flip a ha b hb).mp hab
  omega

theorem SignPreorderOn.lt_of_le_of_lt {β : Type} {r : β → β → Int} {l : List β}
    (hP : SignPreorderOn r l) {a b c : β} (ha : a ∈ l) (hb : b ∈ l) (hc : c ∈ l)
    (hab : r a b ≤ 0) (hbc : r b c < 0) : r a c < 0 := by
  have h1 := hP.trans a ha b hb c hc hab (by omega)
  by_contra h2
  have h3 : r c a ≤ 0 := (hP.sign_le_flip hc ha).mpr (by omega)
  have h4 := hP.trans c hc a ha b hb h3 hab
  have h5 := (hP.flip b hb c hc).mp hbc
  omega

theorem SignPreorderOn.eq_trans {β : Type} {r : β → β → Int} {l : List β}
    (hP : SignPreorderOn r l) {a b c : β} (ha : a ∈ l) (hb : b ∈ l) (hc : c ∈ l)
    (hab : r a b = 0) (hbc : r b c = 0) : r a c = 0 := by
  have h3 := hP.trans a ha b hb c hc (by omega) (by omega)
  have h4 := hP.trans c hc b hb a ha (by have := (hP.sign_eq_flip hb hc).mp hbc; omega)
    (by have := (hP.sign_eq_flip ha hb).mp hab; omega)
  have h5 := (hP.sign_le_flip hc ha).mp h4
  omega

/-- The signs of a total preorder are a preorder of signs. -/
theorem TotalPreorderOn.sign {β : Type} {cmp : β → β → Number} {l : List β}
    (hP : TotalPreorderOn cmp l) : SignPreorderOn (fun a b => (cmp a b).sgn) l where
  flip := by
    intro a ha b hb
    have h := hP.flip a ha b hb
    rwa [Number.lt_zero_iff, Number.zero_lt_iff] at h
  trans := by
    intro a ha b hb c hc h1 h2
    have h := hP.trans a ha b hb c hc
    rw [Number.le_zero_iff _ (hP.number a ha b hb), Number.le_zero_iff _ (hP.number b hb c hc),
      Number.le_zero_iff _ (hP.number a ha c hc)] at h
    exact h h1 h2

/-- A comparator that never yields NaN and whose signs are a preorder is a total
preorder. -/
theorem TotalPreorderOn.of_sign {β : Type} {cmp : β → β → Number} {l : List β}
    (hnum : ∀ a ∈ l, ∀ b ∈ l, cmp a b ≠ Number.nan)
    (hS : SignPreorderOn (fun a b => (cmp a b).sgn) l) : TotalPreorderOn cmp l where
  number := hnum
  flip := by
    intro a ha b hb
    rw [Number.lt_zero_iff, Number.zero_lt_iff]
    exact hS.flip a ha b hb
  trans := by
    intro a ha b hb c hc
    rw [Number.le_zero_iff _ (hnum a ha b hb), Number.le_zero_iff _ (hnum b hb c hc),
      Number.le_zero_iff _ (hnum a ha c hc)]
    exact hS.trans a ha b hb c hc

/-- A comparator whose signs are a preorder is a total preorder as the sort reads it, NaN
counting as `+0`. -/
theorem sortCompare_totalPreorder {β : Type} {cmp : β → β → Number} {l : List β}
    (hS : SignPreorderOn (fun a b => (cmp a b).sgn) l) : TotalPreorderOn (sortCompare cmp) l := by
  apply TotalPreorderOn.of_sign (fun a _ b _ => sortCompare_ne_nan cmp a b)
  have he : (fun a b => (sortCompare cmp a b).sgn) = (fun a b => (cmp a b).sgn) := by
    funext a b
    exact sortCompare_sgn cmp a b
  rw [he]
  exact hS

theorem TotalPreorderOn.le_flip {β : Type} {cmp : β → β → Number} {l : List β}
    (hP : TotalPreorderOn cmp l) {a b : β} (ha : a ∈ l) (hb : b ∈ l) :
    cmp a b ≤ 0 ↔ 0 ≤ cmp b a := by
  rw [Number.le_zero_iff _ (hP.number a ha b hb), Number.zero_le_iff _ (hP.number b hb a ha)]
  exact hP.sign.sign_le_flip ha hb

theorem TotalPreorderOn.eq_flip {β : Type} {cmp : β → β → Number} {l : List β}
    (hP : TotalPreorderOn cmp l) {a b : β} (ha : a ∈ l) (hb : b ∈ l) :
    cmp a b = 0 ↔ cmp b a = 0 := by
  rw [Number.eq_zero_iff _ (hP.number a ha b hb), Number.eq_zero_iff _ (hP.number b hb a ha)]
  exact hP.sign.sign_eq_flip ha hb

/-- A total preorder in the sense used here is a consistent comparator in the sense of the
language standard: it yields no NaN, every element equals itself, equality is symmetric and
transitive, and so are "before" and "after". -/
theorem TotalPreorderOn.consistent {β : Type} {cmp : β → β → Number} {l : List β}
    (hP : TotalPreorderOn cmp l) :
    (∀ a ∈ l, ∀ b ∈ l, cmp a b ≠ Number.nan) ∧
    (∀ a ∈ l, cmp a a = 0) ∧
    (∀ a ∈ l, ∀ b ∈ l, cmp a b = 0 → cmp b a = 0) ∧
    (∀ a ∈ l, ∀ b ∈ l, ∀ c ∈ l, cmp a b = 0 → cmp b c = 0 → cmp a c = 0) ∧
    (∀ a ∈ l, ∀ b ∈ l, ∀ c ∈ l, cmp a b < 0 → cmp b c < 0 → cmp a c < 0) ∧
    (∀ a ∈ l, ∀ b ∈ l, ∀ c ∈ l, 0 < cmp a b → 0 < cmp b c → 0 < cmp a c) := by
  have hS := hP.sign
  refine ⟨hP.number, ?_, ?_, ?_, ?_, ?_⟩
  · intro a ha
    rw [Number.eq_zero_iff _ (hP.number a ha a ha)]
    have h := hS.flip a ha a ha
    simp only at h
    omega
  · intro a ha b hb h
    exact (hP.eq_flip ha hb).mp h
  · intro a ha b hb c hc h1 h2
    rw [Number.eq_zero_iff _ (hP.number _ ha _ hb)] at h1
    rw [Number.eq_zero_iff _ (hP.number _ hb _ hc)] at h2
    rw [Number.eq_zero_iff _ (hP.number _ ha _ hc)]
    exact hS.eq_trans ha hb hc h1 h2
  · intro a ha b hb c hc h1 h2
    rw [Number.lt_zero_iff] at h1 h2 ⊢
    have h3 : (cmp b c).sgn ≤ 0 := by omega
    exact hS.lt_of_lt_of_le ha hb hc h1 h3
  · intro a ha b hb c hc h1 h2
    rw [Number.zero_lt_iff] at h1 h2 ⊢
    have h3 : (cmp b a).sgn < 0 := (hS.flip b hb a ha).mpr h1
    have h4 : (cmp c b).sgn < 0 := (hS.flip c hc b hb).mpr h2
    have h5 := hS.lt_of_lt_of_le hc hb ha h4 (by omega)
    exact (hS.flip c hc a ha).mp h5

theorem refSort_contract {β : Type} : SortContract (refSort (β := β)) where
  perm := fun cmp l => perm_insertionSortBy _ l
  sorted := by
    intro cmp l hP
    have hS : SignPreorderOn (fun a b => (cmp a b).sgn) l := by
      have h := hP.sign
      have he : (fun a b => (sortCompare cmp a b).sgn) = (fun a b => (cmp a b).sgn) := by
        funext a b
        exact sortCompare_sgn cmp a b
      rwa [he] at h
    apply pairwise_insertionSortBy
    · intro a ha b hb h
      have h1 : cmp a b < 0 := by simpa using h
      rw [Number.lt_zero_iff] at h1 ⊢
      have h2 := (hS.flip a ha b hb).mp h1
      simp only at h2
      omega
    · intro a ha b hb h
      simpa using h
    · intro a ha b hb c hc h1 h2
      rw [Number.lt_zero_iff] at h1 h2 ⊢
      have h3 : (cmp a b).sgn ≤ 0 := (hS.sign_le_flip ha hb).mpr (by omega)
      have h4 : (cmp b c).sgn ≤ 0 := (hS.sign_le_flip hb hc).mpr (by omega)
      have h5 := (hS.sign_le_flip ha hc).mp (hS.trans a ha b hb c hc h3 h4)
      omega

theorem keyedFrom_map_fst {α : Type} (n : Nat) (l : List α) :
    (keyedFrom n l).map Prod.fst = l := by
  induction l generalizing n with
  | nil => rfl
  | cons x l ih => simp [keyedFrom, ih]

theorem mem_keyedFrom {α : Type} (n : Nat) (l : List α) (a : α × Nat) (ha : a ∈ keyedFrom n l) :
    n ≤ a.2 ∧ a.1 ∈ l := by
  induction l generalizing n with
  | nil => cases ha
  | cons x l ih =>
    rw [keyedFrom, List.mem_cons] at ha
    rcases ha with rfl | ha
    · exact ⟨Nat.le_refl _, List.mem_cons_self _ _⟩
    · have h := ih (n + 1) ha
      exact ⟨by omega, List.mem_cons_of_mem _ h.2⟩

theorem pairwise_keyedFrom {α : Type} (n : Nat) (l : List α) :
    (keyedFrom n l).Pairwise (fun a b => a.2 < b.2) := by
  induction l generalizing n with
  | nil => simp [keyedFrom]
  | cons x l ih =>
    rw [keyedFrom, List.pairwise_cons]
    refine ⟨?_, ih (n + 1)⟩
    intro b hb
    have h := (mem_keyedFrom (n + 1) l b hb).1
    simp only
    omega

/-- A relation that holds between every element of a list and every later one holds
between their keyed pairs, whose indices increase. -/
theorem pairwise_keyedFrom_of_pairwise {α : Type} (R : α → α → Prop) (n : Nat) (l : List α)
    (h : l.Pairwise R) : (keyedFrom n l).Pairwise (fun a b => R a.1 b.1 ∧ a.2 < b.2) := by
  induction l generalizing n with
  | nil => simp [keyedFrom]
  | cons x l ih =>
    rw [List.pairwise_cons] at h
    rw [keyedFrom, List.pairwise_cons]
    refine ⟨?_, ih (n + 1) h.2⟩
    intro b hb
    have hb1 := mem_keyedFrom (n + 1) l b hb
    exact ⟨h.1 b.1 hb1.2, by simp only; omega⟩

theorem mem_keyedFrom_of_getElem {α : Type} (n : Nat) (l : List α) (i : Nat) (x : α)
    (hx : l[i]? = some x) : (x, n + i) ∈ keyedFrom n l := by
  induction l generalizing n i with
  | nil => simp at hx
  | cons y l ih =>
    rw [keyedFrom]
    cases i with
    | zero =>
      simp only [List.getElem?_cons_zero, Option.some.injEq] at hx
      subst hx
      exact List.mem_cons_self _ _
    | succ i =>
      simp only [List.getElem?_cons_succ] at hx
      have h := ih (n + 1) i hx
      have he : n + (i + 1) = n + 1 + i := by omega
      rw [he]
      exact List.mem_cons_of_mem _ h

theorem keyedCompare_of_zero {α : Type} (compare : α → α → Number) (a b : α × Nat)
    (h : compare a.1 b.1 = 0) :
    keyedCompare compare a b = Number.fin (a.2 : Int) - Number.fin (b.2 : Int) := by
  unfold keyedCompare
  rw [if_neg (by simpa using h)]

theorem keyedCompare_of_ne_zero {α : Type} (compare : α → α → Number) (a b : α × Nat)
    (h : compare a.1 b.1 ≠ 0) : keyedCompare compare a b = compare a.1 b.1 := by
  unfold keyedCompare
  rw [if_pos h]

theorem sgn_zero : (0 : Number).sgn = 0 := rfl

theorem keyedCompare_sgn_lt {α : Type} (compare : α → α → Number) (a b : α × Nat) :
    (keyedCompare compare a b).sgn < 0 ↔
      (compare a.1 b.1).sgn < 0 ∨ (compare a.1 b.1 = 0 ∧ a.2 < b.2) := by
  by_cases h : compare a.1 b.1 = 0
  · rw [keyedCompare_of_zero compare a b h, (Number.fin_sub_fin_sgn _ _).1, h, sgn_zero]
    constructor
    · intro h1
      exact Or.inr ⟨rfl, by omega⟩
    · rintro (h1 | ⟨_, h1⟩) <;> omega
  · rw [keyedCompare_of_ne_zero compare a b h]
    constructor
    · intro h1
      exact Or.inl h1
    · rintro (h1 | ⟨h1, _⟩)
      · exact h1
      · exact absurd h1 h

theorem keyedCompare_sgn_pos {α : Type} (compare : α → α → Number) (a b : α × Nat) :
    0 < (keyedCompare compare a b).sgn ↔
      0 < (compare a.1 b.1).sgn ∨ (compare a.1 b.1 = 0 ∧ b.2 < a.2) := by
  by_cases h : compare a.1 b.1 = 0
  · rw [keyedCompare_of_zero compare a b h, (Number.fin_sub_fin_sgn _ _).2, h, sgn_zero]
    constructor
    · intro h1
      exact Or.inr ⟨rfl, by omega⟩
    · rintro (h1 | ⟨_, h1⟩) <;> omega
  · rw [keyedCompare_of_ne_zero compare a b h]
    constructor
    · intro h1
      exact Or.inl h1
    · rintro (h1 | ⟨h1, _⟩)
      · exact h1
      · exact absurd h1 h

/-- The keyed comparator yields NaN exactly when the comparator does. -/
theorem keyedCompare_eq_nan {α : Type} (compare : α → α → Number) (a b : α × Nat) :
    keyedCompare compare a b = Number.nan ↔ compare a.1 b.1 = Number.nan := by
  by_cases h : compare a.1 b.1 = 0
  · rw [keyedCompare_of_zero compare a b h, h]
    simp [Number.sub_ne_nan_of_fin, Number.ofNat_def]
  · rw [keyedCompare_of_ne_zero compare a b h]

/-- The keyed comparator is 0 only for two pairs with the same index. -/
theorem keyedCompare_ne_zero {α : Type} (compare : α → α → Number) (a b : α × Nat)
    (hne : a.2 ≠ b.2) : keyedCompare compare a b ≠ 0 := by
  by_cases h : compare a.1 b.1 = 0
  · rw [keyedCompare_of_zero compare a b h]
    intro h0
    rw [Number.eq_zero_iff _ (Number.sub_ne_nan_of_fin _ _)] at h0
    have h1 := Number.fin_sub_fin_sgn (a.2 : Int) (b.2 : Int)
    omega
  · rw [keyedCompare_of_ne_zero compare a b h]
    exact h

theorem keyedCompare_lt_iff {α : Type} (compare : α → α → Number) (a b : α × Nat) :
    keyedCompare compare a b < 0 ↔
      compare a.1 b.1 < 0 ∨ (compare a.1 b.1 = 0 ∧ a.2 < b.2) := by
  rw [Number.lt_zero_iff, Number.lt_zero_iff, keyedCompare_sgn_lt]

theorem keyedCompare_pos_iff {α : Type} (compare : α → α → Number) (a b : α × Nat) :
    0 < keyedCompare compare a b ↔
      0 < compare a.1 b.1 ∨ (compare a.1 b.1 = 0 ∧ b.2 < a.2) := by
  rw [Number.zero_lt_iff, Number.zero_lt_iff, keyedCompare_sgn_pos]

theorem Number.le_zero_iff_lt_or_eq (x : Number) : x ≤ 0 ↔ x < 0 ∨ x = 0 := by
  cases x <;> simp [Number.le_def, Number.lt_def, Number.ofNat_def, Number.le, Number.lt]

theorem keyedCompare_le_iff {α : Type} (compare : α → α → Number) (a b : α × Nat) :
    keyedCompare compare a b ≤ 0 ↔
      compare a.1 b.1 < 0 ∨ (compare a.1 b.1 = 0 ∧ a.2 ≤ b.2) := by
  rw [Number.le_zero_iff_lt_or_eq, keyedCompare_lt_iff]
  by_cases h : compare a.1 b.1 = 0
  · rw [keyedCompare_of_zero compare a b h,
      Number.eq_zero_iff _ (Number.sub_ne_nan_of_fin _ _)]
    have h1 := Number.fin_sub_fin_sgn (a.2 : Int) (b.2 : Int)
    constructor
    · rintro ((h2 | ⟨_, h2⟩) | h2)
      · exact Or.inl h2
      · exact Or.inr ⟨h, by omega⟩
      · exact Or.inr ⟨h, by omega⟩
    · rintro (h2 | ⟨_, h2⟩)
      · exact Or.inl (Or.inl h2)
      · by_cases h3 : a.2 < b.2
        · exact Or.inl (Or.inr ⟨h, h3⟩)
        · exact Or.inr (by omega)
  · rw [keyedCompare_of_ne_zero compare a b h]
    constructor
    · rintro ((h2 | ⟨h2, _⟩) | h2)
      · exact Or.inl h2
      · exact absurd h2 h
      · exact absurd h2 h
    · rintro (h2 | ⟨h2, _⟩)
      · exact Or.inl (Or.inl h2)
      · exact absurd h2 h

/-- The signs of the keyed comparator are a preorder on the keyed array as soon as the signs
of the comparator are one on the array and the comparator yields NaN for whole classes of
elements that tie: with `a` and `b` also for `b` and `a`, and for `a` and every `c` that
ties with `b`. -/
theorem keyed_signPreorder {α : Type} (compare : α → α → Number) (n : Nat) (l : List α)
    (hR : SignPreorderOn (fun a b => (compare a b).sgn) l)
    (hsym : ∀ a ∈ l, ∀ b ∈ l, compare a b = Number.nan → compare b a = Number.nan)
    (hcls : ∀ a ∈ l, ∀ b ∈ l, ∀ c ∈ l, compare a b = Number.nan → (compare b c).sgn = 0 →
      compare a c = Number.nan) :
    SignPreorderOn (fun p q => (keyedCompare compare p q).sgn) (keyedFrom n l) := by
  have hzero : ∀ a ∈ l, ∀ b ∈ l, compare a b = 0 → compare b a = 0 := by
    intro a ha b hb h
    have h1 : (compare a b).sgn = 0 := by rw [h]; rfl
    have h2 : (compare b a).sgn = 0 := (hR.sign_eq_flip ha hb).mp h1
    rcases Number.sgn_eq_zero _ h2 with h3 | h3
    · exact h3
    · have h4 := hsym b hb a ha h3
      rw [h] at h4
      cases h4
  constructor
  · intro a ha b hb
    have ha1 := (mem_keyedFrom n l a ha).2
    have hb1 := (mem_keyedFrom n l b hb).2
    rw [keyedCompare_sgn_lt, keyedCompare_sgn_pos]
    have h1 := hR.flip a.1 ha1 b.1 hb1
    constructor
    · rintro (h | ⟨h, hi⟩)
      · exact Or.inl (h1.mp h)
      · exact Or.inr ⟨hzero _ ha1 _ hb1 h, hi⟩
    · rintro (h | ⟨h, hi⟩)
      · exact Or.inl (h1.mpr h)
      · exact Or.inr ⟨hzero _ hb1 _ ha1 h, hi⟩
  · intro a ha b hb c hc h1 h2
    have ha1 := (mem_keyedFrom n l a ha).2
    have hb1 := (mem_keyedFrom n l b hb).2
    have hc1 := (mem_keyedFrom n l c hc).2
    have k1 := keyedCompare_sgn_pos compare a b
    have k2 := keyedCompare_sgn_pos compare b c
    rw [← Int.not_lt, keyedCompare_sgn_pos]
    have hab : (compare a.1 b.1).sgn ≤ 0 := by
      by_contra hx
      exact absurd (k1.mpr (Or.inl (by omega))) (by omega)
    have hbc : (compare b.1 c.1).sgn ≤ 0 := by
      by_contra hx
      exact absurd (k2.mpr (Or.inl (by omega))) (by omega)
    have hac := hR.trans a.1 ha1 b.1 hb1 c.1 hc1 hab hbc
    simp only at hac
    rintro (h3 | ⟨h3, h4⟩)
    · omega
    · have s3 : (compare a.1 c.1).sgn = 0 := by rw [h3]; rfl
      have sab : (compare a.1 b.1).sgn = 0 := by
        by_contra hx
        have := hR.lt_of_lt_of_le ha1 hb1 hc1 (by omega) hbc
        simp only at this
        omega
      have sbc : (compare b.1 c.1).sgn = 0 := by
        by_contra hx
        have := hR.lt_of_le_of_lt ha1 hb1 hc1 hab (by omega)
        simp only at this
        omega
      have zab : compare a.1 b.1 = 0 := by
        rcases Number.sgn_eq_zero _ sab with h5 | h5
        · exact h5
        · have h6 := hcls _ ha1 _ hb1 _ hc1 h5 sbc
          rw [h3] at h6
          cases h6
      have zbc : compare b.1 c.1 = 0 := by
        rcases Number.sgn_eq_zero _ sbc with h5 | h5
        · exact h5
        · have h6 := hsym _ hb1 _ hc1 h5
          have sba : (compare b.1 a.1).sgn = 0 := (hR.sign_eq_flip ha1 hb1).mp sab
          have h7 := hcls _ hc1 _ hb1 _ ha1 h6 sba
          have h8 := hsym _ hc1 _ ha1 h7
          rw [h3] at h8
          cases h8
      have i1 : ¬ b.2 < a.2 := fun hx =>
        absurd (k1.mpr (Or.inr ⟨zab, hx⟩)) (by omega)
      have i2 : ¬ c.2 < b.2 := fun hx =>
        absurd (k2.mpr (Or.inr ⟨zbc, hx⟩)) (by omega)
      omega

/-- With a total preorder on the elements, the keyed comparator is a total preorder on the
keyed array. -/
theorem keyed_totalPreorder {α : Type} (compare : α → α → Number) (n : Nat) (l : List α)
    (hP : TotalPreorderOn compare l) :
    TotalPreorderOn (keyedCompare compare) (keyedFrom n l) := by
  apply TotalPreorderOn.of_sign
  · intro a ha b hb
    rw [Ne, keyedCompare_eq_nan]
    exact hP.number _ (mem_keyedFrom n l a ha).2 _ (mem_keyedFrom n l b hb).2
  · apply keyed_signPreorder compare n l hP.sign
    · intro a ha b hb h
      exact absurd h (hP.number a ha b hb)
    · intro a ha b hb c _ h
      exact absurd h (hP.number a ha b hb)

/-- What the contract of the host's sort gives for the keyed array of `stableSort` when the
signs of the keyed comparator are a preorder: a rearrangement of the keyed array in which no
pair stands before one that the keyed comparator puts strictly before it, and no two pairs
have the same index. -/
theorem sorted_keyed {α : Type}
    (sort : (α × Nat → α × Nat → Number) → List (α × Nat) → List (α × Nat))
    (hS : SortContract sort) (array : List α) (compare : α → α → Number)
    (hK : SignPreorderOn (fun p q => (keyedCompare compare p q).sgn) (keyedFrom 0 array)) :
    (sort (keyedCompare compare) (keyedFrom 0 array)).Perm (keyedFrom 0 array) ∧
    (sort (keyedCompare compare) (keyedFrom 0 array)).Pairwise
      (fun a b => ¬ keyedCompare compare b a < 0 ∧ a.2 ≠ b.2) := by
  have hperm := hS.perm (keyedCompare compare) (keyedFrom 0 array)
  refine ⟨hperm, ?_⟩
  have h1 := hS.sorted (keyedCompare compare) (keyedFrom 0 array) (sortCompare_totalPreorder hK)
  have h2 : (sort (keyedCompare compare) (keyedFrom 0 array)).Pairwise
      (fun a b => a.2 ≠ b.2) := by
    apply List.Pairwise.perm _ hperm.symm (fun h => Ne.symm h)
    exact (pairwise_keyedFrom 0 array).imp (fun h => Nat.ne_of_lt h)
  exact h1.and h2

/-- With a total preorder on the elements, every pair of the sorted keyed array stands
strictly before every later one. -/
theorem sorted_keyed_strict {α : Type}
    (sort : (α × Nat → α × Nat → Number) → List (α × Nat) → List (α × Nat))
    (hS : SortContract sort) (array : List α) (compare : α → α → Number)
    (hP : TotalPreorderOn compare array) :
    (sort (keyedCompare compare) (keyedFrom 0 array)).Perm (keyedFrom 0 array) ∧
    (sort (keyedCompare compare) (keyedFrom 0 array)).Pairwise
      (fun a b => keyedCompare compare a b < 0) := by
  have hK := keyed_totalPreorder compare 0 array hP
  obtain ⟨hperm, hsorted⟩ := sorted_keyed sort hS array compare hK.sign
  refine ⟨hperm, ?_⟩
  apply (List.Pairwise.and_mem.mp hsorted).imp
  rintro a b ⟨ha, hb, hnot, hne⟩
  have ha1 := hperm.mem_iff.mp ha
  have hb1 := hperm.mem_iff.mp hb
  have h4 := keyedCompare_ne_zero compare b a (Ne.symm hne)
  rw [Ne, Number.eq_zero_iff _ (hK.number b hb1 a ha1)] at h4
  rw [Number.lt_zero_iff] at hnot
  apply (hK.flip a ha1 b hb1).mpr
  rw [Number.zero_lt_iff]
  omega

/-- Two rearrangements of a list that are both strictly ascending for a comparator in which
"before" excludes "after" are the same list. -/
theorem keyed_sorted_unique {β : Type} (cmp : β → β → Number) (K l1 l2 : List β)
    (hflip : ∀ a ∈ K, ∀ b ∈ K, cmp a b < 0 → ¬ cmp b a < 0) (hp1 : l1.Perm K)
    (hp2 : l2.Perm K)
    (hs1 : l1.Pairwise (fun a b => cmp a b < 0)) (hs2 : l2.Pairwise (fun a b => cmp a b < 0)) :
    l1 = l2 := by
  haveI : IsAntisymm β (fun a b => a ∈ K ∧ b ∈ K ∧ cmp a b < 0) :=
    ⟨fun a b h1 h2 => absurd h2.2.2 (hflip a h1.1 b h1.2.1 h1.2.2)⟩
  apply List.eq_of_perm_of_sorted (r := fun a b => a ∈ K ∧ b ∈ K ∧ cmp a b < 0)
    (hp1.trans hp2.symm)
  · apply (List.Pairwise.and_mem.mp hs1).imp
    rintro a b ⟨ha, hb, h⟩
    exact ⟨hp1.mem_iff.mp ha, hp1.mem_iff.mp hb, h⟩
  · apply (List.Pairwise.and_mem.mp hs2).imp
    rintro a b ⟨ha, hb, h⟩
    exact ⟨hp2.mem_iff.mp ha, hp2.mem_iff.mp hb, h⟩

theorem SignPreorderOn.sign_lt_asymm {β : Type} {r : β → β → Int} {l : List β}
    (hP : SignPreorderOn r l) {a b : β} (ha : a ∈ l) (hb : b ∈ l) (h : r a b < 0) :
    ¬ r b a < 0 := by
  have h1 := (hP.flip a ha b hb).mp h
  omega

theorem map_fst_insertBy {α : Type} (compare : α → α → Number) (x : α) (n : Nat)
    (L : List (α × Nat)) (hL : ∀ b ∈ L, n < b.2) :
    (insertBy (fun a b => decide (keyedCompare compare a b ≤ 0)) (x, n) L).map Prod.fst
      = insertBy (fun a b => decide (compare a b ≤ 0)) x (L.map Prod.fst) := by
  induction L with
  | nil => rfl
  | cons b L ih =>
    have hb := hL b (List.mem_cons_self _ _)
    have htest : decide (keyedCompare compare (x, n) b ≤ 0) = decide (compare x b.1 ≤ 0) := by
      apply decide_eq_decide.mpr
      rw [keyedCompare_le_iff, Number.le_zero_iff_lt_or_eq]
      simp only
      constructor
      · rintro (h | ⟨h, _⟩)
        · exact Or.inl h
        · exact Or.inr h
      · rintro (h | h)
        · exact Or.inl h
        · exact Or.inr ⟨h, by omega⟩
    rw [insertBy, List.map_cons, insertBy, htest]
    split
    · rfl
    · rw [List.map_cons, ih (fun c hc => hL c (List.mem_cons_of_mem _ hc))]

/-- Stable insertion sort of the elements is insertion sort of the keyed array with the
keyed comparator, read off its first components. -/
theorem map_fst_insertionSortBy {α : Type} (compare : α → α → Number) (n : Nat) (l : List α) :
    (insertionSortBy (fun a b => decide (keyedCompare compare a b ≤ 0)) (keyedFrom n l)).map
      Prod.fst = stableInsertionSort compare l := by
  induction l generalizing n with
  | nil => rfl
  | cons x l ih =>
    rw [keyedFrom, insertionSortBy, stableInsertionSort, insertionSortBy, map_fst_insertBy]
    · rw [ih (n + 1)]
      rfl
    · intro b hb
      have h1 := (perm_insertionSortBy _ _).mem_iff.mp hb
      have h2 := (mem_keyedFrom (n + 1) l b h1).1
      omega

/-- Whatever sort the host has, with a total preorder on the elements `stableSort` gives
the result of the reference stable sort. -/
theorem stableSort_eq_reference {α : Type}
    (sort : (α × Nat → α × Nat → Number) → List (α × Nat) → List (α × Nat))
    (hS : SortContract sort) (array : List α) (compare : α → α → Number)
    (hP : TotalPreorderOn compare array) :
    stableSort sort array compare = stableInsertionSort compare array := by
  have hK := keyed_totalPreorder compare 0 array hP
  obtain ⟨hperm, hsorted⟩ := sorted_keyed_strict sort hS array compare hP
  have hperm2 := perm_insertionSortBy (fun a b => decide (keyedCompare compare a b ≤ 0))
    (keyedFrom 0 array)
  have hsorted2 : (insertionSortBy (fun a b => decide (keyedCompare compare a b ≤ 0))
      (keyedFrom 0 array)).Pairwise (fun a b => keyedCompare compare a b < 0) := by
    have hle : (insertionSortBy (fun a b => decide (keyedCompare compare a b ≤ 0))
        (keyedFrom 0 array)).Pairwise (fun a b => keyedCompare compare a b ≤ 0) := by
      apply pairwise_insertionSortBy
      · intro a _ b _ h
        simpa using h
      · intro a ha b hb h
        have h1 : ¬ keyedCompare compare a b ≤ 0 := by simpa using h
        rw [Number.le_zero_iff _ (hK.number a ha b hb)] at h1
        rw [Number.le_zero_iff _ (hK.number b hb a ha)]
        have h3 := hK.sign.flip b hb a ha
        simp only at h3
        omega
      · exact hK.trans
    have hne : (insertionSortBy (fun a b => decide (keyedCompare compare a b ≤ 0))
        (keyedFrom 0 array)).Pairwise (fun a b => a.2 ≠ b.2) := by
      apply List.Pairwise.perm _ hperm2.symm (fun h => Ne.symm h)
      exact (pairwise_keyedFrom 0 array).imp (fun h => Nat.ne_of_lt h)
    apply (hle.and hne).imp
    rintro a b ⟨h1, h2⟩
    have h3 := keyedCompare_ne_zero compare a b h2
    rcases (Number.le_zero_iff_lt_or_eq _).mp h1 with h4 | h4
    · exact h4
    · exact absurd h4 h3
  have hflip : ∀ a ∈ keyedFrom 0 array, ∀ b ∈ keyedFrom 0 array,
      keyedCompare compare a b < 0 → ¬ keyedCompare compare b a < 0 := by
    intro a ha b hb h
    rw [Number.lt_zero_iff] at h ⊢
    exact hK.sign.sign_lt_asymm ha hb h
  have heq := keyed_sorted_unique (keyedCompare compare) (keyedFrom 0 array) _ _ hflip hperm
    hperm2 hsorted hsorted2
  rw [stableSort, heq, map_fst_insertionSortBy]

/-! ## The two comparators -/

theorem unitsLt_irrefl (a : List Nat) : unitsLt a a = false := by
  induction a with
  | nil => rfl
  | cons x a ih => simp [unitsLt, ih]

theorem unitsLt_asymm (a b : List Nat) (h : unitsLt a b = true) : unitsLt b a = false := by
  induction a generalizing b with
  | nil =>
    cases b with
    | nil => simp [unitsLt] at h
    | cons y b => rfl
  | cons x a ih =>
    cases b with
    | nil => simp [unitsLt] at h
    | cons y b =>
      simp only [unitsLt, Bool.or_eq_true, Bool.and_eq_true, decide_eq_true_eq] at h
      simp only [unitsLt, Bool.or_eq_false_iff, Bool.and_eq_false_imp, decide_eq_false_iff_not,
        decide_eq_true_eq]
      rcases h with h | ⟨h1, h2⟩
      · exact ⟨by omega, fun h3 => by omega⟩
      · exact ⟨by omega, fun _ => ih b h2⟩

theorem unitsLt_trans (a b c : List Nat) (h1 : unitsLt a b = true) (h2 : unitsLt b c = true) :
    unitsLt a c = true := by
  induction a generalizing b c with
  | nil =>
    cases b with
    | nil => simp [unitsLt] at h1
    | cons y b =>
      cases c with
      | nil => simp [unitsLt] at h2
      | cons z c => rfl
  | cons x a ih =>
    cases b with
    | nil => simp [unitsLt] at h1
    | cons y b =>
      cases c with
      | nil => simp [unitsLt] at h2
      | cons z c =>
        simp only [unitsLt, Bool.or_eq_true, Bool.and_eq_true, decide_eq_true_eq] at h1 h2 ⊢
        rcases h1 with h1 | ⟨h1, h3⟩ <;> rcases h2 with h2 | ⟨h2, h4⟩
        · exact Or.inl (by omega)
        · exact Or.inl (by omega)
        · exact Or.inl (by omega)
        · exact Or.inr ⟨by omega, ih b c h3 h4⟩

theorem unitsLt_total (a b : List Nat) (h1 : unitsLt a b = false) (h2 : unitsLt b a = false) :
    a = b := by
  induction a generalizing b with
  | nil =>
    cases b with
    | nil => rfl
    | cons y b => simp [unitsLt] at h1
  | cons x a ih =>
    cases b with
    | nil => simp [unitsLt] at h2
    | cons y b =>
      simp only [unitsLt, Bool.or_eq_false_iff, Bool.and_eq_false_imp, decide_eq_false_iff_not,
        decide_eq_true_eq] at h1 h2
      have hxy : x = y := by omega
      subst hxy
      rw [ih b (h1.2 rfl) (h2.2 rfl)]

theorem unitsLt_le_trans (a b c : List Nat) (h1 : unitsLt b a = false)
    (h2 : unitsLt c b = false) : unitsLt c a = false := by
  cases h : unitsLt c a with
  | false => rfl
  | true =>
    cases hab : unitsLt a b with
    | true =>
      have := unitsLt_trans c a b h hab
      rw [this] at h2
      cases h2
    | false =>
      have he := unitsLt_total a b hab h1
      subst he
      rw [h] at h2
      cases h2

theorem comparePlayer_lt_iff (a b : String) :
    comparePlayer a b < 0 ↔ unitsLt (playerOf a) (playerOf b) = true := by
  unfold comparePlayer
  cases h1 : unitsLt (playerOf a) (playerOf b) <;> cases h2 : unitsLt (playerOf b) (playerOf a)
    <;> simp

theorem comparePlayer_pos_iff (a b : String) :
    0 < comparePlayer a b ↔ unitsLt (playerOf b) (playerOf a) = true := by
  unfold comparePlayer
  cases h1 : unitsLt (playerOf a) (playerOf b) with
  | false => cases h2 : unitsLt (playerOf b) (playerOf a) <;> simp
  | true =>
    have h2 := unitsLt_asymm _ _ h1
    simp [h2]

theorem comparePlayer_eq_zero_iff (a b : String) :
    comparePlayer a b = 0 ↔ playerOf a = playerOf b := by
  unfold comparePlayer
  cases h1 : unitsLt (playerOf a) (playerOf b) with
  | false =>
    cases h2 : unitsLt (playerOf b) (playerOf a) with
    | false => simp [unitsLt_total _ _ h1 h2]
    | true =>
      simp only [Bool.false_eq_true, if_false, if_true, one_ne_zero, false_iff]
      intro he
      rw [he, unitsLt_irrefl] at h2
      cases h2
  | true =>
    simp only [if_true, Int.reduceNeg, neg_eq_zero, one_ne_zero, false_iff]
    intro he
    rw [he, unitsLt_irrefl] at h1
    cases h1

theorem parseInt_case (str : List Char) :
    parseInt str = Number.nan ∨ ∃ z : Int, parseInt str = Number.ofInt z := by
  unfold parseInt
  simp only
  split
  · exact Or.inr ⟨_, rfl⟩
  · exact Or.inl rfl

theorem tickOf_ne_nan (line : String) : tickOf line ≠ Number.nan := by
  unfold tickOf
  split
  · split
    · assumption
    · simp [Number.ofNat_def]
  · simp [Number.ofNat_def]

theorem tickOf_eq (line : String) : tickOf line = (parsedTick line).getD 0x100000000 := by
  unfold tickOf parsedTick
  split
  · split <;> rfl
  · rfl

theorem parsedTick_ne_nan (line : String) (v : Number) (h : parsedTick line = some v) :
    v ≠ Number.nan := by
  have h1 : tickOf line = v := by
    rw [tickOf_eq, h]
    rfl
  rw [← h1]
  exact tickOf_ne_nan line

/-- The sign of `compareTick` is the order of the two ticks; it is NaN exactly for two
ticks that are the same infinity, and 0 exactly for two ticks that are the same finite
number. -/
theorem compareTick_sgn (a b : String) :
    ((compareTick a b).sgn < 0 ↔ tickOf a < tickOf b) ∧
    (0 < (compareTick a b).sgn ↔ tickOf b < tickOf a) ∧
    (compareTick a b = Number.nan ↔ tickOf a = tickOf b ∧ (tickOf a).isFinite = false) ∧
    (compareTick a b = 0 ↔ tickOf a = tickOf b ∧ (tickOf a).isFinite = true) := by
  have h := Number.sub_sgn (tickOf a) (tickOf b) (tickOf_ne_nan a) (tickOf_ne_nan b)
  exact ⟨h.1, h.2.1, h.2.2,
    Number.sub_eq_zero (tickOf a) (tickOf b) (tickOf_ne_nan a) (tickOf_ne_nan b)⟩

theorem compareTick_lt_iff (a b : String) : compareTick a b < 0 ↔ tickOf a < tickOf b := by
  rw [Number.lt_zero_iff]
  exact (compareTick_sgn a b).1

theorem compareTick_zero_symm (a b : String) (h : compareTick a b = 0) :
    compareTick b a = 0 := by
  rw [(compareTick_sgn a b).2.2.2] at h
  rw [(compareTick_sgn b a).2.2.2, ← h.1]
  exact ⟨rfl, h.2⟩

theorem compareTick_nan_symm (a b : String) (h : compareTick a b = Number.nan) :
    compareTick b a = Number.nan := by
  rw [(compareTick_sgn a b).2.2.1] at h
  rw [(compareTick_sgn b a).2.2.1, ← h.1]
  exact ⟨rfl, h.2⟩

/-- Two ticks neither of which is before the other are the same tick. -/
theorem tickOf_eq_of_not_lt (a b : String) (h1 : ¬ tickOf a < tickOf b)
    (h2 : ¬ tickOf b < tickOf a) : tickOf a = tickOf b := by
  rcases Number.lt_trichotomy _ _ (tickOf_ne_nan a) (tickOf_ne_nan b) with h | h | h
  · exact absurd h h1
  · exact h
  · exact absurd h h2

theorem tickOf_not_lt_trans (a b c : String) (h1 : ¬ tickOf b < tickOf a)
    (h2 : ¬ tickOf c < tickOf b) : ¬ tickOf c < tickOf a := by
  intro h3
  rcases Number.lt_trichotomy _ _ (tickOf_ne_nan a) (tickOf_ne_nan b) with h | h | h
  · exact h2 (Number.lt_trans h3 h)
  · rw [h] at h3
    exact h2 h3
  · exact h1 h

/-- The signs of `compareTick` are a preorder on any list of lines. -/
theorem compareTick_signPreorder (l : List String) :
    SignPreorderOn (fun a b => (compareTick a b).sgn) l where
  flip := by
    intro a _ b _
    rw [(compareTick_sgn a b).1, (compareTick_sgn b a).2.1]
  trans := by
    intro a _ b _ c _ h1 h2
    have k1 := (compareTick_sgn a b).2.1
    have k2 := (compareTick_sgn b c).2.1
    have k3 := (compareTick_sgn a c).2.1
    have n1 : ¬ tickOf b < tickOf a := fun h => absurd (k1.mpr h) (by omega)
    have n2 : ¬ tickOf c < tickOf b := fun h => absurd (k2.mpr h) (by omega)
    have n3 := tickOf_not_lt_trans a b c n1 n2
    by_contra hx
    exact n3 (k3.mp (by omega))

/-- Where `compareTick` yields NaN it does so for a whole class of lines that tie. -/
theorem compareTick_nan_class (a b c : String) (h : compareTick a b = Number.nan)
    (hs : (compareTick b c).sgn = 0) : compareTick a c = Number.nan := by
  rw [(compareTick_sgn a b).2.2.1] at h
  have n1 : ¬ tickOf b < tickOf c := fun hx =>
    absurd ((compareTick_sgn b c).1.mpr hx) (by omega)
  have n2 : ¬ tickOf c < tickOf b := fun hx =>
    absurd ((compareTick_sgn b c).2.1.mpr hx) (by omega)
  have he := tickOf_eq_of_not_lt b c n1 n2
  rw [(compareTick_sgn a c).2.2.1, ← he, ← h.1]
  exact ⟨rfl, h.2⟩

theorem keyed_compareTick_signPreorder (n : Nat) (l : List String) :
    SignPreorderOn (fun p q => (keyedCompare compareTick p q).sgn) (keyedFrom n l) :=
  keyed_signPreorder compareTick n l (compareTick_signPreorder l)
    (fun a _ b _ h => compareTick_nan_symm a b h)
    (fun a _ b _ c _ h hs => compareTick_nan_class a b c h hs)

theorem canonCompare_of_tie (a b : String) (h : compareTick a b = 0) :
    canonCompare a b = Number.fin (comparePlayer a b) := by
  unfold canonCompare
  rw [if_neg (by simpa using h)]

theorem canonCompare_of_ne (a b : String) (h : compareTick a b ≠ 0) :
    canonCompare a b = compareTick a b := by
  unfold canonCompare
  rw [if_pos h]

theorem canonCompare_sgn_lt (a b : String) :
    (canonCompare a b).sgn < 0 ↔
      tickOf a < tickOf b ∨ (compareTick a b = 0 ∧ unitsLt (playerOf a) (playerOf b) = true) := by
  by_cases h : compareTick a b = 0
  · rw [canonCompare_of_tie a b h]
    have ht := (compareTick_sgn a b).1
    rw [h] at ht
    have hl : ¬ tickOf a < tickOf b := fun hx => absurd (ht.mpr hx) (by decide)
    have hp := comparePlayer_lt_iff a b
    simp only [Number.sgn]
    constructor
    · intro h1
      exact Or.inr ⟨h, hp.mp h1⟩
    · rintro (h1 | ⟨_, h1⟩)
      · exact absurd h1 hl
      · exact hp.mpr h1
  · rw [canonCompare_of_ne a b h, (compareTick_sgn a b).1]
    constructor
    · intro h1
      exact Or.inl h1
    · rintro (h1 | ⟨h1, _⟩)
      · exact h1
      · exact absurd h1 h

theorem canonCompare_sgn_pos (a b : String) :
    0 < (canonCompare a b).sgn ↔
      tickOf b < tickOf a ∨ (compareTick a b = 0 ∧ unitsLt (playerOf b) (playerOf a) = true) := by
  by_cases h : compareTick a b = 0
  · rw [canonCompare_of_tie a b h]
    have ht := (compareTick_sgn a b).2.1
    rw [h] at ht
    have hl : ¬ tickOf b < tickOf a := fun hx => absurd (ht.mpr hx) (by decide)
    have hp := comparePlayer_pos_iff a b
    simp only [Number.sgn]
    constructor
    · intro h1
      exact Or.inr ⟨h, hp.mp h1⟩
    · rintro (h1 | ⟨_, h1⟩)
      · exact absurd h1 hl
      · exact hp.mpr h1
  · rw [canonCompare_of_ne a b h, (compareTick_sgn a b).2.1]
    constructor
    · intro h1
      exact Or.inl h1
    · rintro (h1 | ⟨h1, _⟩)
      · exact h1
      · exact absurd h1 h

/-- The comparator of the canonicalizer yields NaN exactly when `compareTick` does. -/
theorem canonCompare_eq_nan (a b : String) :
    canonCompare a b = Number.nan ↔ compareTick a b = Number.nan := by
  by_cases h : compareTick a b = 0
  · rw [canonCompare_of_tie a b h, h]
    simp [Number.ofNat_def]
  · rw [canonCompare_of_ne a b h]

theorem canonCompare_eq_zero_iff (a b : String) :
    canonCompare a b = 0 ↔ compareTick a b = 0 ∧ comparePlayer a b = 0 := by
  by_cases h : compareTick a b = 0
  · rw [canonCompare_of_tie a b h]
    simp [h, Number.ofNat_def]
  · rw [canonCompare_of_ne a b h]
    exact ⟨fun h1 => absurd h1 h, fun h1 => h1.1⟩

/-- The signs of the comparator of the canonicalizer are a preorder on any list of
lines. -/
theorem canonCompare_signPreorder (l : List String) :
    SignPreorderOn (fun a b => (canonCompare a b).sgn) l where
  flip := by
    intro a _ b _
    rw [canonCompare_sgn_lt, canonCompare_sgn_pos]
    constructor
    · rintro (h | ⟨h1, h2⟩)
      · exact Or.inl h
      · exact Or.inr ⟨compareTick_zero_symm a b h1, h2⟩
    · rintro (h | ⟨h1, h2⟩)
      · exact Or.inl h
      · exact Or.inr ⟨compareTick_zero_symm b a h1, h2⟩
  trans := by
    intro a _ b _ c _ h1 h2
    have k1 := canonCompare_sgn_pos a b
    have k2 := canonCompare_sgn_pos b c
    have n1 : ¬ tickOf b < tickOf a := fun h => absurd (k1.mpr (Or.inl h)) (by omega)
    have n2 : ¬ tickOf c < tickOf b := fun h => absurd (k2.mpr (Or.inl h)) (by omega)
    have n3 := tickOf_not_lt_trans a b c n1 n2
    by_contra hx
    have h3 : 0 < (canonCompare a c).sgn := by omega
    rw [canonCompare_sgn_pos] at h3
    rcases h3 with h3 | ⟨h3, h4⟩
    · exact n3 h3
    · have e3 := (compareTick_sgn a c).2.2.2.mp h3
      have n2' : ¬ tickOf a < tickOf b := by
        rw [e3.1]
        exact n2
      have eab := tickOf_eq_of_not_lt a b n2' n1
      have zab : compareTick a b = 0 := (compareTick_sgn a b).2.2.2.mpr ⟨eab, e3.2⟩
      have zbc : compareTick b c = 0 := by
        rw [(compareTick_sgn b c).2.2.2, ← eab]
        exact e3
      have p1 : unitsLt (playerOf b) (playerOf a) = false := by
        cases hu : unitsLt (playerOf b) (playerOf a) with
        | false => rfl
        | true => exact absurd (k1.mpr (Or.inr ⟨zab, hu⟩)) (by omega)
      have p2 : unitsLt (playerOf c) (playerOf b) = false := by
        cases hu : unitsLt (playerOf c) (playerOf b) with
        | false => rfl
        | true => exact absurd (k2.mpr (Or.inr ⟨zbc, hu⟩)) (by omega)
      have p3 := unitsLt_le_trans _ _ _ p1 p2
      rw [p3] at h4
      cases h4

theorem canonCompare_nan_class (a b c : String) (h : canonCompare a b = Number.nan)
    (hs : (canonCompare b c).sgn = 0) : canonCompare a c = Number.nan := by
  rw [canonCompare_eq_nan] at h ⊢
  rw [(compareTick_sgn a b).2.2.1] at h
  have n1 : ¬ tickOf b < tickOf c := fun hx =>
    absurd ((canonCompare_sgn_lt b c).mpr (Or.inl hx)) (by omega)
  have n2 : ¬ tickOf c < tickOf b := fun hx =>
    absurd ((canonCompare_sgn_pos b c).mpr (Or.inl hx)) (by omega)
  have he := tickOf_eq_of_not_lt b c n1 n2
  rw [(compareTick_sgn a c).2.2.1, ← he, ← h.1]
  exact ⟨rfl, h.2⟩

theorem keyed_canonCompare_signPreorder (n : Nat) (l : List String) :
    SignPreorderOn (fun p q => (keyedCompare canonCompare p q).sgn) (keyedFrom n l) :=
  keyed_signPreorder canonCompare n l (canonCompare_signPreorder l)
    (fun a _ b _ h => by
      rw [canonCompare_eq_nan] at h ⊢
      exact compareTick_nan_symm a b h)
    (fun a _ b _ c _ h hs => canonCompare_nan_class a b c h hs)

/-- On lines whose ticks are finite numbers the comparator of the canonicalizer is a total
preorder. -/
theorem canonCompare_totalPreorder (l : List String)
    (hfin : ∀ a ∈ l, (tickOf a).isFinite = true) : TotalPreorderOn canonCompare l := by
  apply TotalPreorderOn.of_sign _ (canonCompare_signPreorder l)
  intro a ha b _ h
  rw [canonCompare_eq_nan, (compareTick_sgn a b).2.2.1, hfin a ha] at h
  cases h.2

/-- On lines whose ticks are finite numbers `compareTick` is a total preorder. -/
theorem compareTick_totalPreorder (l : List String)
    (hfin : ∀ a ∈ l, (tickOf a).isFinite = true) : TotalPreorderOn compareTick l := by
  apply TotalPreorderOn.of_sign _ (compareTick_signPreorder l)
  intro a ha b _ h
  rw [(compareTick_sgn a b).2.2.1, hfin a ha] at h
  cases h.2

theorem length_takeWhile_ne_lt (c : Char) (l : List Char) :
    (l.takeWhile (fun x => x ≠ c)).length < l.length ↔ c ∈ l := by
  induction l with
  | nil => simp
  | cons y l ih =>
    by_cases h : y = c
    · subst h
      simp [List.takeWhile_cons]
    · have hc : ¬ c = y := fun e => h e.symm
      simpa [List.takeWhile_cons, h, hc] using ih

theorem dropWhile_ne_cons (c : Char) (l : List Char) (x : Char) (rest : List Char)
    (h : l.dropWhile (fun x => x ≠ c) = x :: rest) : x = c := by
  induction l with
  | nil => simp at h
  | cons y l ih =>
    by_cases hy : y = c
    · subst hy
      simp [List.dropWhile_cons] at h
      exact h.1.symm
    · simp only [List.dropWhile_cons, ne_eq, hy, not_false_eq_true, decide_True, if_true] at h
      exact ih h

theorem take_length_takeWhile (p : Char → Bool) (l : List Char) :
    l.take (l.takeWhile p).length = l.takeWhile p := by
  have h := List.takeWhile_append_dropWhile p l
  conv => lhs; arg 2; rw [← h]
  rw [List.take_left]

/-- The player that `comparePlayer` extracts with its two `indexOf` calls is the player key
of the specification. -/
theorem playerOf_eq_playerKey (line : String) : playerOf line = playerKey line := by
  unfold playerOf playerKey parenthetical indexOfFrom
  have hsplit := List.takeWhile_append_dropWhile (fun x => decide (x ≠ '(')) line.data
  generalize hpre : line.data.takeWhile (fun x => decide (x ≠ '(')) = pre at hsplit
  cases hdw : line.data.dropWhile (fun x => decide (x ≠ '(')) with
  | nil =>
    rw [hdw, List.append_nil] at hsplit
    simp only [List.drop_zero, Nat.zero_add, hpre, hsplit, Nat.lt_irrefl, if_false]
  | cons x rest =>
    have hx := dropWhile_ne_cons '(' line.data x rest hdw
    subst hx
    rw [hdw] at hsplit
    have hlen : line.data.length = pre.length + (rest.length + 1) := by
      rw [← hsplit]
      simp
    have hopen : pre.length < line.data.length := by omega
    have hdrop : line.data.drop pre.length = '(' :: rest := by
      rw [← hsplit, List.drop_left]
    have hdrop1 : line.data.drop (pre.length + 1) = rest := by
      rw [← List.drop_drop, hdrop]
      rfl
    have htw : ('(' :: rest).takeWhile (fun x => decide (x ≠ ')'))
        = '(' :: rest.takeWhile (fun x => decide (x ≠ ')')) := by
      rw [List.takeWhile_cons]
      simp
    simp only [List.drop_zero, Nat.zero_add, hpre, hopen, if_true, Option.getD_some, hdrop,
      htw, List.length_cons, hdrop1]
    have hiff := length_takeWhile_ne_lt ')' rest
    by_cases hmem : ')' ∈ rest
    · have hlt : pre.length + ((rest.takeWhile (fun x => decide (x ≠ ')'))).length + 1)
          < line.data.length := by
        have := hiff.mpr hmem
        omega
      have hsub : pre.length + ((rest.takeWhile (fun x => decide (x ≠ ')'))).length + 1)
          - (pre.length + 1) = (rest.takeWhile (fun x => decide (x ≠ ')'))).length := by omega
      simp only [hlt, if_true, hmem, hsub]
      rw [hdrop1, take_length_takeWhile]
    · have hlt : ¬ pre.length + ((rest.takeWhile (fun x => decide (x ≠ ')'))).length + 1)
          < line.data.length := by
        have := mt hiff.mp hmem
        omega
      simp only [hlt, if_false, hmem]

theorem pair_sublist_or {β : Type} (l : List β) (a b : β) (ha : a ∈ l) (hb : b ∈ l)
    (hne : a ≠ b) : List.Sublist [a, b] l ∨ List.Sublist [b, a] l := by
  induction l with
  | nil => cases ha
  | cons c l ih =>
    rcases List.mem_cons.mp ha with ha1 | ha1 <;> rcases List.mem_cons.mp hb with hb1 | hb1
    · exact absurd (ha1.trans hb1.symm) hne
    · subst ha1
      exact Or.inl (List.Sublist.cons₂ a (List.singleton_sublist.mpr hb1))
    · subst hb1
      exact Or.inr (List.Sublist.cons₂ b (List.singleton_sublist.mpr ha1))
    · rcases ih ha1 hb1 with h | h
      · exact Or.inl (List.Sublist.cons c h)
      · exact Or.inr (List.Sublist.cons c h)

theorem keyedFrom_index_ne {α : Type} (n : Nat) (l : List α) (a b : α × Nat)
    (ha : a ∈ keyedFrom n l) (hb : b ∈ keyedFrom n l) (hne : a ≠ b) : a.2 ≠ b.2 := by
  have hp := fun (u v : α × Nat) (h : List.Sublist [u, v] (keyedFrom n l)) =>
    List.pairwise_iff_forall_sublist.mp (pairwise_keyedFrom n l) h
  rcases pair_sublist_or _ a b ha hb hne with h | h
  · exact Nat.ne_of_lt (hp a b h)
  · exact (Nat.ne_of_lt (hp b a h)).symm

/-- Two keyed pairs with different indices stand for two different positions of the list:
a relation that holds, in both directions, between the elements of any two positions holds
between theirs. -/
theorem keyedFrom_of_pairwise {α : Type} (R : α → α → Prop) (hsymm : ∀ x y, R x y → R y x)
    (n : Nat) (l : List α) (h : l.Pairwise R) (a b : α × Nat) (ha : a ∈ keyedFrom n l)
    (hb : b ∈ keyedFrom n l) (hne : a.2 ≠ b.2) : R a.1 b.1 := by
  have hp := fun (u v : α × Nat) (hs : List.Sublist [u, v] (keyedFrom n l)) =>
    List.pairwise_iff_forall_sublist.mp (pairwise_keyedFrom_of_pairwise R n l h) hs
  have hab : a ≠ b := fun e => hne (by rw [e])
  rcases pair_sublist_or _ a b ha hb hab with hs | hs
  · exact (hp a b hs).1
  · exact hsymm _ _ (hp b a hs).1

set_option maxRecDepth 20000 in
/-- C11 as stated fails: two lines whose ticks are both too large for a finite number have
the same tick key, Infinity, and `compareTick` yields NaN for them; line 120 returns the
NaN, so that neither the player nor the index is compared, and a host sort that is not
stable leaves the line of player 1 before the line of player 0.  And the tick key is not the
tick as it is written: the ticks 2^53 + 1 and 2^53 are one double, `compareTick` yields 0 for
them and the player decides, so that the line of tick 2^53 + 1 stays before the line of
tick 2^53. -/
theorem canonical_order_counterexample :
    (stableSort refSort [overflowLine "(0) b", overflowLine "(1) a"] canonCompare
        = [overflowLine "(1) a", overflowLine "(0) b"] ∧
      tickOf (overflowLine "(1) a") = Number.posInf ∧
      tickOf (overflowLine "(0) b") = Number.posInf ∧
      unitsLt (playerKey (overflowLine "(0) b")) (playerKey (overflowLine "(1) a")) = true ∧
      compareTick (overflowLine "(0) b") (overflowLine "(1) a") = Number.nan) ∧
    (stableSort refSort ["@9007199254740993(0) a", "@9007199254740992(1) b"] canonCompare
        = ["@9007199254740993(0) a", "@9007199254740992(1) b"] ∧
      compareTick "@9007199254740993(0) a" "@9007199254740992(1) b" = 0) := by
  decide

/-- C11, amended. Canonical order: with a host sort that meets its contract, the result of
`stableSort` with the comparator "compareTick, and on a tie comparePlayer" is read off a
rearrangement of the keyed lines in which every pair stands before every later pair in the
order of the tick key; two pairs with the same finite tick key stand in the order of the
player key, and two pairs with the same finite tick key and the same player key stand in
increasing original index.  So every adjacent pair is in non-decreasing order of tick key,
and of (tick key, player key) unless both ticks are the same infinity. -/
theorem canonical_order
    (sort : (String × Nat → String × Nat → Number) → List (String × Nat) → List (String × Nat))
    (hS : SortContract sort) (lines : List String) :
    ∃ ks : List (String × Nat), ks.Perm (keyedFrom 0 lines) ∧
      stableSort sort lines canonCompare = ks.map Prod.fst ∧
      ks.Pairwise (fun a b =>
        tickOf a.1 < tickOf b.1 ∨
        (tickOf a.1 = tickOf b.1 ∧
          ((tickOf a.1).isFinite = false ∨
            unitsLt (playerKey a.1) (playerKey b.1) = true ∨
            (playerKey a.1 = playerKey b.1 ∧ a.2 < b.2)))) := by
  obtain ⟨hperm, hsorted⟩ := sorted_keyed sort hS lines canonCompare
    (keyed_canonCompare_signPreorder 0 lines)
  refine ⟨_, hperm, rfl, hsorted.imp ?_⟩
  rintro a b ⟨hnot, hne⟩
  rw [Number.lt_zero_iff, keyedCompare_sgn_lt, canonCompare_sgn_lt, canonCompare_eq_zero_iff,
    comparePlayer_eq_zero_iff, playerOf_eq_playerKey, playerOf_eq_playerKey] at hnot
  have n1 : ¬ tickOf b.1 < tickOf a.1 := fun h => hnot (Or.inl (Or.inl h))
  rcases Number.lt_trichotomy _ _ (tickOf_ne_nan a.1) (tickOf_ne_nan b.1) with h | h | h
  · exact Or.inl h
  · refine Or.inr ⟨h, ?_⟩
    cases hf : (tickOf a.1).isFinite with
    | false => exact Or.inl rfl
    | true =>
      have z : compareTick b.1 a.1 = 0 := (compareTick_sgn b.1 a.1).2.2.2.mpr
        ⟨h.symm, by rw [← h]; exact hf⟩
      have n2 : unitsLt (playerKey b.1) (playerKey a.1) = false := by
        cases hu : unitsLt (playerKey b.1) (playerKey a.1) with
        | false => rfl
        | true => exact absurd (Or.inl (Or.inr ⟨z, hu⟩)) hnot
      cases hu : unitsLt (playerKey a.1) (playerKey b.1) with
      | true => exact Or.inr (Or.inl rfl)
      | false =>
        have he := unitsLt_total _ _ hu n2
        refine Or.inr (Or.inr ⟨he, ?_⟩)
        have n3 : ¬ b.2 < a.2 := fun hx => hnot (Or.inr ⟨⟨z, he.symm⟩, hx⟩)
        omega
  · exact absurd h n1

/-- Witness for C11, amended: the concrete scenario of the specification, sorted with a
host sort that is not stable; and two lines whose ticks, 2^53 and 2^53 + 1, are one double:
their tick keys tie and the player decides. -/
theorem canonical_order_witness :
    (∃ ks : List (String × Nat),
      ks.Perm (keyedFrom 0 ["@5(2) Jump", "@1(0) Move 3", "@5(0) Move 1"]) ∧
      stableSort refSort ["@5(2) Jump", "@1(0) Move 3", "@5(0) Move 1"] canonCompare
        = ks.map Prod.fst ∧
      ks.Pairwise (fun a b =>
        tickOf a.1 < tickOf b.1 ∨
        (tickOf a.1 = tickOf b.1 ∧
          ((tickOf a.1).isFinite = false ∨
            unitsLt (playerKey a.1) (playerKey b.1) = true ∨
            (playerKey a.1 = playerKey b.1 ∧ a.2 < b.2))))) ∧
    stableSort refSort ["@5(2) Jump", "@1(0) Move 3", "@5(0) Move 1"] canonCompare
      = ["@1(0) Move 3", "@5(0) Move 1", "@5(2) Jump"] ∧
    tickOf "@9007199254740993(0) a" = tickOf "@9007199254740992(1) b" ∧
    stableSort refSort ["@9007199254740992(1) b", "@9007199254740993(0) a"] canonCompare
      = ["@9007199254740993(0) a", "@9007199254740992(1) b"] :=
  ⟨canonical_order refSort refSort_contract ["@5(2) Jump", "@1(0) Move 3", "@5(0) Move 1"],
    by decide, by decide, by decide⟩

set_option maxRecDepth 20000 in
/-- C12 as stated fails: two lines whose ticks are both too large for a finite number have
the same tick key, Infinity, and the same (absent) player key, but `compareTick` yields NaN
for them, not 0; line 120 returns the NaN, the index tie-break is skipped, and a host sort
that is not stable puts the later line first. -/
theorem canonical_stable_counterexample :
    tickOf (overflowLine " a") = tickOf (overflowLine " b") ∧
    playerKey (overflowLine " a") = playerKey (overflowLine " b") ∧
    comparePlayer (overflowLine " a") (overflowLine " b") = 0 ∧
    compareTick (overflowLine " a") (overflowLine " b") = Number.nan ∧
    stableSort refSort [overflowLine " a", overflowLine " b"] canonCompare
      = [overflowLine " b", overflowLine " a"] := by
  decide

/-- C12, amended. Canonicalization stability: with a host sort that meets its contract, for
two positions `i < j` whose lines compare 0 under `compareTick` (they have the same tick
key, and it is a finite number) and 0 under `comparePlayer` (the same or both-absent player
key), the line from position `i` stands before the line from position `j` in the result of
the canonicalizing `stableSort`. -/
theorem canonical_stable
    (sort : (String × Nat → String × Nat → Number) → List (String × Nat) → List (String × Nat))
    (hS : SortContract sort) (lines : List String) (i j : Nat) (x y : String)
    (hi : lines[i]? = some x) (hj : lines[j]? = some y) (hij : i < j)
    (ht : compareTick x y = 0) (hp : comparePlayer x y = 0) :
    (tickOf x = tickOf y ∧ (tickOf x).isFinite = true) ∧
    ∃ ks : List (String × Nat), ks.Perm (keyedFrom 0 lines) ∧
      stableSort sort lines canonCompare = ks.map Prod.fst ∧
      List.Sublist [(x, i), (y, j)] ks := by
  obtain ⟨hperm, hsorted⟩ := sorted_keyed sort hS lines canonCompare
    (keyed_canonCompare_signPreorder 0 lines)
  refine ⟨(compareTick_sgn x y).2.2.2.mp ht, _, hperm, rfl, ?_⟩
  have hx : (x, i) ∈ keyedFrom 0 lines := by
    have h := mem_keyedFrom_of_getElem 0 lines i x hi
    rwa [Nat.zero_add] at h
  have hy : (y, j) ∈ keyedFrom 0 lines := by
    have h := mem_keyedFrom_of_getElem 0 lines j y hj
    rwa [Nat.zero_add] at h
  have hne : (x, i) ≠ (y, j) := by
    intro h
    have h2 := congrArg Prod.snd h
    simp only at h2
    omega
  rcases pair_sublist_or _ _ _ (hperm.mem_iff.mpr hx) (hperm.mem_iff.mpr hy) hne with h | h
  · exact h
  · have h1 := (List.pairwise_iff_forall_sublist.mp hsorted h).1
    have hxy : canonCompare x y = 0 := (canonCompare_eq_zero_iff x y).mpr ⟨ht, hp⟩
    exact absurd ((keyedCompare_lt_iff canonCompare (x, i) (y, j)).mpr (Or.inr ⟨hxy, hij⟩)) h1

/-- Witness for C12, amended: two `@5(1)` lines keep their order around a line that sorts
first, with a host sort that is not stable. -/
theorem canonical_stable_witness :
    ((tickOf "@5(1) b" = tickOf "@5(1) a" ∧ (tickOf "@5(1) b").isFinite = true) ∧
      ∃ ks : List (String × Nat), ks.Perm (keyedFrom 0 ["@5(1) b", "@1 c", "@5(1) a"]) ∧
        stableSort refSort ["@5(1) b", "@1 c", "@5(1) a"] canonCompare = ks.map Prod.fst ∧
        List.Sublist [("@5(1) b", 0), ("@5(1) a", 2)] ks) ∧
    stableSort refSort ["@5(1) b", "@1 c", "@5(1) a"] canonCompare
      = ["@1 c", "@5(1) b", "@5(1) a"] ∧
    refSort canonCompare ["@5(1) b", "@1 c", "@5(1) a"] = ["@1 c", "@5(1) a", "@5(1) b"] :=
  ⟨canonical_stable refSort refSort_contract ["@5(1) b", "@1 c", "@5(1) a"] 0 2 "@5(1) b"
    "@5(1) a" (by decide) (by decide) (by decide) (by decide) (by decide), by decide, by decide⟩

set_option maxRecDepth 20000 in
/-- C13 as stated fails: after a line of tick 1, two lines whose ticks are both too large
for a finite number compare NaN, so that the index tie-break is skipped for them; a host
sort that is not stable reverses the two at every pass, and the second pass undoes what the
first did. -/
theorem canonical_idempotent_counterexample :
    stableSort refSort ["@1 c", overflowLine " a", overflowLine " b"] canonCompare
      = ["@1 c", overflowLine " b", overflowLine " a"] ∧
    stableSort refSort
        (stableSort refSort ["@1 c", overflowLine " a", overflowLine " b"] canonCompare)
        canonCompare
      = ["@1 c", overflowLine " a", overflowLine " b"] := by
  decide

/-- C13, amended. Canonicalization idempotence: with a host sort that meets its contract,
for every list of lines no two of which compare NaN under `compareTick` (no two lines have
ticks that are the same infinity), applying the canonicalizing `stableSort` to its own
result leaves the list unchanged. -/
theorem canonical_idempotent
    (sort : (String × Nat → String × Nat → Number) → List (String × Nat) → List (String × Nat))
    (hS : SortContract sort) (lines : List String)
    (hnan : lines.Pairwise (fun a b => compareTick a b ≠ Number.nan)) :
    stableSort sort (stableSort sort lines canonCompare) canonCompare
      = stableSort sort lines canonCompare := by
  obtain ⟨hperm, hsorted⟩ := sorted_keyed sort hS lines canonCompare
    (keyed_canonCompare_signPreorder 0 lines)
  have hstrict : (sort (keyedCompare canonCompare) (keyedFrom 0 lines)).Pairwise
      (fun a b => keyedCompare canonCompare a b < 0) := by
    apply (List.Pairwise.and_mem.mp hsorted).imp
    rintro a b ⟨ha, hb, hnot, hne⟩
    have ha1 := hperm.mem_iff.mp ha
    have hb1 := hperm.mem_iff.mp hb
    have hnn : compareTick a.1 b.1 ≠ Number.nan :=
      keyedFrom_of_pairwise (fun x y => compareTick x y ≠ Number.nan)
        (fun x y h h1 => h (compareTick_nan_symm y x h1)) 0 lines hnan a b ha1 hb1 hne
    have h1 : keyedCompare canonCompare a b ≠ Number.nan := by
      rw [Ne, keyedCompare_eq_nan, canonCompare_eq_nan]
      exact hnn
    have h2 := keyedCompare_ne_zero canonCompare a b hne
    rw [Ne, Number.eq_zero_iff _ h1] at h2
    have h3 := (keyed_canonCompare_signPreorder 0 lines).flip b hb1 a ha1
    rw [Number.lt_zero_iff] at hnot ⊢
    omega
  have hK1 : (keyedFrom 0 (stableSort sort lines canonCompare)).Pairwise
      (fun a b => keyedCompare canonCompare a b < 0) := by
    have h1 : (stableSort sort lines canonCompare).Pairwise
        (fun x y => canonCompare x y < 0 ∨ canonCompare x y = 0) := by
      rw [stableSort, List.pairwise_map]
      apply hstrict.imp
      intro a b h
      rw [keyedCompare_lt_iff] at h
      rcases h with h | ⟨h, _⟩
      · exact Or.inl h
      · exact Or.inr h
    apply (pairwise_keyedFrom_of_pairwise _ 0 _ h1).imp
    rintro a b ⟨h, hlt⟩
    rw [keyedCompare_lt_iff]
    rcases h with h | h
    · exact Or.inl h
    · exact Or.inr ⟨h, hlt⟩
  obtain ⟨hperm2, hsorted2⟩ := sorted_keyed sort hS (stableSort sort lines canonCompare)
    canonCompare (keyed_canonCompare_signPreorder 0 _)
  have hstrict2 : (sort (keyedCompare canonCompare)
      (keyedFrom 0 (stableSort sort lines canonCompare))).Pairwise
      (fun a b => keyedCompare canonCompare a b < 0) := by
    apply (List.Pairwise.and_mem.mp hsorted2).imp
    rintro a b ⟨ha, hb, hnot, hne⟩
    have ha1 := hperm2.mem_iff.mp ha
    have hb1 := hperm2.mem_iff.mp hb
    have hab : a ≠ b := fun e => hne (by rw [e])
    rcases pair_sublist_or _ a b ha1 hb1 hab with hs | hs
    · exact List.pairwise_iff_forall_sublist.mp hK1 hs
    · exact absurd (List.pairwise_iff_forall_sublist.mp hK1 hs) hnot
  have hflip : ∀ a ∈ keyedFrom 0 (stableSort sort lines canonCompare),
      ∀ b ∈ keyedFrom 0 (stableSort sort lines canonCompare),
      keyedCompare canonCompare a b < 0 → ¬ keyedCompare canonCompare b a < 0 := by
    intro a ha b hb h
    rw [Number.lt_zero_iff] at h ⊢
    exact (keyed_canonCompare_signPreorder 0 _).sign_lt_asymm ha hb h
  have heq := keyed_sorted_unique (keyedCompare canonCompare)
    (keyedFrom 0 (stableSort sort lines canonCompare)) _ _ hflip hperm2 (List.Perm.refl _)
    hstrict2 hK1
  conv => lhs; rw [stableSort, heq, keyedFrom_map_fst]

/-- Witness for C13, amended: the lines of the concrete scenario, sorted twice with a host
sort that is not stable. -/
theorem canonical_idempotent_witness :
    stableSort refSort
        (stableSort refSort ["@5(2) Jump", "@1(0) Move 3", "@5(0) Move 1"] canonCompare)
        canonCompare
      = stableSort refSort ["@5(2) Jump", "@1(0) Move 3", "@5(0) Move 1"] canonCompare ∧
    stableSort refSort ["@5(2) Jump", "@1(0) Move 3", "@5(0) Move 1"] canonCompare
      = ["@1(0) Move 3", "@5(0) Move 1", "@5(2) Jump"] :=
  ⟨canonical_idempotent refSort refSort_contract _ (by decide), by decide⟩

/-- C14 as stated fails: the line `@4294967296` has a parseable tick and compares equal to
a line without one, and the line `@5000000000` compares after it, so that `stableSort` with
`compareTick` leaves the line without a tick before the line with one. -/
theorem tick_sentinel_counterexample :
    parsedTick "@5000000000" = some 5000000000 ∧ parsedTick "x" = Option.none ∧
    compareTick "@4294967296" "x" = 0 ∧ 0 < compareTick "@5000000000" "x" ∧
    stableSort refSort ["x", "@5000000000"] compareTick = ["x", "@5000000000"] := by
  decide

/-- C14, amended. Tick sentinel ordering: for every line `a` whose tick parses to a value
below 2^32 and every line `b` without a parseable tick, `compareTick a b` is negative, and
with a host sort that meets its contract `b` never stands before `a` in the result of
`stableSort` with `compareTick`, whatever the input order. -/
theorem tick_sentinel_order
    (sort : (String × Nat → String × Nat → Number) → List (String × Nat) → List (String × Nat))
    (hS : SortContract sort) (lines : List String) (a b : String) (v : Number)
    (ha : parsedTick a = some v) (hv : v < 0x100000000) (hb : parsedTick b = Option.none) :
    compareTick a b < 0 ∧ ¬ List.Sublist [b, a] (stableSort sort lines compareTick) := by
  have hab : compareTick a b < 0 := by
    rw [compareTick_lt_iff, tickOf_eq, tickOf_eq, ha, hb]
    exact hv
  refine ⟨hab, ?_⟩
  intro hsub
  obtain ⟨_, hsorted⟩ := sorted_keyed sort hS lines compareTick
    (keyed_compareTick_signPreorder 0 lines)
  rw [stableSort, List.sublist_map_iff] at hsub
  obtain ⟨l', hl', hmap⟩ := hsub
  match l', hmap, hl' with
  | [p, q], hmap, hl' =>
    simp only [List.map_cons, List.map_nil, List.cons.injEq, and_true] at hmap
    have h1 := (List.pairwise_iff_forall_sublist.mp hsorted hl').1
    apply h1
    rw [keyedCompare_lt_iff, ← hmap.1, ← hmap.2]
    exact Or.inl hab

/-- Witness for C14, amended: the line `@7 Jump` comes before the line `note` that was in
front of it, with a host sort that is not stable. -/
theorem tick_sentinel_order_witness :
    (compareTick "@7 Jump" "note" < 0 ∧
      ¬ List.Sublist ["note", "@7 Jump"] (stableSort refSort ["note", "@7 Jump"] compareTick)) ∧
    stableSort refSort ["note", "@7 Jump"] compareTick = ["@7 Jump", "note"] :=
  ⟨tick_sentinel_order refSort refSort_contract ["note", "@7 Jump"] "@7 Jump" "note" 7
    (by decide) (by decide) (by decide), by decide⟩

theorem unitsLt_digits_sentinel (inner : List Char) (hd : ∀ c ∈ inner, c.isDigit = true) :
    unitsLt (utf16 inner) [0xFF] = true := by
  cases inner with
  | nil => rfl
  | cons c cs =>
    have hc := hd c (List.mem_cons_self _ _)
    simp only [Char.isDigit, Bool.and_eq_true, decide_eq_true_eq] at hc
    have h57 : c.toNat ≤ 57 := by
      have := hc.2
      exact this
    have hlt : c.toNat < 0x10000 := by omega
    rw [utf16, if_pos hlt]
    simp only [unitsLt, Bool.or_eq_true, decide_eq_true_eq]
    exact Or.inl (by omega)

/-- C15. Player key and its sentinel: `comparePlayer` is the three-way comparison, in the
order of code units, of the player keys of its two lines, the key being the text between
the first `(` and the first `)` after it, or the one code unit `U+00FF` when there is no
such `(` or no such `)`. Hence a line without such a parenthetical compares after every line
whose parenthetical is a decimal number, that line compares before it, and two lines without
a parenthetical compare equal. -/
theorem comparePlayer_key (a b : String) :
    comparePlayer a b
      = (if unitsLt (playerKey a) (playerKey b) = true then -1
        else if unitsLt (playerKey b) (playerKey a) = true then 1 else 0) ∧
    (∀ inner, parenthetical b.data = some inner → (∀ c ∈ inner, c.isDigit = true) →
      parenthetical a.data = Option.none → 0 < comparePlayer a b ∧ comparePlayer b a < 0) ∧
    (parenthetical a.data = Option.none → parenthetical b.data = Option.none →
      comparePlayer a b = 0) := by
  refine ⟨?_, ?_, ?_⟩
  · unfold comparePlayer
    rw [playerOf_eq_playerKey, playerOf_eq_playerKey]
  · intro inner hb hd ha
    have hkb : playerOf b = utf16 inner := by
      rw [playerOf_eq_playerKey, playerKey, hb]
    have hka : playerOf a = [0xFF] := by
      rw [playerOf_eq_playerKey, playerKey, ha]
    have hlt := unitsLt_digits_sentinel inner hd
    rw [comparePlayer_pos_iff, comparePlayer_lt_iff, hka, hkb]
    exact ⟨hlt, hlt⟩
  · intro ha hb
    rw [comparePlayer_eq_zero_iff, playerOf_eq_playerKey, playerOf_eq_playerKey, playerKey,
      playerKey, ha, hb]

/-- Witness for C15: a line without a player against a line of player 12, two lines without
a player, and the order of code units, in which player 10 comes before player 9. -/
theorem comparePlayer_key_witness :
    (0 < comparePlayer "@5 Jump" "@5(12) Move 1" ∧ comparePlayer "@5(12) Move 1" "@5 Jump" < 0) ∧
    comparePlayer "@5 Jump" "@6 (open" = 0 ∧
    comparePlayer "@5(10) a" "@5(9) b" = -1 :=
  ⟨(comparePlayer_key "@5 Jump" "@5(12) Move 1").2.1 ['1', '2'] (by decide) (by decide)
    (by decide), by decide, by decide⟩

/-- C19. `stableSort` permutes: with a host sort that rearranges the array it is given,
for every array and every comparator the array after `stableSort` is a permutation of the
array before, of the same length. -/
theorem stableSort_perm {α : Type}
    (sort : (α × Nat → α × Nat → Number) → List (α × Nat) → List (α × Nat))
    (hperm : ∀ cmp l, (sort cmp l).Perm l) (array : List α) (compare : α → α → Number) :
    (stableSort sort array compare).Perm array ∧
    (stableSort sort array compare).length = array.length := by
  have h : (stableSort sort array compare).Perm array := by
    have h1 := (hperm (keyedCompare compare) (keyedFrom 0 array)).map Prod.fst
    rwa [keyedFrom_map_fst] at h1
  exact ⟨h, h.length_eq⟩

/-- Witness for C19: a comparator that is no order at all (it answers 1 for every pair)
still leaves a permutation. -/
theorem stableSort_perm_witness :
    ((stableSort refSort [3, 1, 2] (fun (_ _ : Nat) => (1 : Number))).Perm [3, 1, 2] ∧
      (stableSort refSort [3, 1, 2] (fun (_ _ : Nat) => (1 : Number))).length
        = [3, 1, 2].length) ∧
    stableSort refSort [3, 1, 2] (fun (_ _ : Nat) => (1 : Number)) = [2, 1, 3] :=
  ⟨stableSort_perm refSort (fun cmp l => refSort_contract.perm cmp l) [3, 1, 2] _, by decide⟩

/-- C20. The index tie-break makes the result independent of the underlying sort: for every
comparator that is a total preorder on the elements of the array, the keyed comparator is a
total preorder on the keyed array that never returns 0 for two different pairs, and with
every host sort that meets its contract, stable or not, the result of `stableSort` is the
result of the reference stable insertion sort with the same comparator. -/
theorem stableSort_independent {α : Type}
    (sort : (α × Nat → α × Nat → Number) → List (α × Nat) → List (α × Nat))
    (hS : SortContract sort) (array : List α) (compare : α → α → Number)
    (hP : TotalPreorderOn compare array) :
    TotalPreorderOn (keyedCompare compare) (keyedFrom 0 array) ∧
    (∀ a ∈ keyedFrom 0 array, ∀ b ∈ keyedFrom 0 array, a ≠ b →
      a.2 ≠ b.2 ∧ keyedCompare compare a b ≠ 0) ∧
    stableSort sort array compare = stableInsertionSort compare array := by
  refine ⟨keyed_totalPreorder compare 0 array hP, ?_,
    stableSort_eq_reference sort hS array compare hP⟩
  intro a ha b hb hne
  have h := keyedFrom_index_ne 0 array a b ha hb hne
  exact ⟨h, keyedCompare_ne_zero compare a b h⟩

/-- Witness for C20: on three lines of which two tie, a host sort that is not stable
reverses the tie when used alone, and `stableSort` over it returns what the reference stable
sort returns. -/
theorem stableSort_independent_witness :
    stableSort refSort ["@5(1) b", "@1 c", "@5(1) a"] canonCompare
      = stableInsertionSort canonCompare ["@5(1) b", "@1 c", "@5(1) a"] ∧
    stableInsertionSort canonCompare ["@5(1) b", "@1 c", "@5(1) a"]
      = ["@1 c", "@5(1) b", "@5(1) a"] ∧
    refSort canonCompare ["@5(1) b", "@1 c", "@5(1) a"] = ["@1 c", "@5(1) a", "@5(1) b"] :=
  ⟨(stableSort_independent refSort refSort_contract ["@5(1) b", "@1 c", "@5(1) a"] canonCompare
    (canonCompare_totalPreorder _ (by decide))).2.2, by decide, by decide⟩

/-! ## The registry and the last record -/

/-- With opcodes that are pairwise different, the opcode of a handler of the list finds
it. -/
theorem byteTable_of_mem (hs : List (FrameHandler σ)) (h : FrameHandler σ) (hmem : h ∈ hs)
    (hnd : (hs.map (fun x => x.opcode)).Nodup) :
    inputActionByteToFrameHandler hs h.opcode = some h := by
  unfold inputActionByteToFrameHandler
  generalize (fun _ => Option.none : Nat → Option (FrameHandler σ)) = t0
  induction hs generalizing t0 with
  | nil => cases hmem
  | cons a hs ih =>
    rw [List.foldl_cons]
    rw [List.map_cons, List.nodup_cons] at hnd
    rcases List.mem_cons.mp hmem with h1 | h1
    · subst h1
      have hno : ∀ x ∈ hs, x.opcode ≠ h.opcode := by
        intro x hx hxe
        exact hnd.1 (List.mem_map.mpr ⟨x, hx, hxe⟩)
      have hkeep : ∀ (t : Nat → Option (FrameHandler σ)), t h.opcode = some h →
          hs.foldl (fun tbl h => fun k => if k = h.opcode then some h else tbl k) t h.opcode
            = some h := by
        intro t ht
        clear ih hmem hnd
        induction hs generalizing t with
        | nil => exact ht
        | cons b hs ih2 =>
          rw [List.foldl_cons]
          apply ih2
          · intro x hx
            exact hno x (List.mem_cons_of_mem _ hx)
          · have hb : h.opcode ≠ b.opcode := fun e => hno b (List.mem_cons_self _ _) e.symm
            simp only [hb, if_false]
            exact ht
      apply hkeep
      simp
    · exact ih h1 hnd.2 _

/-- An opcode that no handler of the list has finds nothing. -/
theorem byteTable_none (hs : List (FrameHandler σ)) (k : Nat)
    (hno : ∀ h ∈ hs, h.opcode ≠ k) : inputActionByteToFrameHandler hs k = Option.none := by
  cases hk : inputActionByteToFrameHandler hs k with
  | none => rfl
  | some h =>
    have h1 := byteTable_some hs k h hk
    exact absurd h1.2 (hno h h1.1)

theorem nameTable_foldl_not_mem (hs : List (FrameHandler σ)) (t0 : String → Slot σ)
    (k : String) (hno : ∀ h ∈ hs, h.name ≠ k) :
    hs.foldl (fun tbl h => fun k => if k = h.name then Slot.handler h else tbl k) t0 k
      = t0 k := by
  induction hs generalizing t0 with
  | nil => rfl
  | cons a hs ih =>
    rw [List.foldl_cons, ih _ (fun h hh => hno h (List.mem_cons_of_mem _ hh))]
    have ha : k ≠ a.name := fun e => hno a (List.mem_cons_self _ _) e.symm
    simp only [ha, if_false]

/-- A name that no handler of the list has finds what the array object has under that key
by itself. -/
theorem nameTable_not_mem (inh : String → Bool) (hs : List (FrameHandler σ)) (k : String)
    (hno : ∀ h ∈ hs, h.name ≠ k) :
    inputActionNameToFrameHandler inh hs k
      = if inh k then Slot.inherited else Slot.undefined := by
  unfold inputActionNameToFrameHandler
  rw [nameTable_foldl_not_mem hs _ k hno]

/-- For a name that no handler has and that the array object answers by itself, the body
of the encode loop runs the writes of lines 81 to 83 with `undefined` for the opcode. -/
theorem encodeLine_inherited (E : Env σ) (c : Char) (s : σ) (len : Nat)
    (hc : c = '@' ∨ c = '+')
    (hno : ∀ h ∈ E.frameHandlers, h.name ≠ (fetchCommand E.prims c s).2.1)
    (hinh : E.inheritedKey (fetchCommand E.prims c s).2.1 = true) :
    encodeLine E c s len = writeRecord E.prims Option.none ArgSpec.none
      (fetchCommand E.prims c s).1.1 (fetchCommand E.prims c s).1.2
      (fetchCommand E.prims c s).2.2 := by
  rw [encodeLine_command E c s len hc, nameTable_not_mem _ _ _ hno, hinh]
  rfl

/-- C4, the defect. A command line whose name no handler of the registry has is not always
where the pass stops: when the array object answers to the name by itself, line 75 does not
fire, the three header writes of lines 81 to 83 run with `undefined` for the opcode, and
when they leave the error signal empty the line ends like a well-formed record: the
checkpoint moves behind what was written for it and the loop goes on with the next line. -/
theorem unknown_name_not_aborted (E : Env σ) (fuel : Nat) (c : Char) (s : σ) (len : Nat)
    (hmore : E.prims.eof s = false) (hc : c = '@' ∨ c = '+')
    (hno : ∀ h ∈ E.frameHandlers, h.name ≠ (fetchCommand E.prims c s).2.1)
    (hinh : E.inheritedKey (fetchCommand E.prims c s).2.1 = true)
    (hok : E.prims.error (writeHeader E.prims Option.none (fetchCommand E.prims c s).1.1
      (fetchCommand E.prims c s).1.2 (fetchCommand E.prims c s).2.2) = "") :
    encodeLine E c s len
      = LineResult.next
          (writeHeader E.prims Option.none (fetchCommand E.prims c s).1.1
            (fetchCommand E.prims c s).1.2 (fetchCommand E.prims c s).2.2)
          (jsLength (E.prims.datString (writeHeader E.prims Option.none
            (fetchCommand E.prims c s).1.1 (fetchCommand E.prims c s).1.2
            (fetchCommand E.prims c s).2.2))) ∧
    encodeLoop E (fuel + 1) c s len
      = encodeLoop E fuel
          (E.prims.fetchChar (E.prims.fetchRestOfLine (writeHeader E.prims Option.none
            (fetchCommand E.prims c s).1.1 (fetchCommand E.prims c s).1.2
            (fetchCommand E.prims c s).2.2))).1
          (E.prims.fetchChar (E.prims.fetchRestOfLine (writeHeader E.prims Option.none
            (fetchCommand E.prims c s).1.1 (fetchCommand E.prims c s).1.2
            (fetchCommand E.prims c s).2.2))).2
          (jsLength (E.prims.datString (writeHeader E.prims Option.none
            (fetchCommand E.prims c s).1.1 (fetchCommand E.prims c s).1.2
            (fetchCommand E.prims c s).2.2))) := by
  have hline : encodeLine E c s len
      = LineResult.next
          (writeHeader E.prims Option.none (fetchCommand E.prims c s).1.1
            (fetchCommand E.prims c s).1.2 (fetchCommand E.prims c s).2.2)
          (jsLength (E.prims.datString (writeHeader E.prims Option.none
            (fetchCommand E.prims c s).1.1 (fetchCommand E.prims c s).1.2
            (fetchCommand E.prims c s).2.2))) := by
    rw [encodeLine_inherited E c s len hc hno hinh]
    simp only [writeRecord, writeFrame, writeArgs, hok, ne_eq, not_true_eq_false, if_false]
  exact ⟨hline, encodeLoop_next E fuel c s len _ _ hmore hline⟩

/-- Witness for C4, the defect: the registry of `refEnv` has no handler named `constructor`;
with a `write.uint8` that takes `undefined` without an error, the line `@0(0) constructor` after
one `Move` record does not stop the pass, and the output holds the bytes of the first record,
seven bytes written for the line with the unknown name and the bytes of the `Jump` record
after it; with the `write.uint8` of `refPrims`, which sets the error signal, the same text
gives the bytes of the first record only. -/
theorem unknown_name_not_aborted_witness :
    (encodeLine lenientEnv '@' (encodeStart lenientEnv (RefState.ofBytes [])
        "@0(0) constructor\n@5 Jump\n").2 0
      = LineResult.next
          (writeHeader lenientPrims Option.none 0 (some 0)
            (fetchCommand lenientPrims '@' (encodeStart lenientEnv (RefState.ofBytes [])
              "@0(0) constructor\n@5 Jump\n").2).2.2) 14) ∧
    (∀ h ∈ lenientEnv.frameHandlers, h.name ≠ "constructor") ∧
    getReplayDatBytes lenientEnv 4 (RefState.ofBytes [])
        "@0(1) Move 5\n@0(0) constructor\n@5 Jump\n"
      = some [1, 0, 0, 0, 0, 0, 1, 5, 0, 0, 0, 0, 0, 0, 0, 2, 0, 0, 0, 5, 255, 255] ∧
    getReplayDatBytes refEnv 4 (RefState.ofBytes [])
        "@0(1) Move 5\n@0(0) constructor\n@5 Jump\n"
      = some [1, 0, 0, 0, 0, 0, 1, 5] :=
  ⟨(unknown_name_not_aborted lenientEnv 2 '@' (encodeStart lenientEnv (RefState.ofBytes [])
      "@0(0) constructor\n@5 Jump\n").2 0 (by decide) (Or.inl rfl) (by decide) (by decide)
      (by decide)).1.trans (by rfl),
    by decide, by decide, by decide⟩

/-- C16, the defect. Lookup of a name that no handler has does not always return nothing:
in the name table of the reference registry, which has no handler named `constructor`, that
key is answered by the array object itself, so the body of the encode loop for the line
`@0 constructor` does not take the "name not found" exit of lines 75 to 79 but goes on to the
writes of lines 81 to 83, with `undefined` for the opcode. -/
theorem lookup_inherited_name :
    (∀ h ∈ refEnv.frameHandlers, h.name ≠ "constructor") ∧
    inputActionNameToFrameHandler refEnv.inheritedKey refEnv.frameHandlers "constructor"
      = Slot.inherited ∧
    (fetchCommand refEnv.prims '@'
      (encodeStart refEnv (RefState.ofBytes []) "@0 constructor\n").2).2.1 = "constructor" ∧
    encodeLine refEnv '@' (encodeStart refEnv (RefState.ofBytes []) "@0 constructor\n").2 0
      = writeRecord refEnv.prims Option.none ArgSpec.none 0 Option.none
          (fetchCommand refEnv.prims '@'
            (encodeStart refEnv (RefState.ofBytes []) "@0 constructor\n").2).2.2 := by
  refine ⟨by decide, by rfl, by decide, by rfl⟩

theorem byteTable_snoc (hs : List (FrameHandler σ)) (h : FrameHandler σ) (k : Nat) :
    inputActionByteToFrameHandler (hs ++ [h]) k
      = if k = h.opcode then some h else inputActionByteToFrameHandler hs k := by
  simp [inputActionByteToFrameHandler, List.foldl_append]

theorem nameTable_snoc (inh : String → Bool) (hs : List (FrameHandler σ)) (h : FrameHandler σ)
    (k : String) :
    inputActionNameToFrameHandler inh (hs ++ [h]) k
      = if k = h.name then Slot.handler h else inputActionNameToFrameHandler inh hs k := by
  simp [inputActionNameToFrameHandler, List.foldl_append]

/-- C17 as stated fails: the handler list of `dupEnv` has two handlers with opcode 1 and
two handlers named `Jump`; the two tables are built all the same, opcode 1 finds the later
handler `Step`, the name `Jump` finds the later handler of opcode 4, and both passes run
with this registry. -/
theorem duplicate_keys_counterexample :
    (inputActionByteToFrameHandler dupEnv.frameHandlers 1).map (fun h => h.name) = some "Step" ∧
    inputActionNameToFrameHandler dupEnv.inheritedKey dupEnv.frameHandlers "Jump"
      = Slot.handler ⟨4, "Jump", ArgSpec.single "uint8"⟩ ∧
    parseReplayDat dupEnv 2 (RefState.ofBytes []) [1, 0, 0, 0, 5, 255, 255] = some "@5 Step\n" ∧
    getReplayDatBytes dupEnv 2 (RefState.ofBytes []) "@5 Jump 9\n"
      = some [4, 0, 0, 0, 5, 255, 255, 9] := by
  refine ⟨by decide, by rfl, by decide, by decide⟩

/-- C17, amended. Duplicate registry keys do not fail: for every handler list the two
tables are built, and an opcode (a name) finds the last handler of the list that has it;
a name that no handler has finds what the array object has under that key by itself. -/
theorem registry_last_wins (inh : String → Bool) (hs : List (FrameHandler σ)) :
    (∀ k, inputActionByteToFrameHandler hs k
      = hs.reverse.find? (fun h => decide (k = h.opcode))) ∧
    (∀ k, inputActionNameToFrameHandler inh hs k
      = match hs.reverse.find? (fun h => decide (k = h.name)) with
        | some h => Slot.handler h
        | Option.none => if inh k then Slot.inherited else Slot.undefined) := by
  induction hs using List.reverseRecOn with
  | nil => exact ⟨fun _ => rfl, fun _ => rfl⟩
  | append_singleton hs h ih =>
    constructor
    · intro k
      rw [byteTable_snoc, List.reverse_append, List.reverse_singleton, List.singleton_append,
        List.find?_cons]
      by_cases hk : k = h.opcode
      · simp [hk]
      · simp only [hk, if_false, decide_False]
        exact ih.1 k
    · intro k
      rw [nameTable_snoc, List.reverse_append, List.reverse_singleton, List.singleton_append,
        List.find?_cons]
      by_cases hk : k = h.name
      · simp [hk]
      · simp only [hk, if_false, decide_False]
        exact ih.2 k

/-- C18 as stated fails: in the buffer of a `Jump` record followed by the unknown opcode 9
and six bytes, the opcode and tick reads of the last record consume the final byte, and the
output ends with a blank line after the line of the `Jump` record. -/
theorem trailing_blank_line_counterexample :
    parseReplayDat refEnv 3 (RefState.ofBytes [])
      [2, 0, 0, 0, 5, 255, 255, 9, 0, 0, 0, 0, 0, 1] = some "@5 Jump\n\n" ∧
    inputActionByteToFrameHandler refEnv.frameHandlers 9 = Option.none := by
  refine ⟨by decide, by rfl⟩

/-- C18, amended. No garbage line: when the opcode of the last record has no handler and
the opcode and tick reads reach the end of the buffer, the fallback is not called and the
record contributes exactly one empty line, that is one newline, to the output, after which
the loop ends in the state the tick read left. -/
theorem unhandled_at_end_blank_line (E : Env σ) (fuel : Nat) (s : σ) (result : String)
    (hmore : E.prims.eof s = false)
    (hnone : inputActionByteToFrameHandler E.frameHandlers (E.prims.readUint8 s).1 = Option.none)
    (hend : E.prims.eof (E.prims.readTick (E.prims.readUint8 s).2).2 = true) :
    parseRecord E s = ("", (E.prims.readTick (E.prims.readUint8 s).2).2) ∧
    parseLoop E (fuel + 2) s result
      = some (result ++ "\n", (E.prims.readTick (E.prims.readUint8 s).2).2) := by
  have hrec : parseRecord E s = ("", (E.prims.readTick (E.prims.readUint8 s).2).2) := by
    rw [parseRecord_unknown E s hnone]
    simp only [hend, if_true]
  refine ⟨hrec, ?_⟩
  rw [parseLoop_more E (fuel + 1) s result hmore, hrec, parseLoop_end E fuel _ _ hend]
  simp

/-- Witness for C18, amended: after the `Jump` record, the unknown opcode 9 with six bytes
adds one newline to the text so far and nothing else. -/
theorem unhandled_at_end_blank_line_witness :
    parseLoop refEnv 2 ⟨[2, 0, 0, 0, 5, 255, 255, 9, 0, 0, 0, 0, 0, 1], [], 7, "", "", 0, []⟩
        "@5 Jump\n"
      = some ("@5 Jump\n\n",
          ⟨[2, 0, 0, 0, 5, 255, 255, 9, 0, 0, 0, 0, 0, 1], [], 14, "", "", 0, []⟩) :=
  ((unhandled_at_end_blank_line refEnv 0
    ⟨[2, 0, 0, 0, 5, 255, 255, 9, 0, 0, 0, 0, 0, 1], [], 7, "", "", 0, []⟩ "@5 Jump\n"
    (by decide) (by rfl) (by decide)).2).trans (by decide)

end FactorioReplay
